import Mathlib

/-!
Verification of the `route` path-planning library: a weighted adjacency-matrix
graph store (`WeightedAdjMatrixGraph`, alias `WGraph`) together with four
path-search algorithms (Dijkstra, a genetic algorithm, simulated-annealing
local search, and a hybrid genetic + 2-opt local search) and the concurrent
benchmark harness that drives them.

The C++ sources (`data.hpp` / `data.cpp`, `tool.hpp`, `menu.hpp`) are embedded
shallowly: the dense N×N weight matrix becomes a `List (List Int)`, C++ `int`
values become unbounded `Int` with the explicit `INT_MAX` constant where the
source compares against `std::numeric_limits<int>::max()`, and the two sources
of randomness (`std::mt19937` draws and `std::rand()`) are threaded in as
explicit oracle arguments, so every stochastic algorithm is modelled as a
deterministic function of the graph and its random draws.
-/

namespace Route

/-- C++ `std::numeric_limits<int>::max()`, the "unreached" marker in `dijkstra`. -/
def INTMAX : Int := 2147483647

/-- Read entry `(i, j)` of the row-major weight matrix.  Out-of-range reads
default to the no-edge sentinel `-1`; in the C++ source every matrix access is
made with indices inside the N×N allocation, so on those indices this function
agrees with `m_adjMatrix[i][j]`. -/
def mget (m : List (List Int)) (i j : Nat) : Int :=
  (m.getD i []).getD j (-1)

/-- Write entry `(i, j)` of the weight matrix (`m_adjMatrix[i][j] = w`). -/
def mset (m : List (List Int)) (i j : Nat) (w : Int) : List (List Int) :=
  m.set i ((m.getD i []).set j w)

/-- Weight lookup with C++ `int` (possibly negative) indices. -/
def mgetI (m : List (List Int)) (i j : Int) : Int :=
  if 0 ≤ i ∧ 0 ≤ j then mget m i.toNat j.toNat else -1

/-- The graph store of `data.hpp`: vertex capacity `m_vertices`, dense weight
matrix `m_adjMatrix` and the monotone edge counter `m_edges`.  The id→vertex
registry `m_vertexMap` is not modelled: no claim touches vertex records, and no
search algorithm reads them. -/
structure WGraph where
  m_vertices : Nat
  m_adjMatrix : List (List Int)
  m_edges : Nat

/-- Constructor `WeightedAdjMatrixGraph(int v)`: an N×N matrix filled with the
sentinel `-1` and zero edges. -/
def mkGraph (v : Nat) : WGraph :=
  ⟨v, List.replicate v (List.replicate v (-1)), 0⟩

/-- Member `addEdge(src, dest, weight)`: writes both `(src,dest)` and
`(dest,src)` and bumps the edge counter, but only when both endpoints are in
`[0, m_vertices)` and the weight is strictly positive; otherwise a silent
no-op. -/
def WGraph.addEdge (g : WGraph) (src dest weight : Int) : WGraph :=
  if 0 ≤ src ∧ src < (g.m_vertices : Int) ∧ 0 ≤ dest ∧ dest < (g.m_vertices : Int)
      ∧ 0 < weight then
    { g with
      m_adjMatrix :=
        mset (mset g.m_adjMatrix src.toNat dest.toNat weight) dest.toNat src.toNat weight,
      m_edges := g.m_edges + 1 }
  else g

/-- Member `getWeight(src, dest)`: the stored weight for in-range indices and
`-1` otherwise. -/
def WGraph.getWeight (g : WGraph) (src dest : Int) : Int :=
  if 0 ≤ src ∧ src < (g.m_vertices : Int) ∧ 0 ≤ dest ∧ dest < (g.m_vertices : Int) then
    mget g.m_adjMatrix src.toNat dest.toNat
  else -1

/-- Replay a whole sequence of `addEdge` calls, in order. -/
def applyEdges (g : WGraph) (ops : List (Int × Int × Int)) : WGraph :=
  ops.foldl (fun h t => h.addEdge t.1 t.2.1 t.2.2) g

/-! Basic list-access lemmas used throughout. -/

theorem getD_set (l : List Int) (i j : Nat) (a d : Int) :
    (l.set i a).getD j d = if i = j ∧ j < l.length then a else l.getD j d := by
  induction l generalizing i j with
  | nil => simp [List.getD]
  | cons x xs ih =>
    cases i with
    | zero =>
      cases j with
      | zero => simp
      | succ j => simp [List.getD]
    | succ i =>
      cases j with
      | zero => simp [List.getD]
      | succ j =>
        simpa [List.getD, Nat.succ_lt_succ_iff] using ih i j

theorem getD_replicate (n j : Nat) (x d : Int) :
    (List.replicate n x).getD j d = if j < n then x else d := by
  induction n generalizing j with
  | zero => simp [List.getD]
  | succ n ih =>
    cases j with
    | zero => simp [List.replicate]
    | succ j => simpa [List.replicate, List.getD, Nat.succ_lt_succ_iff] using ih j

theorem getD_rowset (m : List (List Int)) (i j : Nat) (r : List Int) :
    (m.set i r).getD j [] = if i = j ∧ j < m.length then r else m.getD j [] := by
  induction m generalizing i j with
  | nil => simp [List.getD]
  | cons x xs ih =>
    cases i with
    | zero =>
      cases j with
      | zero => simp
      | succ j => simp [List.getD]
    | succ i =>
      cases j with
      | zero => simp [List.getD]
      | succ j =>
        simpa [List.getD, Nat.succ_lt_succ_iff] using ih i j

/-- Shape predicate: the matrix really is N×N. -/
def MatShape (n : Nat) (m : List (List Int)) : Prop :=
  m.length = n ∧ ∀ r ∈ m, r.length = n

theorem matShape_mk (v : Nat) : MatShape v (mkGraph v).m_adjMatrix := by
  constructor
  · simp [mkGraph]
  · intro r hr
    simp [mkGraph] at hr
    simp [hr.2]

theorem matShape_mset (n : Nat) (m : List (List Int)) (i j : Nat) (w : Int)
    (h : MatShape n m) : MatShape n (mset m i j w) := by
  obtain ⟨hlen, hrow⟩ := h
  rcases Nat.lt_or_ge i m.length with hi | hi
  · constructor
    · simp [mset, hlen]
    · intro r hr
      rcases List.mem_or_eq_of_mem_set hr with h1 | h2
      · exact hrow r h1
      · subst h2
        have hmem : m.getD i [] ∈ m := by
          rw [List.getD_eq_getElem m [] hi]
          exact m.getElem_mem hi
        rw [List.length_set]
        exact hrow _ hmem
  · rw [mset, List.set_eq_of_length_le hi]
    exact ⟨hlen, hrow⟩

theorem mget_mset (m : List (List Int)) (a b i j : Nat) (w : Int) :
    mget (mset m a b w) i j =
      if a = i ∧ b = j ∧ a < m.length ∧ b < (m.getD a []).length then w
      else mget m i j := by
  unfold mget mset
  rw [getD_rowset]
  by_cases hai : a = i
  · subst hai
    by_cases ha : a < m.length
    · rw [if_pos ⟨rfl, ha⟩, getD_set]
      by_cases hbj : b = j
      · subst hbj
        simp [ha]
      · simp [hbj]
    · rw [if_neg (by tauto)]
      simp [ha]
  · rw [if_neg (by tauto)]
    simp [hai]

theorem getD_rowreplicate (n j : Nat) (x : List Int) :
    (List.replicate n x).getD j [] = if j < n then x else [] := by
  induction n generalizing j with
  | zero => simp [List.getD]
  | succ n ih =>
    cases j with
    | zero => simp [List.replicate]
    | succ j => simpa [List.replicate, List.getD, Nat.succ_lt_succ_iff] using ih j

theorem row_len (n : Nat) (m : List (List Int)) (h : MatShape n m) (i : Nat) (hi : i < n) :
    (m.getD i []).length = n := by
  have hlt : i < m.length := h.1 ▸ hi
  have hmem : m.getD i [] ∈ m := by
    rw [List.getD_eq_getElem m [] hlt]
    exact m.getElem_mem hlt
  exact h.2 _ hmem

theorem mget_mk (v i j : Nat) : mget (mkGraph v).m_adjMatrix i j = -1 := by
  unfold mget mkGraph
  simp only
  rw [getD_rowreplicate]
  by_cases hi : i < v
  · rw [if_pos hi, getD_replicate]
    by_cases hj : j < v <;> simp [hj]
  · simp [hi, List.getD]

theorem mget_mset_shaped (n : Nat) (m : List (List Int)) (a b i j : Nat) (w : Int)
    (h : MatShape n m) (ha : a < n) (hb : b < n) :
    mget (mset m a b w) i j = if a = i ∧ b = j then w else mget m i j := by
  rw [mget_mset]
  have h1 : a < m.length := h.1 ▸ ha
  have h2 : b < (m.getD a []).length := (row_len n m h a ha) ▸ hb
  by_cases hc : a = i ∧ b = j
  · rw [if_pos ⟨hc.1, hc.2, h1, h2⟩, if_pos hc]
  · rw [if_neg (by tauto), if_neg hc]

/-- Well-formedness of the store, as established by construction: the matrix is
N×N, symmetric, and every entry is either the sentinel `-1` or strictly
positive (the `weight > 0` guard of `addEdge`). -/
def WGraph.WellFormed (g : WGraph) : Prop :=
  MatShape g.m_vertices g.m_adjMatrix ∧
  (∀ i j, mget g.m_adjMatrix i j = mget g.m_adjMatrix j i) ∧
  (∀ i j, mget g.m_adjMatrix i j = -1 ∨ 0 < mget g.m_adjMatrix i j)

theorem wellFormed_mk (v : Nat) : (mkGraph v).WellFormed := by
  refine ⟨matShape_mk v, ?_, ?_⟩
  · intro i j; rw [mget_mk, mget_mk]
  · intro i j; left; exact mget_mk v i j

theorem wellFormed_addEdge (g : WGraph) (src dest weight : Int) (h : g.WellFormed) :
    (g.addEdge src dest weight).WellFormed := by
  unfold WGraph.addEdge
  by_cases hc : 0 ≤ src ∧ src < (g.m_vertices : Int) ∧ 0 ≤ dest ∧ dest < (g.m_vertices : Int)
      ∧ 0 < weight
  · rw [if_pos hc]
    obtain ⟨hshape, hsym, hpos⟩ := h
    set n := g.m_vertices with hn
    set s := src.toNat with hs
    set d := dest.toNat with hd
    have hsn : s < n := by omega
    have hdn : d < n := by omega
    have hshape1 : MatShape n (mset g.m_adjMatrix s d weight) :=
      matShape_mset n _ s d weight hshape
    have hshape2 : MatShape n (mset (mset g.m_adjMatrix s d weight) d s weight) :=
      matShape_mset n _ d s weight hshape1
    have hget : ∀ i j, mget (mset (mset g.m_adjMatrix s d weight) d s weight) i j =
        if d = i ∧ s = j then weight
        else if s = i ∧ d = j then weight else mget g.m_adjMatrix i j := by
      intro i j
      rw [mget_mset_shaped n _ d s i j weight hshape1 hdn hsn,
        mget_mset_shaped n _ s d i j weight hshape hsn hdn]
    refine ⟨hshape2, ?_, ?_⟩
    · intro i j
      rw [hget i j, hget j i]
      by_cases h1 : d = i ∧ s = j
      · rw [if_pos h1]
        by_cases h2 : d = j ∧ s = i
        · rw [if_pos h2]
        · rw [if_neg h2, if_pos ⟨h1.2, h1.1⟩]
      · rw [if_neg h1]
        by_cases h2 : s = i ∧ d = j
        · rw [if_pos h2, if_pos ⟨h2.2, h2.1⟩]
        · rw [if_neg h2, if_neg (fun hh => h2 ⟨hh.2, hh.1⟩), if_neg (fun hh => h1 ⟨hh.2, hh.1⟩)]
          exact hsym i j
    · intro i j
      rw [hget i j]
      by_cases h1 : d = i ∧ s = j
      · rw [if_pos h1]; right; exact hc.2.2.2.2
      · rw [if_neg h1]
        by_cases h2 : s = i ∧ d = j
        · rw [if_pos h2]; right; exact hc.2.2.2.2
        · rw [if_neg h2]; exact hpos i j
  · rw [if_neg hc]; exact h

theorem wGraph_addEdge_vertices (g : WGraph) (src dest weight : Int) :
    (g.addEdge src dest weight).m_vertices = g.m_vertices := by
  unfold WGraph.addEdge
  split <;> rfl

theorem applyEdges_wellFormed (ops : List (Int × Int × Int)) (g : WGraph)
    (h : g.WellFormed) : (applyEdges g ops).WellFormed := by
  induction ops generalizing g with
  | nil => exact h
  | cons op rest ih =>
    exact ih _ (wellFormed_addEdge g op.1 op.2.1 op.2.2 h)

theorem applyEdges_vertices (ops : List (Int × Int × Int)) (g : WGraph) :
    (applyEdges g ops).m_vertices = g.m_vertices := by
  induction ops generalizing g with
  | nil => rfl
  | cons op rest ih =>
    rw [applyEdges, List.foldl_cons, ← applyEdges, ih, wGraph_addEdge_vertices]

theorem getWeight_symm_of_wellFormed (g : WGraph) (h : g.WellFormed) (src dest : Int) :
    g.getWeight src dest = g.getWeight dest src := by
  unfold WGraph.getWeight
  by_cases hc : 0 ≤ src ∧ src < (g.m_vertices : Int) ∧ 0 ≤ dest ∧ dest < (g.m_vertices : Int)
  · rw [if_pos hc, if_pos (by tauto), h.2.1]
  · rw [if_neg hc, if_neg (by tauto)]

/-! Paths, validity and distance (`tool.hpp` / the private statics of `data.hpp`). -/

/-- Function `is_valid_path(path, adj_matrix)`: every consecutive pair of the
vertex sequence must have a non-sentinel weight. -/
def is_valid_path (path : List Int) (m : List (List Int)) : Bool :=
  match path with
  | a :: b :: rest => (mgetI m a b != -1) && is_valid_path (b :: rest) m
  | _ => true

/-- Total distance of a path: the sum of the weights of its consecutive pairs.
This is the value `calculate_path_distance` accumulates when no edge is
missing. -/
def pathCost (m : List (List Int)) : List Int → Int
  | a :: b :: rest => mgetI m a b + pathCost m (b :: rest)
  | _ => 0

/-- Function `calculate_path_distance(path, adj_matrix)`: walks the consecutive
pairs accumulating their weights and throws `std::invalid_argument` at the
first pair whose weight is the sentinel `-1`.  The thrown exception is modelled
as `Except.error`. -/
def calculate_path_distance (path : List Int) (m : List (List Int)) : Except String Int :=
  match path with
  | a :: b :: rest =>
    if mgetI m a b = -1 then Except.error "invalid edge in path"
    else
      match calculate_path_distance (b :: rest) m with
      | Except.error e => Except.error e
      | Except.ok dist => Except.ok (mgetI m a b + dist)
  | _ => Except.ok 0

/-- Proposition: some consecutive pair of `path` carries the sentinel weight. -/
def HasBadEdge (m : List (List Int)) (path : List Int) : Prop :=
  ∃ i, i + 1 < path.length ∧ mgetI m (path.getD i 0) (path.getD (i + 1) 0) = -1

theorem hasBadEdge_cons (m : List (List Int)) (a b : Int) (rest : List Int) :
    HasBadEdge m (a :: b :: rest) ↔ mgetI m a b = -1 ∨ HasBadEdge m (b :: rest) := by
  constructor
  · rintro ⟨i, hi, hbad⟩
    cases i with
    | zero => left; simpa [List.getD] using hbad
    | succ i =>
      right
      refine ⟨i, ?_, ?_⟩
      · simpa [Nat.succ_lt_succ_iff] using hi
      · simpa [List.getD] using hbad
  · rintro (hbad | ⟨i, hi, hbad⟩)
    · exact ⟨0, by simp [List.getD], by simpa [List.getD] using hbad⟩
    · refine ⟨i + 1, ?_, ?_⟩
      · simpa [Nat.succ_lt_succ_iff] using hi
      · simpa [List.getD] using hbad

theorem hasBadEdge_short (m : List (List Int)) (path : List Int)
    (h : path.length ≤ 1) : ¬ HasBadEdge m path := by
  rintro ⟨i, hi, _⟩
  omega

theorem is_valid_path_iff (m : List (List Int)) (path : List Int) :
    is_valid_path path m = true ↔ ¬ HasBadEdge m path := by
  induction path with
  | nil => simp [is_valid_path, hasBadEdge_short m [] (by simp)]
  | cons a tail ih =>
    cases tail with
    | nil => simp [is_valid_path, hasBadEdge_short m [a] (by simp)]
    | cons b rest =>
      rw [is_valid_path, hasBadEdge_cons]
      rw [Bool.and_eq_true, bne_iff_ne, ih]
      constructor
      · rintro ⟨hne, hvalid⟩ (hbad | hbad)
        · exact hne hbad
        · exact hvalid hbad
      · intro h
        exact ⟨fun hbad => h (Or.inl hbad), fun hbad => h (Or.inr hbad)⟩

theorem calculate_path_distance_spec (m : List (List Int)) (path : List Int) :
    ((∃ e, calculate_path_distance path m = Except.error e) ↔ HasBadEdge m path) ∧
    (¬ HasBadEdge m path → calculate_path_distance path m = Except.ok (pathCost m path)) := by
  induction path with
  | nil =>
    refine ⟨⟨?_, ?_⟩, ?_⟩
    · rintro ⟨e, he⟩; simp [calculate_path_distance] at he
    · intro h; exact absurd h (hasBadEdge_short m [] (by simp))
    · intro _; simp [calculate_path_distance, pathCost]
  | cons a tail ih =>
    cases tail with
    | nil =>
      refine ⟨⟨?_, ?_⟩, ?_⟩
      · rintro ⟨e, he⟩; simp [calculate_path_distance] at he
      · intro h; exact absurd h (hasBadEdge_short m [a] (by simp))
      · intro _; simp [calculate_path_distance, pathCost]
    | cons b rest =>
      rw [calculate_path_distance, hasBadEdge_cons]
      by_cases hab : mgetI m a b = -1
      · rw [if_pos hab]
        refine ⟨⟨fun _ => Or.inl hab, fun _ => ⟨_, rfl⟩⟩, ?_⟩
        intro h; exact absurd (Or.inl hab) h
      · rw [if_neg hab]
        obtain ⟨ih1, ih2⟩ := ih
        constructor
        · constructor
          · rintro ⟨e, he⟩
            right
            rcases hrec : calculate_path_distance (b :: rest) m with e2 | v
            · exact ih1.mp ⟨e2, hrec⟩
            · rw [hrec] at he; simp at he
          · rintro (hbad | hbad)
            · exact absurd hbad hab
            · obtain ⟨e, he⟩ := ih1.mpr hbad
              rw [he]
              exact ⟨e, rfl⟩
        · intro h
          have hnot : ¬ HasBadEdge m (b :: rest) := fun hb => h (Or.inr hb)
          rw [ih2 hnot, pathCost]

/-- C5.  On a nonempty path of in-range vertex indices,
`calculate_path_distance(path, adj_matrix)` throws `std::invalid_argument` if
and only if some consecutive pair of `path` has the sentinel weight `-1` in
`adj_matrix`; otherwise it does not throw and returns the sum of the
consecutive edge weights. -/
theorem claim_C5_calculate_path_distance (n : Nat) (m : List (List Int)) (path : List Int)
    (hne : path ≠ []) (hshape : MatShape n m)
    (hmem : ∀ x ∈ path, 0 ≤ x ∧ x.toNat < n) :
    ((∃ e, calculate_path_distance path m = Except.error e) ↔ HasBadEdge m path) ∧
    (¬ HasBadEdge m path → calculate_path_distance path m = Except.ok (pathCost m path)) :=
  calculate_path_distance_spec m path

/-- Witness for C5: a concrete 2-vertex graph with edge `0–1` of weight `5`;
the distance of `[0, 1]` is computed without throwing, and the path `[1, 0, 1]`
on the edgeless 1-entry prefix throws.  Evaluates C5 at a concrete input. -/
theorem claim_C5_witness :
    ([ (0 : Int), 1 ] ≠ ([] : List Int)) ∧
    (calculate_path_distance [0, 1] [[-1, 5], [5, -1]] = Except.ok (pathCost [[-1, 5], [5, -1]] [0, 1])) := by
  have h := claim_C5_calculate_path_distance 2 [[-1, 5], [5, -1]] [0, 1]
    (by simp)
    (by refine ⟨rfl, ?_⟩; intro r hr; simp at hr; rcases hr with hr | hr <;> subst hr <;> decide)
    (by intro x hx; simp at hx; rcases hx with hx | hx <;> subst hx <;> decide)
  refine ⟨by simp, h.2 ?_⟩
  rintro ⟨i, hi, hbad⟩
  have hi0 : i = 0 := by simp at hi; omega
  subst hi0
  exact absurd hbad (by decide)

/-- C3.  After any sequence of `addEdge` calls on a freshly constructed graph,
`getWeight` is symmetric: `getWeight(src, dest) = getWeight(dest, src)` for all
index pairs (in particular all in-range ones), because every successful
insertion writes both `(src,dest)` and `(dest,src)`. -/
theorem claim_C3_addEdge_symmetry (v : Nat) (ops : List (Int × Int × Int)) (src dest : Int) :
    (applyEdges (mkGraph v) ops).getWeight src dest
      = (applyEdges (mkGraph v) ops).getWeight dest src :=
  getWeight_symm_of_wellFormed _ (applyEdges_wellFormed ops _ (wellFormed_mk v)) src dest

/-! Dijkstra (`WGraph::dijkstra`). -/

/-- State of the Dijkstra main loop: tentative distances `dist`, predecessor
array `prev`, and the min-priority frontier `pq`.  The C++
`std::priority_queue` with `std::greater<>` pops the lexicographically least
`(distance, vertex)` pair; it is modelled as a list kept sorted by that order,
popped at the head. -/
structure DState where
  dist : List Int
  prev : List Int
  pq : List (Int × Nat)

/-- Lexicographic order on `(distance, vertex)` pairs, the order of
`std::greater<>` on `std::pair<int,int>` (smallest first). -/
def pqLe (a b : Int × Nat) : Prop :=
  a.1 < b.1 ∨ (a.1 = b.1 ∧ a.2 ≤ b.2)

instance (a b : Int × Nat) : Decidable (pqLe a b) := by
  unfold pqLe; infer_instance

/-- Insert into the sorted frontier (`pq.emplace`). -/
def pqInsert (x : Int × Nat) : List (Int × Nat) → List (Int × Nat)
  | [] => [x]
  | y :: ys => if pqLe x y then x :: y :: ys else y :: pqInsert x ys

/-- One step of the relaxation scan: `if (weight != -1)` and
`if (dist[v] > dist[u] + weight)` update `dist[v]`, `prev[v]` and push
`(dist[v], v)`. -/
def relaxOne (m : List (List Int)) (u : Nat) (st : DState) (v : Nat) : DState :=
  let w := mget m u v
  if w ≠ -1 then
    if st.dist.getD v 0 > st.dist.getD u 0 + w then
      { dist := st.dist.set v (st.dist.getD u 0 + w)
        prev := st.prev.set v (u : Int)
        pq := pqInsert (st.dist.getD u 0 + w, v) st.pq }
    else st
  else st

/-- The dense relaxation scan `for (v = 0; v < m_vertices; ++v)`. -/
def relaxRow (m : List (List Int)) (n u : Nat) (st : DState) : DState :=
  (List.range n).foldl (relaxOne m u) st

/-- The `while (!pq.empty())` loop: pop the least pair, break if it is the
destination, otherwise relax all `N` neighbours.  The fuel argument only
bounds the iteration count; `dijkstra` supplies fuel that provably exceeds the
number of iterations any run can take, so the fuel-exhaustion branch is never
the one that produces the result. -/
def dijkstraLoop (m : List (List Int)) (n t : Nat) : Nat → DState → DState
  | 0, st => st
  | fuel + 1, st =>
    match st.pq with
    | [] => st
    | (_, u) :: rest =>
      if u = t then st
      else dijkstraLoop m n t fuel (relaxRow m n u { st with pq := rest })

/-- Path reconstruction `for (at = end; at != -1; at = prev[at])` followed by
the reversal; prepending while walking yields the already-reversed list. -/
def buildPath (prev : List Int) : Nat → Int → List Int → List Int
  | 0, _, acc => acc
  | fuel + 1, a, acc =>
    if a = -1 then acc else buildPath prev fuel (prev.getD a.toNat (-1)) (a :: acc)

/-- Member `dijkstra(start, end)`: returns the shortest path and its distance,
or `([], -1)` when an endpoint is out of range or the destination is
unreachable. -/
def WGraph.dijkstra (g : WGraph) (start e : Int) : List Int × Int :=
  if 0 ≤ start ∧ start < (g.m_vertices : Int) ∧ 0 ≤ e ∧ e < (g.m_vertices : Int) then
    let n := g.m_vertices
    let s := start.toNat
    let t := e.toNat
    let st0 : DState :=
      { dist := (List.replicate n INTMAX).set s 0
        prev := List.replicate n (-1)
        pq := [(0, s)] }
    let st := dijkstraLoop g.m_adjMatrix n t (n * 2147483647 + 2) st0
    if st.dist.getD t 0 = INTMAX then ([], -1)
    else (buildPath st.prev (n + 1) (t : Int) [], st.dist.getD t 0)
  else ([], -1)

/-- Sanity check of the embedding on the concrete scenario: edges A–B=5,
A–C=3, B–C=2, B–D=1, C–D=4 on 5 vertices; Dijkstra(A, D) = ([0, 1, 3], 6). -/
theorem dijkstra_scenario_check :
    (applyEdges (mkGraph 5) [(0, 1, 5), (0, 2, 3), (1, 2, 2), (1, 3, 1), (2, 3, 4)]).dijkstra 0 3
      = ([0, 1, 3], 6) := by decide

theorem dijkstraLoop_succ (m : List (List Int)) (n t fuel : Nat) (st : DState) :
    dijkstraLoop m n t (fuel + 1) st =
      match st.pq with
      | [] => st
      | (_, u) :: rest =>
        if u = t then st
        else dijkstraLoop m n t fuel (relaxRow m n u { st with pq := rest }) := by
  rw [dijkstraLoop]

theorem buildPath_succ (prev : List Int) (fuel : Nat) (a : Int) (acc : List Int) :
    buildPath prev (fuel + 1) a acc =
      if a = -1 then acc else buildPath prev fuel (prev.getD a.toNat (-1)) (a :: acc) := by
  rw [buildPath]

/-- C10.  For every in-range vertex `s`, `dijkstra(s, s)` pops `s` first,
breaks immediately, and returns the single-vertex path `[s]` with distance 0 —
never the no-path sentinel. -/
theorem claim_C10_dijkstra_self (g : WGraph) (s : Int)
    (h0 : 0 ≤ s) (h1 : s < (g.m_vertices : Int)) :
    g.dijkstra s s = ([s], 0) := by
  unfold WGraph.dijkstra
  rw [if_pos ⟨h0, h1, h0, h1⟩]
  simp only
  have hfuel : g.m_vertices * 2147483647 + 2 = (g.m_vertices * 2147483647 + 1) + 1 := rfl
  rw [hfuel, dijkstraLoop_succ]
  simp only [eq_self_iff_true, if_true]
  have hsn : s.toNat < g.m_vertices := by omega
  have hdist :
      (((List.replicate g.m_vertices INTMAX).set s.toNat 0).getD s.toNat 0 : Int) = 0 := by
    rw [getD_set]
    simp [List.length_replicate, hsn]
  rw [hdist]
  rw [if_neg (by norm_num [INTMAX])]
  have hn1 : g.m_vertices ≥ 1 := by omega
  have hb : buildPath (List.replicate g.m_vertices (-1)) (g.m_vertices + 1) s [] = [s] := by
    obtain ⟨k, hk⟩ : ∃ k, g.m_vertices = k + 1 := ⟨g.m_vertices - 1, by omega⟩
    rw [hk]
    have : k + 1 + 1 = (k + 1) + 1 := rfl
    rw [this, buildPath_succ, if_neg (by omega)]
    rw [getD_replicate]
    rw [if_pos (by omega)]
    rw [buildPath_succ, if_pos rfl]
  rw [Int.toNat_of_nonneg h0, hb]

/-! Infrastructure for the Dijkstra correctness proof: valid chains between
endpoints, positivity of well-formed matrices, and facts about the sorted
frontier. -/

/-- Positivity part of well-formedness, for a bare matrix: N×N and every entry
is the sentinel or strictly positive. -/
def MatOK (n : Nat) (m : List (List Int)) : Prop :=
  MatShape n m ∧ ∀ i j, mget m i j = -1 ∨ 0 < mget m i j

theorem wellFormed_matOK (g : WGraph) (h : g.WellFormed) : MatOK g.m_vertices g.m_adjMatrix :=
  ⟨h.1, h.2.2⟩

theorem mget_oob (n : Nat) (m : List (List Int)) (h : MatShape n m) (i j : Nat)
    (hij : n ≤ i ∨ n ≤ j) : mget m i j = -1 := by
  rcases Nat.lt_or_ge i n with hi | hi
  · have hj : n ≤ j := by omega
    unfold mget
    rw [List.getD_eq_default _ _ (by rw [row_len n m h i hi]; exact hj)]
  · have houter : m.getD i [] = ([] : List Int) :=
      List.getD_eq_default _ _ (by rw [h.1]; exact hi)
    unfold mget
    rw [houter]
    simp [List.getD]

/-- A valid chain from vertex `a` to vertex `v` (vertex numbers as they appear
in the `int` vertex sequences of the source). -/
def IsChain (m : List (List Int)) (a : Nat) (p : List Int) (v : Nat) : Prop :=
  p ≠ [] ∧ p.head? = some (a : Int) ∧ p.getLast? = some (v : Int) ∧ is_valid_path p m = true

theorem mgetI_edge (n : Nat) (m : List (List Int)) (hmat : MatOK n m) (a b : Int)
    (h : mgetI m a b ≠ -1) :
    0 ≤ a ∧ 0 ≤ b ∧ a.toNat < n ∧ b.toNat < n ∧
      mgetI m a b = mget m a.toNat b.toNat ∧ 0 < mget m a.toNat b.toNat := by
  unfold mgetI at h
  by_cases hab : 0 ≤ a ∧ 0 ≤ b
  · rw [if_pos hab] at h
    have hlt : a.toNat < n ∧ b.toNat < n := by
      by_contra hc
      push_neg at hc
      rcases Nat.lt_or_ge a.toNat n with h1 | h1
      · exact h (mget_oob n m hmat.1 _ _ (Or.inr (hc h1)))
      · exact h (mget_oob n m hmat.1 _ _ (Or.inl h1))
    have hpos : 0 < mget m a.toNat b.toNat := by
      rcases hmat.2 a.toNat b.toNat with hm | hm
      · exact absurd hm h
      · exact hm
    exact ⟨hab.1, hab.2, hlt.1, hlt.2, by rw [mgetI, if_pos hab], hpos⟩
  · rw [if_neg hab] at h
    exact absurd rfl h

theorem pathCost_nonneg (n : Nat) (m : List (List Int)) (hmat : MatOK n m) (p : List Int)
    (h : is_valid_path p m = true) : 0 ≤ pathCost m p := by
  induction p with
  | nil => simp [pathCost]
  | cons a tail ih =>
    cases tail with
    | nil => simp [pathCost]
    | cons b rest =>
      rw [is_valid_path, Bool.and_eq_true, bne_iff_ne] at h
      have hedge := mgetI_edge n m hmat a b h.1
      have hrest := ih h.2
      rw [pathCost]
      have : 0 < mgetI m a b := by rw [hedge.2.2.2.2.1]; exact hedge.2.2.2.2.2
      omega

theorem mgetI_cast (m : List (List Int)) (x v : Nat) :
    mgetI m (x : Int) (v : Int) = mget m x v := by
  rw [mgetI, if_pos ⟨Int.natCast_nonneg x, Int.natCast_nonneg v⟩]
  simp

theorem is_valid_path_concat (m : List (List Int)) (p : List Int) (x v : Int)
    (hlast : p.getLast? = some x) :
    is_valid_path (p ++ [v]) m = (is_valid_path p m && (mgetI m x v != -1)) := by
  induction p with
  | nil => simp at hlast
  | cons b tail ih =>
    cases tail with
    | nil =>
      have hb : b = x := by simpa using hlast
      subst hb
      have e1 : is_valid_path ([b] ++ [v]) m = ((mgetI m b v != -1) && true) := rfl
      have e2 : is_valid_path [b] m = true := rfl
      rw [e1, e2, Bool.true_and, Bool.and_true]
    | cons c rest =>
      have hlast' : (c :: rest).getLast? = some x := by
        rw [← hlast]; exact List.getLast?_cons_cons.symm
      have ihx := ih hlast'
      have e1 : is_valid_path ((b :: c :: rest) ++ [v]) m
          = ((mgetI m b c != -1) && is_valid_path ((c :: rest) ++ [v]) m) := rfl
      have e2 : is_valid_path (b :: c :: rest) m
          = ((mgetI m b c != -1) && is_valid_path (c :: rest) m) := rfl
      rw [e1, e2, ihx, Bool.and_assoc]

theorem pathCost_concat (m : List (List Int)) (p : List Int) (x v : Int)
    (hlast : p.getLast? = some x) :
    pathCost m (p ++ [v]) = pathCost m p + mgetI m x v := by
  induction p with
  | nil => simp at hlast
  | cons b tail ih =>
    cases tail with
    | nil =>
      have hb : b = x := by simpa using hlast
      subst hb
      have e1 : pathCost m ([b] ++ [v]) = mgetI m b v + 0 := rfl
      have e2 : pathCost m [b] = 0 := rfl
      rw [e1, e2]
      ring
    | cons c rest =>
      have hlast' : (c :: rest).getLast? = some x := by
        rw [← hlast]; exact List.getLast?_cons_cons.symm
      have ihx := ih hlast'
      have e1 : pathCost m ((b :: c :: rest) ++ [v])
          = mgetI m b c + pathCost m ((c :: rest) ++ [v]) := rfl
      have e2 : pathCost m (b :: c :: rest) = mgetI m b c + pathCost m (c :: rest) := rfl
      rw [e1, e2, ihx]
      ring

theorem mem_pqInsert (x e : Int × Nat) (l : List (Int × Nat)) :
    e ∈ pqInsert x l ↔ e = x ∨ e ∈ l := by
  induction l with
  | nil => simp [pqInsert]
  | cons y ys ih =>
    rw [pqInsert]
    by_cases h : pqLe x y
    · rw [if_pos h]
      simp only [List.mem_cons]
    · rw [if_neg h]
      simp only [List.mem_cons, ih]
      tauto

theorem length_pqInsert (x : Int × Nat) (l : List (Int × Nat)) :
    (pqInsert x l).length = l.length + 1 := by
  induction l with
  | nil => rfl
  | cons y ys ih =>
    rw [pqInsert]
    by_cases h : pqLe x y
    · rw [if_pos h]; rfl
    · rw [if_neg h]
      simp [ih]

theorem sorted_pqInsert (x : Int × Nat) (l : List (Int × Nat))
    (h : l.Pairwise (fun a b => a.1 ≤ b.1)) :
    (pqInsert x l).Pairwise (fun a b => a.1 ≤ b.1) := by
  induction l with
  | nil => simp [pqInsert]
  | cons y ys ih =>
    rw [pqInsert]
    rcases List.pairwise_cons.mp h with ⟨hy, hys⟩
    by_cases hle : pqLe x y
    · rw [if_pos hle]
      have hxy : x.1 ≤ y.1 := by
        unfold pqLe at hle
        rcases hle with h1 | ⟨h1, h2⟩ <;> omega
      refine List.pairwise_cons.mpr ⟨?_, h⟩
      intro e he
      rcases List.mem_cons.mp he with he | he
      · subst he; exact hxy
      · exact le_trans hxy (hy e he)
    · rw [if_neg hle]
      have hyx : y.1 ≤ x.1 := by
        unfold pqLe at hle
        push_neg at hle
        omega
      refine List.pairwise_cons.mpr ⟨?_, ih hys⟩
      intro e he
      rcases (mem_pqInsert x e ys).mp he with he | he
      · subst he; exact hyx
      · exact hy e he

/-- Termination potential of the Dijkstra loop: frontier size plus the total
(clamped) tentative distance mass.  A pop removes one frontier entry and each
push strictly decreases some `dist[v]`, so the potential strictly decreases
every iteration. -/
def phi (n : Nat) (st : DState) : Nat :=
  st.pq.length + (Finset.range n).sum (fun v => (st.dist.getD v 0).toNat)

theorem sum_toNat_set_lt (dist : List Int) (n v : Nat) (x : Int) (hv : v < n)
    (hx0 : 0 ≤ x) (hlt : x < dist.getD v 0) :
    (Finset.range n).sum (fun w => ((dist.set v x).getD w 0).toNat) + 1
      ≤ (Finset.range n).sum (fun w => (dist.getD w 0).toNat) := by
  have hvlen : v < dist.length := by
    by_contra hc
    push_neg at hc
    rw [List.getD_eq_default _ _ hc] at hlt
    omega
  have hmem : v ∈ Finset.range n := Finset.mem_range.mpr hv
  rw [Finset.sum_eq_sum_diff_singleton_add hmem, Finset.sum_eq_sum_diff_singleton_add hmem
    (fun w => (dist.getD w 0).toNat)]
  have hoff : (Finset.range n \ {v}).sum (fun w => ((dist.set v x).getD w 0).toNat)
      = (Finset.range n \ {v}).sum (fun w => (dist.getD w 0).toNat) := by
    apply Finset.sum_congr rfl
    intro w hw
    have hwv : ¬ v = w := by
      intro hvw
      subst hvw
      simp at hw
    rw [getD_set, if_neg (by tauto)]
  rw [hoff]
  have hat : ((dist.set v x).getD v 0).toNat + 1 ≤ (dist.getD v 0).toNat := by
    rw [getD_set, if_pos ⟨rfl, hvlen⟩]
    omega
  omega

/-- Extending a valid chain by one more edge. -/
theorem isChain_append (m : List (List Int)) (a x v : Nat) (p : List Int)
    (hc : IsChain m a p x) (hedge : mget m x v ≠ -1) :
    IsChain m a (p ++ [(v : Int)]) v ∧
      pathCost m (p ++ [(v : Int)]) = pathCost m p + mget m x v := by
  obtain ⟨hne, hhead, hlast, hvalid⟩ := hc
  refine ⟨⟨by simp, ?_, ?_, ?_⟩, ?_⟩
  · rcases p with _ | ⟨b, tail⟩
    · exact absurd rfl hne
    · simpa using hhead
  · simp
  · rw [is_valid_path_concat m p _ _ hlast, hvalid, mgetI_cast]
    simp [hedge]
  · rw [pathCost_concat m p _ _ hlast, mgetI_cast]

/-! Behaviour of the relaxation scan `relaxRow`. -/

theorem relaxOne_cases (m : List (List Int)) (u v : Nat) (st : DState) :
    relaxOne m u st v = st ∨
    (mget m u v ≠ -1 ∧ st.dist.getD u 0 + mget m u v < st.dist.getD v 0 ∧
      relaxOne m u st v =
        { dist := st.dist.set v (st.dist.getD u 0 + mget m u v)
          prev := st.prev.set v (u : Int)
          pq := pqInsert (st.dist.getD u 0 + mget m u v, v) st.pq }) := by
  unfold relaxOne
  simp only
  split_ifs with h1 h2
  · right; exact ⟨h1, h2, rfl⟩
  · left; rfl
  · left; rfl

theorem relaxOne_dist_length (m : List (List Int)) (u v : Nat) (st : DState) :
    (relaxOne m u st v).dist.length = st.dist.length := by
  rcases relaxOne_cases m u v st with h | ⟨_, _, h⟩ <;> rw [h] <;> simp

theorem relaxOne_mono (m : List (List Int)) (u v w : Nat) (st : DState) :
    (relaxOne m u st v).dist.getD w 0 ≤ st.dist.getD w 0 := by
  rcases relaxOne_cases m u v st with h | ⟨_, hlt, h⟩
  · rw [h]
  · rw [h]
    simp only
    rw [getD_set]
    by_cases hvw : v = w ∧ w < st.dist.length
    · rw [if_pos hvw]
      rcases hvw with ⟨hvw, _⟩
      subst hvw
      omega
    · rw [if_neg hvw]

theorem relaxOne_ustable (n : Nat) (m : List (List Int)) (hmat : MatOK n m) (u v : Nat)
    (st : DState) : (relaxOne m u st v).dist.getD u 0 = st.dist.getD u 0 := by
  rcases relaxOne_cases m u v st with h | ⟨hne, hlt, h⟩
  · rw [h]
  · rcases hmat.2 u v with hw | hw
    · exact absurd hw hne
    · by_cases hvu : v = u
      · subst hvu
        omega
      · rw [h]
        simp only
        rw [getD_set, if_neg (by tauto)]

theorem relaxOne_pq_preserve (m : List (List Int)) (u v : Nat) (st : DState)
    (e : Int × Nat) (he : e ∈ st.pq) : e ∈ (relaxOne m u st v).pq := by
  rcases relaxOne_cases m u v st with h | ⟨_, _, h⟩
  · rw [h]; exact he
  · rw [h]
    exact (mem_pqInsert _ _ _).mpr (Or.inr he)

theorem relaxFold_dist_length (m : List (List Int)) (u : Nat) :
    ∀ (todo : List Nat) (st : DState),
      ((todo.foldl (relaxOne m u) st).dist.length = st.dist.length)
  | [], st => rfl
  | v :: rest, st => by
    rw [List.foldl_cons]
    rw [relaxFold_dist_length m u rest (relaxOne m u st v), relaxOne_dist_length]

theorem relaxFold_mono (m : List (List Int)) (u : Nat) :
    ∀ (todo : List Nat) (st : DState) (w : Nat),
      (todo.foldl (relaxOne m u) st).dist.getD w 0 ≤ st.dist.getD w 0
  | [], st, w => le_refl _
  | v :: rest, st, w => by
    rw [List.foldl_cons]
    exact le_trans (relaxFold_mono m u rest (relaxOne m u st v) w) (relaxOne_mono m u v w st)

theorem relaxFold_ustable (n : Nat) (m : List (List Int)) (hmat : MatOK n m) (u : Nat) :
    ∀ (todo : List Nat) (st : DState),
      (todo.foldl (relaxOne m u) st).dist.getD u 0 = st.dist.getD u 0
  | [], st => rfl
  | v :: rest, st => by
    rw [List.foldl_cons]
    rw [relaxFold_ustable n m hmat u rest (relaxOne m u st v), relaxOne_ustable n m hmat u v st]

theorem relaxFold_pq_preserve (m : List (List Int)) (u : Nat) :
    ∀ (todo : List Nat) (st : DState) (e : Int × Nat), e ∈ st.pq →
      e ∈ (todo.foldl (relaxOne m u) st).pq
  | [], st, e, he => he
  | v :: rest, st, e, he => by
    rw [List.foldl_cons]
    exact relaxFold_pq_preserve m u rest _ e (relaxOne_pq_preserve m u v st e he)

theorem relaxOne_relaxed (m : List (List Int)) (u v : Nat) (st : DState)
    (hne : mget m u v ≠ -1) (hvlen : v < st.dist.length) :
    (relaxOne m u st v).dist.getD v 0 ≤ st.dist.getD u 0 + mget m u v := by
  unfold relaxOne
  simp only
  rw [if_pos hne]
  by_cases h2 : st.dist.getD v 0 > st.dist.getD u 0 + mget m u v
  · rw [if_pos h2]
    simp only
    rw [getD_set, if_pos ⟨rfl, hvlen⟩]
  · rw [if_neg h2]
    omega

theorem relaxFold_relaxed (n : Nat) (m : List (List Int)) (hmat : MatOK n m) (u : Nat) :
    ∀ (todo : List Nat) (st : DState) (v : Nat), v ∈ todo → mget m u v ≠ -1 →
      (∀ w ∈ todo, w < st.dist.length) →
      (todo.foldl (relaxOne m u) st).dist.getD v 0 ≤ st.dist.getD u 0 + mget m u v := by
  intro todo
  induction todo with
  | nil => intro st v hv _ _; exact absurd hv (List.not_mem_nil v)
  | cons v0 rest ih =>
    intro st v hv hne hlen
    rw [List.foldl_cons]
    have hlen2 : ∀ w ∈ rest, w < (relaxOne m u st v0).dist.length := by
      intro w hw
      rw [relaxOne_dist_length]
      exact hlen w (List.mem_cons_of_mem v0 hw)
    rcases List.mem_cons.mp hv with hv | hv
    · subst hv
      calc (rest.foldl (relaxOne m u) (relaxOne m u st v)).dist.getD v 0
          ≤ (relaxOne m u st v).dist.getD v 0 := relaxFold_mono m u rest _ v
        _ ≤ st.dist.getD u 0 + mget m u v :=
            relaxOne_relaxed m u v st hne (hlen v (List.mem_cons_self v rest))
    · calc (rest.foldl (relaxOne m u) (relaxOne m u st v0)).dist.getD v 0
          ≤ (relaxOne m u st v0).dist.getD u 0 + mget m u v := ih _ v hv hne hlen2
        _ = st.dist.getD u 0 + mget m u v := by
            rw [relaxOne_ustable n m hmat u v0 st]

theorem relaxFold_provenance (n : Nat) (m : List (List Int)) (hmat : MatOK n m) (u : Nat) :
    ∀ (todo : List Nat) (st : DState) (v : Nat),
      (todo.foldl (relaxOne m u) st).dist.getD v 0 = st.dist.getD v 0 ∨
      (mget m u v ≠ -1 ∧
        (todo.foldl (relaxOne m u) st).dist.getD v 0 = st.dist.getD u 0 + mget m u v ∧
        (todo.foldl (relaxOne m u) st).dist.getD v 0 < st.dist.getD v 0 ∧
        ((todo.foldl (relaxOne m u) st).dist.getD v 0, v) ∈ (todo.foldl (relaxOne m u) st).pq) := by
  intro todo
  induction todo with
  | nil => intro st v; left; rfl
  | cons v0 rest ih =>
    intro st v
    rw [List.foldl_cons]
    rcases ih (relaxOne m u st v0) v with hout | ⟨hne, hval, hlt, hmem⟩
    · rw [hout]
      rcases relaxOne_cases m u v0 st with hstep | ⟨hne0, hlt0, hstep⟩
      · rw [hstep]
        left; rfl
      · rw [hstep]
        simp only
        rw [getD_set]
        by_cases hc : v0 = v ∧ v < st.dist.length
        · rw [if_pos hc]
          right
          rcases hc with ⟨hc1, hc2⟩
          subst hc1
          refine ⟨hne0, rfl, hlt0, ?_⟩
          have hpush : (st.dist.getD u 0 + mget m u v0, v0) ∈ (relaxOne m u st v0).pq := by
            rw [hstep]
            exact (mem_pqInsert _ _ _).mpr (Or.inl rfl)
          have hmem2 := relaxFold_pq_preserve m u rest (relaxOne m u st v0) _ hpush
          rw [hstep] at hmem2
          exact hmem2
        · rw [if_neg hc]
          left; rfl
    · right
      refine ⟨hne, ?_, ?_, hmem⟩
      · rw [hval, relaxOne_ustable n m hmat u v0 st]
      · exact lt_of_lt_of_le hlt (relaxOne_mono m u v0 v st)

theorem relaxFold_pq_new (n : Nat) (m : List (List Int)) (hmat : MatOK n m) (u : Nat) :
    ∀ (todo : List Nat) (st : DState),
      (∀ w ∈ todo, w < n) → (∀ w, w < n → st.dist.getD w 0 ≤ INTMAX) →
      st.dist.length = n →
      ∀ e ∈ (todo.foldl (relaxOne m u) st).pq,
        e ∈ st.pq ∨ (e.2 < n ∧ (todo.foldl (relaxOne m u) st).dist.getD e.2 0 ≤ e.1 ∧
          (todo.foldl (relaxOne m u) st).dist.getD e.2 0 < INTMAX) := by
  intro todo
  induction todo with
  | nil =>
    intro st _ _ _ e he
    left; exact he
  | cons v0 rest ih =>
    intro st htodo hub hlen e he
    rw [List.foldl_cons] at he ⊢
    have hv0 : v0 < n := htodo v0 (List.mem_cons_self v0 rest)
    have htodo2 : ∀ w ∈ rest, w < n := fun w hw => htodo w (List.mem_cons_of_mem v0 hw)
    have hub2 : ∀ w, w < n → (relaxOne m u st v0).dist.getD w 0 ≤ INTMAX :=
      fun w hw => le_trans (relaxOne_mono m u v0 w st) (hub w hw)
    have hlen2 : (relaxOne m u st v0).dist.length = n := by
      rw [relaxOne_dist_length]; exact hlen
    rcases ih (relaxOne m u st v0) htodo2 hub2 hlen2 e he with hmem | hp
    · rcases relaxOne_cases m u v0 st with hstep | ⟨hne0, hlt0, hstep⟩
      · rw [hstep] at hmem
        left; exact hmem
      · rw [hstep] at hmem
        simp only at hmem
        rcases (mem_pqInsert _ _ _).mp hmem with hmem | hmem
        · subst hmem
          right
          simp only
          refine ⟨hv0, ?_, ?_⟩
          · have hst1 : (relaxOne m u st v0).dist.getD v0 0
                = st.dist.getD u 0 + mget m u v0 := by
              rw [hstep]
              simp only
              rw [getD_set, if_pos ⟨rfl, by omega⟩]
            calc (rest.foldl (relaxOne m u) (relaxOne m u st v0)).dist.getD v0 0
                ≤ (relaxOne m u st v0).dist.getD v0 0 := relaxFold_mono m u rest _ v0
              _ = st.dist.getD u 0 + mget m u v0 := hst1
          · have hst1 : (relaxOne m u st v0).dist.getD v0 0
                = st.dist.getD u 0 + mget m u v0 := by
              rw [hstep]
              simp only
              rw [getD_set, if_pos ⟨rfl, by omega⟩]
            have hlt2 : (relaxOne m u st v0).dist.getD v0 0 < INTMAX := by
              rw [hst1]
              exact lt_of_lt_of_le hlt0 (hub v0 hv0)
            exact lt_of_le_of_lt (relaxFold_mono m u rest _ v0) hlt2
        · left; exact hmem
    · right; exact hp

theorem relaxFold_sorted (m : List (List Int)) (u : Nat) :
    ∀ (todo : List Nat) (st : DState),
      st.pq.Pairwise (fun a b => a.1 ≤ b.1) →
      (todo.foldl (relaxOne m u) st).pq.Pairwise (fun a b => a.1 ≤ b.1) := by
  intro todo
  induction todo with
  | nil => intro st h; exact h
  | cons v0 rest ih =>
    intro st h
    rw [List.foldl_cons]
    apply ih
    rcases relaxOne_cases m u v0 st with hstep | ⟨_, _, hstep⟩
    · rw [hstep]; exact h
    · rw [hstep]
      exact sorted_pqInsert _ _ h

theorem relaxFold_phi (n : Nat) (m : List (List Int)) (hmat : MatOK n m) (u : Nat)
    (hu : u < n) :
    ∀ (todo : List Nat) (st : DState),
      (∀ w ∈ todo, w < n) → (∀ w, w < n → 0 ≤ st.dist.getD w 0) →
      phi n (todo.foldl (relaxOne m u) st) ≤ phi n st := by
  intro todo
  induction todo with
  | nil => intro st _ _; exact le_refl _
  | cons v0 rest ih =>
    intro st htodo hnn
    rw [List.foldl_cons]
    have hv0 : v0 < n := htodo v0 (List.mem_cons_self v0 rest)
    have htodo2 : ∀ w ∈ rest, w < n := fun w hw => htodo w (List.mem_cons_of_mem v0 hw)
    rcases relaxOne_cases m u v0 st with hstep | ⟨hne0, hlt0, hstep⟩
    · rw [hstep]
      exact ih st htodo2 hnn
    · have hwpos : 0 < mget m u v0 := by
        rcases hmat.2 u v0 with hm | hm
        · exact absurd hm hne0
        · exact hm
      have hx0 : 0 ≤ st.dist.getD u 0 + mget m u v0 := by
        have := hnn u hu
        omega
      have hnn2 : ∀ w, w < n → 0 ≤ (relaxOne m u st v0).dist.getD w 0 := by
        intro w hw
        rw [hstep]
        simp only
        rw [getD_set]
        by_cases hc : v0 = w ∧ w < st.dist.length
        · rw [if_pos hc]; exact hx0
        · rw [if_neg hc]; exact hnn w hw
      have hstep_phi : phi n (relaxOne m u st v0) + 1 ≤ phi n st + 1 := by
        rw [hstep]
        unfold phi
        simp only
        rw [length_pqInsert]
        have hsum := sum_toNat_set_lt st.dist n v0 (st.dist.getD u 0 + mget m u v0)
          hv0 hx0 hlt0
        omega
      calc phi n (rest.foldl (relaxOne m u) (relaxOne m u st v0))
          ≤ phi n (relaxOne m u st v0) := ih _ htodo2 hnn2
        _ ≤ phi n st := by omega

theorem relaxFold_noop (n : Nat) (m : List (List Int)) (u : Nat) :
    ∀ (todo : List Nat) (st : DState),
      (∀ v, v < n → mget m u v ≠ -1 →
        st.dist.getD v 0 ≤ st.dist.getD u 0 + mget m u v) →
      (∀ w ∈ todo, w < n) →
      todo.foldl (relaxOne m u) st = st := by
  intro todo
  induction todo with
  | nil => intro st _ _; rfl
  | cons v0 rest ih =>
    intro st hall htodo
    rw [List.foldl_cons]
    have hv0 : v0 < n := htodo v0 (List.mem_cons_self v0 rest)
    have hstep : relaxOne m u st v0 = st := by
      rcases relaxOne_cases m u v0 st with hstep | ⟨hne0, hlt0, _⟩
      · exact hstep
      · exact absurd hlt0 (by have := hall v0 hv0 hne0; omega)
    rw [hstep]
    exact ih st hall (fun w hw => htodo w (List.mem_cons_of_mem v0 hw))

/-- The invariant of the Dijkstra main loop.  `F` is the ghost set of vertices
that have been settled by a fresh pop: their tentative distance is final and at
most the cost of every valid chain from the source, and all their outgoing
edges have been relaxed. -/
structure DInv (m : List (List Int)) (n s t : Nat) (F : Nat → Prop) (st : DState) : Prop where
  hlen : st.dist.length = n
  hs0 : st.dist.getD s 0 = 0
  hub : ∀ v, v < n → st.dist.getD v 0 ≤ INTMAX
  hreal : ∀ v, v < n → st.dist.getD v 0 = INTMAX ∨
    ∃ p, IsChain m s p v ∧ pathCost m p = st.dist.getD v 0
  hfin : ∀ x, F x → x < n ∧ st.dist.getD x 0 < INTMAX ∧
    ∀ p, IsChain m s p x → st.dist.getD x 0 ≤ pathCost m p
  hrelaxed : ∀ x, F x → ∀ v, v < n → mget m x v ≠ -1 →
    st.dist.getD v 0 ≤ st.dist.getD x 0 + mget m x v
  hpq : ∀ e ∈ st.pq, e.2 < n ∧ st.dist.getD e.2 0 ≤ e.1 ∧ st.dist.getD e.2 0 < INTMAX
  hsorted : st.pq.Pairwise (fun a b => a.1 ≤ b.1)
  hfront : ∀ x, x < n → ¬ F x → st.dist.getD x 0 < INTMAX → (st.dist.getD x 0, x) ∈ st.pq
  htnot : ¬ F t

theorem DInv.dist_nonneg {m : List (List Int)} {n s t : Nat} {F : Nat → Prop} {st : DState}
    (inv : DInv m n s t F st) (hmat : MatOK n m) :
    ∀ v, v < n → 0 ≤ st.dist.getD v 0 := by
  intro v hv
  rcases inv.hreal v hv with h | ⟨p, hp, hc⟩
  · rw [h]; norm_num [INTMAX]
  · rw [← hc]
    exact pathCost_nonneg n m hmat p hp.2.2.2

theorem walkBound (m : List (List Int)) (n s t : Nat) (F : Nat → Prop) (st : DState)
    (hmat : MatOK n m) (inv : DInv m n s t F st) :
    ∀ (p : List Int) (a v : Nat), IsChain m a p v → v < n → F a → ∀ c0 : Int,
      st.dist.getD a 0 ≤ c0 →
      st.dist.getD v 0 ≤ c0 + pathCost m p ∨
      ∃ x c, x < n ∧ ¬ F x ∧ st.dist.getD x 0 < INTMAX ∧ st.dist.getD x 0 ≤ c ∧
        c ≤ c0 + pathCost m p := by
  intro p
  induction p with
  | nil =>
    intro a v hp
    exact absurd rfl hp.1
  | cons b tail ih =>
    intro a v hp hv hFa c0 hc0
    obtain ⟨hne, hhead, hlast, hvalid⟩ := hp
    have hb : b = (a : Int) := by simpa using hhead
    subst hb
    cases tail with
    | nil =>
      have hav : ((a : Nat) : Int) = (v : Int) := by simpa using hlast
      have hav2 : a = v := by exact_mod_cast hav
      subst hav2
      left
      have : pathCost m [(a : Int)] = 0 := rfl
      rw [this]
      omega
    | cons b2 rest =>
      have hvsplit : (mgetI m (a : Int) b2 ≠ -1) ∧ is_valid_path (b2 :: rest) m = true := by
        have e : is_valid_path ((a : Int) :: b2 :: rest) m
            = ((mgetI m (a : Int) b2 != -1) && is_valid_path (b2 :: rest) m) := rfl
        rw [e, Bool.and_eq_true, bne_iff_ne] at hvalid
        exact hvalid
      have hedge := mgetI_edge n m hmat _ _ hvsplit.1
      set bn := b2.toNat with hbn
      have hb2 : b2 = (bn : Int) := by rw [hbn, Int.toNat_of_nonneg hedge.2.1]
      have hbnn : bn < n := hedge.2.2.2.1
      have hw : mgetI m (a : Int) b2 = mget m a bn := by
        rw [hedge.2.2.2.2.1]
        simp
      have hwpos : 0 < mget m a bn := by
        rw [← hw]
        rw [hw]
        have := hedge.2.2.2.2.2
        simpa using this
      have hwne : mget m a bn ≠ -1 := by omega
      have hrel := inv.hrelaxed a hFa bn hbnn hwne
      have hdb : st.dist.getD bn 0 ≤ c0 + mget m a bn := by omega
      have hchain2 : IsChain m bn (b2 :: rest) v := by
        refine ⟨by simp, by rw [hb2]; rfl, ?_, hvsplit.2⟩
        rw [← hlast]
        exact List.getLast?_cons_cons.symm
      have hcostsplit : pathCost m ((a : Int) :: b2 :: rest)
          = mget m a bn + pathCost m (b2 :: rest) := by
        have e : pathCost m ((a : Int) :: b2 :: rest)
            = mgetI m (a : Int) b2 + pathCost m (b2 :: rest) := rfl
        rw [e, hw]
      have hcost2_nonneg : 0 ≤ pathCost m (b2 :: rest) :=
        pathCost_nonneg n m hmat _ hvsplit.2
      by_cases hFb : F bn
      · rcases ih bn v hchain2 hv hFb (c0 + mget m a bn) hdb with h | ⟨x, c, hx, hnF, hlt, hle, hc⟩
        · left
          rw [hcostsplit]
          omega
        · right
          refine ⟨x, c, hx, hnF, hlt, hle, ?_⟩
          rw [hcostsplit]
          omega
      · rcases lt_or_eq_of_le (inv.hub bn hbnn) with hblt | hbeq
        · right
          refine ⟨bn, c0 + mget m a bn, hbnn, hFb, hblt, hdb, ?_⟩
          rw [hcostsplit]
          omega
        · left
          have hvb : st.dist.getD v 0 ≤ INTMAX := inv.hub v hv
          rw [hcostsplit]
          omega

theorem pathBound (m : List (List Int)) (n s t : Nat) (F : Nat → Prop) (st : DState)
    (hmat : MatOK n m) (hs : s < n) (inv : DInv m n s t F st) :
    ∀ (p : List Int) (v : Nat), IsChain m s p v → v < n →
      st.dist.getD v 0 ≤ pathCost m p ∨
      ∃ x, (st.dist.getD x 0, x) ∈ st.pq ∧ ∃ c, st.dist.getD x 0 ≤ c ∧ c ≤ pathCost m p := by
  intro p v hp hv
  by_cases hFs : F s
  · rcases walkBound m n s t F st hmat inv p s v hp hv hFs 0 (by rw [inv.hs0]) with
      h | ⟨x, c, hx, hnF, hlt, hle, hc⟩
    · left
      omega
    · right
      exact ⟨x, inv.hfront x hx hnF hlt, c, hle, by omega⟩
  · right
    refine ⟨s, inv.hfront s hs hFs (by rw [inv.hs0]; norm_num [INTMAX]), 0, ?_, ?_⟩
    · rw [inv.hs0]
    · exact pathCost_nonneg n m hmat p hp.2.2.2

/-- Master lemma for the Dijkstra loop: from any state satisfying the
invariant with enough fuel, the final tentative distance of every vertex is
either still unreached or realised by an actual valid chain, and the final
tentative distance of the destination is at most the cost of every valid chain
from the source to it. -/
theorem dijkstraLoop_post (m : List (List Int)) (n s t : Nat) (hmat : MatOK n m)
    (hs : s < n) (ht : t < n) :
    ∀ (fuel : Nat) (F : Nat → Prop) (st : DState), DInv m n s t F st → phi n st < fuel →
      (∀ v, v < n → (dijkstraLoop m n t fuel st).dist.getD v 0 = INTMAX ∨
        ∃ p, IsChain m s p v ∧ pathCost m p = (dijkstraLoop m n t fuel st).dist.getD v 0) ∧
      (∀ p, IsChain m s p t → (dijkstraLoop m n t fuel st).dist.getD t 0 ≤ pathCost m p) := by
  intro fuel
  induction fuel with
  | zero =>
    intro F st _ hphi
    omega
  | succ fuel ih =>
    intro F st inv hphi
    rw [dijkstraLoop_succ]
    rcases hpq : st.pq with _ | ⟨⟨d, u⟩, rest⟩
    · simp only [hpq]
      refine ⟨inv.hreal, ?_⟩
      intro p hp
      rcases pathBound m n s t F st hmat hs inv p t hp ht with h | ⟨x, hmem, c, hle, hc⟩
      · exact h
      · rw [hpq] at hmem
        exact absurd hmem (List.not_mem_nil _)
    · simp only [hpq]
      have hhead : (d, u) ∈ st.pq := by rw [hpq]; exact List.mem_cons_self _ _
      obtain ⟨hun, hdu_le, hdu_lt⟩ := inv.hpq (d, u) hhead
      have hun : u < n := hun
      have hdu_le : st.dist.getD u 0 ≤ d := hdu_le
      have hdu_lt : st.dist.getD u 0 < INTMAX := hdu_lt
      have headmin : ∀ x, (st.dist.getD x 0, x) ∈ st.pq → d ≤ st.dist.getD x 0 := by
        intro x hmem
        rw [hpq] at hmem
        rcases List.mem_cons.mp hmem with he | he
        · exact le_of_eq (congrArg Prod.fst he).symm
        · have hsorted := inv.hsorted
          rw [hpq] at hsorted
          exact (List.pairwise_cons.mp hsorted).1 _ he
      by_cases hut : u = t
      · rw [if_pos hut]
        refine ⟨inv.hreal, ?_⟩
        intro p hp
        rcases pathBound m n s t F st hmat hs inv p t hp ht with h | ⟨x, hmem, c, hle, hc⟩
        · exact h
        · have hdx := headmin x hmem
          have h1 : st.dist.getD t 0 ≤ d := hut ▸ hdu_le
          omega
      · rw [if_neg hut]
        have hrange : ∀ w ∈ List.range n, w < n := fun w hw => List.mem_range.mp hw
        have hnonneg := inv.dist_nonneg hmat
        have hrest_sub : ∀ e ∈ rest, e ∈ st.pq := by
          intro e he
          rw [hpq]
          exact List.mem_cons_of_mem _ he
        have hrest_sorted : rest.Pairwise (fun a b => a.1 ≤ b.1) := by
          have hsorted := inv.hsorted
          rw [hpq] at hsorted
          exact (List.pairwise_cons.mp hsorted).2
        have hphi1 : phi n { dist := st.dist, prev := st.prev, pq := rest } + 1 = phi n st := by
          unfold phi
          simp only
          rw [hpq]
          simp only [List.length_cons]
          omega
        by_cases hFu : F u
        · -- stale pop: every relaxation check fails and the scan is a no-op
          have hnoop : relaxRow m n u { dist := st.dist, prev := st.prev, pq := rest }
              = { dist := st.dist, prev := st.prev, pq := rest } := by
            rw [relaxRow]
            exact relaxFold_noop n m u (List.range n) _
              (fun v hv hne => inv.hrelaxed u hFu v hv hne) hrange
          rw [show ({ st with pq := rest } : DState)
            = { dist := st.dist, prev := st.prev, pq := rest } from rfl, hnoop]
          refine ih F _ ⟨inv.hlen, inv.hs0, inv.hub, inv.hreal, inv.hfin, inv.hrelaxed,
            ?_, hrest_sorted, ?_, inv.htnot⟩ (by omega)
          · intro e he
            exact inv.hpq e (hrest_sub e he)
          · intro x hx hnF hlt
            have hmem := inv.hfront x hx hnF hlt
            rw [hpq] at hmem
            rcases List.mem_cons.mp hmem with he | he
            · have hxu : x = u := congrArg Prod.snd he
              exact absurd (hxu ▸ hFu) hnF
            · exact he
        · -- fresh pop of u: settle it and relax its whole row
          rw [show ({ st with pq := rest } : DState)
            = { dist := st.dist, prev := st.prev, pq := rest } from rfl]
          set st1 : DState := { dist := st.dist, prev := st.prev, pq := rest } with hst1
          have hfoldeq : relaxRow m n u st1 = (List.range n).foldl (relaxOne m u) st1 := by
            rw [relaxRow]
          set st2 : DState := relaxRow m n u st1 with hst2
          have hlen1 : st1.dist.length = n := inv.hlen
          have hlen2 : st2.dist.length = n := by
            rw [hfoldeq, relaxFold_dist_length]
            exact inv.hlen
          have hmono : ∀ w, st2.dist.getD w 0 ≤ st.dist.getD w 0 := by
            intro w
            rw [hfoldeq]
            exact relaxFold_mono m u (List.range n) st1 w
          have hust : st2.dist.getD u 0 = st.dist.getD u 0 := by
            rw [hfoldeq]
            exact relaxFold_ustable n m hmat u (List.range n) st1
          have hrelaxed_u : ∀ v, v < n → mget m u v ≠ -1 →
              st2.dist.getD v 0 ≤ st.dist.getD u 0 + mget m u v := by
            intro v hv hne
            rw [hfoldeq]
            exact relaxFold_relaxed n m hmat u (List.range n) st1 v
              (List.mem_range.mpr hv) hne
              (fun w hw => by rw [show st1.dist.length = n from inv.hlen]
                              exact List.mem_range.mp hw)
          have hprov : ∀ v, st2.dist.getD v 0 = st.dist.getD v 0 ∨
              (mget m u v ≠ -1 ∧ st2.dist.getD v 0 = st.dist.getD u 0 + mget m u v ∧
                st2.dist.getD v 0 < st.dist.getD v 0 ∧
                (st2.dist.getD v 0, v) ∈ st2.pq) := by
            intro v
            rw [hfoldeq]
            exact relaxFold_provenance n m hmat u (List.range n) st1 v
          have hpqnew : ∀ e ∈ st2.pq, e ∈ rest ∨
              (e.2 < n ∧ st2.dist.getD e.2 0 ≤ e.1 ∧ st2.dist.getD e.2 0 < INTMAX) := by
            intro e he
            rw [hfoldeq] at he
            rcases relaxFold_pq_new n m hmat u (List.range n) st1 hrange
              (fun w hw => inv.hub w hw) inv.hlen e he with h | h
            · left; exact h
            · right
              rw [hfoldeq]
              exact h
          have hsorted2 : st2.pq.Pairwise (fun a b => a.1 ≤ b.1) := by
            rw [hfoldeq]
            exact relaxFold_sorted m u (List.range n) st1 hrest_sorted
          have hopt_u : ∀ p, IsChain m s p u → st.dist.getD u 0 ≤ pathCost m p := by
            intro p hp
            rcases pathBound m n s t F st hmat hs inv p u hp hun with h | ⟨x, hmem, c, hle, hc⟩
            · exact h
            · have hdx := headmin x hmem
              omega
          have hrealize_u : ∃ pu, IsChain m s pu u ∧ pathCost m pu = st.dist.getD u 0 := by
            rcases inv.hreal u hun with h | h
            · omega
            · exact h
          have hFstable : ∀ x, F x → st2.dist.getD x 0 = st.dist.getD x 0 := by
            intro x hFx
            rcases hprov x with h | ⟨hne, hval, hlt, _⟩
            · exact h
            · obtain ⟨pu, hpu, hcu⟩ := hrealize_u
              obtain ⟨hxn, hxlt, hxbound⟩ := inv.hfin x hFx
              obtain ⟨hchainx, hcostx⟩ := isChain_append m s u x pu hpu hne
              have hb := hxbound _ hchainx
              rw [hcostx, hcu] at hb
              omega
          have hphi2 : phi n st2 ≤ phi n st1 := by
            rw [hfoldeq]
            exact relaxFold_phi n m hmat u hun (List.range n) st1 hrange
              (fun w hw => hnonneg w hw)
          refine ih (fun x => F x ∨ x = u) st2 ⟨hlen2, ?_, ?_, ?_, ?_, ?_, ?_, hsorted2, ?_, ?_⟩
            (by omega)
          · -- source distance stays 0
            rcases hprov s with h | ⟨hne, hval, hlt, _⟩
            · rw [h, inv.hs0]
            · have hw : 0 < mget m u s := by
                rcases hmat.2 u s with hm | hm
                · exact absurd hm hne
                · exact hm
              have hdu0 : 0 ≤ st.dist.getD u 0 := hnonneg u hun
              rw [inv.hs0] at hlt
              omega
          · exact fun v hv => le_trans (hmono v) (inv.hub v hv)
          · intro v hv
            rcases hprov v with h | ⟨hne, hval, hlt, _⟩
            · rw [h]
              exact inv.hreal v hv
            · right
              obtain ⟨pu, hpu, hcu⟩ := hrealize_u
              obtain ⟨hchainv, hcostv⟩ := isChain_append m s u v pu hpu hne
              exact ⟨_, hchainv, by rw [hcostv, hcu, hval]⟩
          · intro x hx
            rcases hx with hFx | hxu
            · obtain ⟨hxn, hxlt, hxbound⟩ := inv.hfin x hFx
              rw [hFstable x hFx]
              exact ⟨hxn, hxlt, hxbound⟩
            · subst hxu
              rw [hust]
              exact ⟨hun, hdu_lt, hopt_u⟩
          · intro x hx v hv hne
            rcases hx with hFx | hxu
            · rw [hFstable x hFx]
              exact le_trans (hmono v) (inv.hrelaxed x hFx v hv hne)
            · subst hxu
              rw [hust]
              exact hrelaxed_u v hv hne
          · intro e he
            rcases hpqnew e he with hrest | h
            · have hold := inv.hpq e (hrest_sub e hrest)
              exact ⟨hold.1, le_trans (hmono e.2) hold.2.1,
                lt_of_le_of_lt (hmono e.2) hold.2.2⟩
            · exact h
          · intro x hxn hnF hlt
            have hnF2 : ¬ F x ∧ x ≠ u := by
              constructor
              · intro hc; exact hnF (Or.inl hc)
              · intro hc; exact hnF (Or.inr hc)
            rcases hprov x with h | ⟨_, _, _, hmem⟩
            · rw [h] at hlt ⊢
              have hmem := inv.hfront x hxn hnF2.1 hlt
              rw [hpq] at hmem
              rcases List.mem_cons.mp hmem with he | he
              · exact absurd (congrArg Prod.snd he) hnF2.2
              · rw [hfoldeq]
                exact relaxFold_pq_preserve m u (List.range n) st1 _ he
            · exact hmem
          · intro hc
            rcases hc with hF | hequ
            · exact inv.htnot hF
            · exact hut hequ.symm

theorem dijkstra_post (g : WGraph) (start e : Int) (hwf : g.WellFormed)
    (h0 : 0 ≤ start) (h1 : start < (g.m_vertices : Int))
    (h2 : 0 ≤ e) (h3 : e < (g.m_vertices : Int)) :
    (∀ p, IsChain g.m_adjMatrix start.toNat p e.toNat →
      (g.dijkstra start e).2 ≤ pathCost g.m_adjMatrix p) ∧
    ((¬ ∃ p, IsChain g.m_adjMatrix start.toNat p e.toNat) →
      g.dijkstra start e = ([], -1)) := by
  have hmat : MatOK g.m_vertices g.m_adjMatrix := wellFormed_matOK g hwf
  set n := g.m_vertices with hn
  set m := g.m_adjMatrix with hm
  set s := start.toNat with hsdef
  set t := e.toNat with htdef
  have hs : s < n := by omega
  have ht : t < n := by omega
  set dist0 : List Int := (List.replicate n INTMAX).set s 0 with hdist0
  set st0 : DState := { dist := dist0, prev := List.replicate n (-1), pq := [(0, s)] }
    with hst0
  have hdist0_at : ∀ v, dist0.getD v 0 = if v = s then 0 else
      (if v < n then INTMAX else 0) := by
    intro v
    rw [hdist0, getD_set, getD_replicate, List.length_replicate]
    by_cases hv : v = s
    · rw [if_pos ⟨hv.symm, hv ▸ hs⟩, if_pos hv]
    · rw [if_neg (fun hc => hv hc.1.symm), if_neg hv]
  have hchain_s : IsChain m s [(s : Int)] s := by
    refine ⟨by simp, rfl, rfl, rfl⟩
  have inv0 : DInv m n s t (fun _ => False) st0 := by
    refine ⟨?_, ?_, ?_, ?_, ?_, ?_, ?_, ?_, ?_, ?_⟩
    · show dist0.length = n
      rw [hdist0, List.length_set, List.length_replicate]
    · show dist0.getD s 0 = 0
      rw [hdist0_at, if_pos rfl]
    · intro v hv
      show dist0.getD v 0 ≤ INTMAX
      rw [hdist0_at]
      by_cases hvs : v = s
      · rw [if_pos hvs]; norm_num [INTMAX]
      · rw [if_neg hvs, if_pos hv]
    · intro v hv
      show dist0.getD v 0 = INTMAX ∨
        ∃ p, IsChain m s p v ∧ pathCost m p = dist0.getD v 0
      rw [hdist0_at]
      by_cases hvs : v = s
      · right
        rw [if_pos hvs, hvs]
        exact ⟨[(s : Int)], hchain_s, rfl⟩
      · left
        rw [if_neg hvs, if_pos hv]
    · intro x hx; exact absurd hx (by simp)
    · intro x hx; exact absurd hx (by simp)
    · intro q hq
      have hq2 : q = (0, s) := by simpa using hq
      subst hq2
      refine ⟨hs, ?_, ?_⟩
      · show dist0.getD s 0 ≤ 0
        rw [hdist0_at, if_pos rfl]
      · show dist0.getD s 0 < INTMAX
        rw [hdist0_at, if_pos rfl]
        norm_num [INTMAX]
    · simp
    · intro x hx _ hlt
      by_cases hxs : x = s
      · have hval : st0.dist.getD x 0 = 0 := by
          show dist0.getD x 0 = 0
          rw [hdist0_at, if_pos hxs]
        rw [hval, hxs]
        show ((0 : Int), s) ∈ [((0 : Int), s)]
        simp
      · exfalso
        have hmaxi : st0.dist.getD x 0 = INTMAX := by
          show dist0.getD x 0 = INTMAX
          rw [hdist0_at, if_neg hxs, if_pos hx]
        omega
    · simp
  have hphi0 : phi n st0 < n * 2147483647 + 2 := by
    unfold phi
    have hsum : (Finset.range n).sum (fun v => (st0.dist.getD v 0).toNat)
        ≤ n * 2147483647 := by
      calc (Finset.range n).sum (fun v => (st0.dist.getD v 0).toNat)
          ≤ (Finset.range n).card * 2147483647 := by
            apply Finset.sum_le_card_nsmul
            intro v hv
            show (dist0.getD v 0).toNat ≤ 2147483647
            rw [hdist0_at]
            by_cases hvs : v = s
            · rw [if_pos hvs]; omega
            · rw [if_neg hvs]
              by_cases hvn : v < n
              · rw [if_pos hvn]; norm_num [INTMAX]
              · rw [if_neg hvn]; omega
        _ = n * 2147483647 := by rw [Finset.card_range]
    have hlenpq : st0.pq.length = 1 := rfl
    omega
  have hpost := dijkstraLoop_post m n s t hmat hs ht (n * 2147483647 + 2)
    (fun _ => False) st0 inv0 hphi0
  have hguard : (0 ≤ start ∧ start < (g.m_vertices : Int) ∧ 0 ≤ e
      ∧ e < (g.m_vertices : Int)) := ⟨h0, h1, h2, h3⟩
  constructor
  · intro p hp
    have hcost_nonneg := pathCost_nonneg n m hmat p hp.2.2.2
    unfold WGraph.dijkstra
    rw [if_pos hguard]
    simp only [← hn, ← hm, ← hsdef, ← htdef, ← hdist0, ← hst0]
    by_cases hend : (dijkstraLoop m n t (n * 2147483647 + 2) st0).dist.getD t 0 = INTMAX
    · rw [if_pos hend]
      simp only
      omega
    · rw [if_neg hend]
      simp only
      exact hpost.2 p hp
  · intro hnopath
    unfold WGraph.dijkstra
    rw [if_pos hguard]
    simp only [← hn, ← hm, ← hsdef, ← htdef, ← hdist0, ← hst0]
    have hend : (dijkstraLoop m n t (n * 2147483647 + 2) st0).dist.getD t 0 = INTMAX := by
      rcases hpost.1 t ht with h | ⟨p, hp, _⟩
      · exact h
      · exact absurd ⟨p, hp⟩ hnopath
    rw [if_pos hend]

/-- C1.  For every well-formed graph (as produced by construction plus
`addEdge` calls) and in-range endpoints, the distance returned by
`dijkstra(start, end)` is at most the total distance of every valid
start-to-end path — in particular of every valid path produced by
`geneticAlgorithm`, `localSearchOptimization` or
`geneticLocalSearchOptimization` on the same graph and endpoints. -/
theorem claim_C1_dijkstra_optimal (g : WGraph) (start e : Int) (p : List Int)
    (hwf : g.WellFormed)
    (h0 : 0 ≤ start) (h1 : start < (g.m_vertices : Int))
    (h2 : 0 ≤ e) (h3 : e < (g.m_vertices : Int))
    (hne : p ≠ []) (hhead : p.head? = some start) (hlast : p.getLast? = some e)
    (hvalid : is_valid_path p g.m_adjMatrix = true) :
    (g.dijkstra start e).2 ≤ pathCost g.m_adjMatrix p := by
  apply (dijkstra_post g start e hwf h0 h1 h2 h3).1
  refine ⟨hne, ?_, ?_, hvalid⟩
  · rw [hhead, Int.toNat_of_nonneg h0]
  · rw [hlast, Int.toNat_of_nonneg h2]

/-- Witness for C1: on the concrete 5-vertex scenario graph, the valid path
`[0, 2, 3]` (cost 7) bounds Dijkstra's answer (6) from above. -/
theorem claim_C1_witness :
    ((applyEdges (mkGraph 5) [(0, 1, 5), (0, 2, 3), (1, 2, 2), (1, 3, 1), (2, 3, 4)]).dijkstra
        0 3).2
      ≤ pathCost (applyEdges (mkGraph 5)
          [(0, 1, 5), (0, 2, 3), (1, 2, 2), (1, 3, 1), (2, 3, 4)]).m_adjMatrix
        [0, 2, 3] := by
  apply claim_C1_dijkstra_optimal
  · exact applyEdges_wellFormed _ _ (wellFormed_mk 5)
  · decide
  · decide
  · decide
  · decide
  · decide
  · decide
  · decide
  · decide

/-- Witness for C10: on a fresh 3-vertex graph, `dijkstra(1, 1) = ([1], 0)`. -/
theorem claim_C10_witness :
    (0 : Int) ≤ 1 ∧ (1 : Int) < ((mkGraph 3).m_vertices : Int) ∧
      (mkGraph 3).dijkstra 1 1 = ([1], 0) :=
  ⟨by decide, by decide, claim_C10_dijkstra_self (mkGraph 3) 1 (by decide) (by decide)⟩

/-! Genetic algorithm (`WGraph::geneticAlgorithm` and the helpers of
`tool.hpp`).  The `std::mt19937` draws are threaded in as explicit oracle
inputs: a `ChildDraw` carries the draws consumed by one iteration of the
breeding `while` loop, a generation is given its own draw stream, and the
oracle list `gens` has one entry per generation (the source fixes
`MAX_GENERATIONS = 500` entries).  `select` computes roulette-wheel
probabilities in `double` arithmetic; the only property the algorithm relies
on is that it returns some member of the (nonempty) population, so the draw is
abstracted to a member index. -/

structure ChildDraw where
  sel1 : Nat
  sel2 : Nat
  cross : Bool
  cutA : Nat
  cutB : Nat
  doMut : Bool
  mutA : Nat
  mutB : Nat

/-- Function `select(population, adj_matrix, rng)`, abstracted to the member
the roulette wheel lands on. -/
def selectM (pop : List (List Int)) (k : Nat) : List Int :=
  pop.getD (k % pop.length) []

/-- C++ `std::swap(l[i], l[j])`. -/
def swapL {α : Type} (l : List α) (i j : Nat) (d : α) : List α :=
  (l.set i (l.getD j d)).set j (l.getD i d)

/-- The `while (insertPos < child.size() && child[insertPos] != -1) ++insertPos`
scan of `crossover`. -/
def nextFreeAux (child : List Int) : Nat → Nat → Nat
  | 0, i => i
  | fuel + 1, i =>
    if i < child.length ∧ child.getD i 0 ≠ -1 then nextFreeAux child fuel (i + 1) else i

/-- Entry point of the free-slot scan; `child.length` bounds its step count. -/
def nextFree (child : List Int) (i : Nat) : Nat :=
  nextFreeAux child child.length i

/-- The fill phase of `crossover`: walk `parent2`, placing each element not
yet present in the child into the next free (`-1`) slot. -/
def fillLoop (child : List Int) (ip : Nat) : List Int → List Int
  | [] => child
  | e :: rest =>
    if e ∈ child then fillLoop child ip rest
    else
      let ip2 := nextFree child ip
      if ip2 < child.length then fillLoop (child.set ip2 e) ip2 rest
      else fillLoop child ip2 rest

/-- Function `crossover(parent1, parent2, rng)`: copy a random slice `[a, b]`
of `parent1` into the child, then fill the remaining `-1` slots with the
unused elements of `parent2` in order.  `cutA`/`cutB` are the two draws of
`uniform_int_distribution(0, size-1)`, modelled as `draw % size`. -/
def crossover (parent1 parent2 : List Int) (cutA cutB : Nat) : List Int :=
  let len := parent1.length
  let a0 := cutA % len
  let b0 := cutB % len
  let a := min a0 b0
  let b := max a0 b0
  let child := (List.range len).map (fun i => if a ≤ i ∧ i ≤ b then parent1.getD i (-1) else -1)
  fillLoop child 0 parent2

/-- Function `mutate(path, rng)`: swap two distinct non-endpoint positions.
The draws are the distribution's outputs in `[1, size-2]`; the source redraws
`j` until it differs from `i`, so the oracle supplies the final (distinct)
draw — when the two draws coincide the source's redraw loop has not yet
exited, which the model maps to the identity. -/
def mutate (path : List Int) (mutA mutB : Nat) : List Int :=
  if path.length < 3 then path
  else
    let i := 1 + mutA % (path.length - 2)
    let j := 1 + mutB % (path.length - 2)
    if i = j then path
    else swapL path i j 0

/-- Function `initialize_population(start, end, vertices, population_size)`:
each individual is `start :: (shuffled middle nodes) ++ [end]`.  The oracle
`shuffle k` is the cumulative permutation the in-place
`std::ranges::shuffle` has produced by iteration `k`. -/
def initialize_population (start e : Int) (vertices population_size : Nat)
    (shuffle : Nat → List Int → List Int) : List (List Int) :=
  let nodes := ((List.range vertices).map (fun i : Nat => (i : Int))).filter
    (fun i => i ≠ start ∧ i ≠ e)
  (List.range population_size).map (fun k => start :: (shuffle k nodes ++ [e]))

/-- Sorted insertion by an integer key; `sortByKey` models
`std::ranges::sort`/`std::sort` with an integer-key comparator (the relative
order of equal keys is unspecified in the source). -/
def insertByKey {α : Type} (key : α → Int) (x : α) : List α → List α
  | [] => [x]
  | y :: ys => if key x ≤ key y then x :: y :: ys else y :: insertByKey key x ys

def sortByKey {α : Type} (key : α → Int) : List α → List α
  | [] => []
  | x :: xs => insertByKey key x (sortByKey key xs)

/-- The per-individual distance of the fitness scan: `-1` for an invalid path,
the path distance otherwise (`distances[i]` in the source). -/
def gaDist (m : List (List Int)) (p : List Int) : Int :=
  if is_valid_path p m then pathCost m p else -1

/-- One step of the fitness scan: a valid path strictly below the running
`bestDistanceInGeneration` replaces both the tracked distance and
`bestPath`. -/
def gaStep (m : List (List Int)) (acc : Int × List Int) (path : List Int) :
    Int × List Int :=
  if gaDist m path ≠ -1 ∧ gaDist m path < acc.1 then (gaDist m path, path) else acc

/-- The fitness scan of one generation: fold over the population tracking
`bestDistanceInGeneration` (starting at `INT_MAX`) and overwriting `bestPath`
whenever a valid path strictly improves on it. -/
def gaScan (m : List (List Int)) (pop : List (List Int)) (best0 : List Int) :
    Int × List Int :=
  pop.foldl (gaStep m) (INTMAX, best0)

/-- Elitism: the `ELITE_SIZE = 5` lowest-distance individuals whose scan
distance is not `-1`, sorted ascending (`std::ranges::sort` on
`(distance, path)` pairs; ties in unspecified order, modelled by a stable
merge sort). -/
def gaElites (m : List (List Int)) (pop : List (List Int)) : List (List Int) :=
  (sortByKey (gaDist m) (pop.filter (fun p => gaDist m p != -1))).take 5

/-- One iteration of the breeding `while`: select two parents, cross with
probability `CROSSOVER_RATE`, mutate with probability `MUTATION_RATE` (the
Bernoulli outcomes are the `cross`/`mut` oracle fields). -/
def mkChild (pop : List (List Int)) (dr : ChildDraw) : List Int :=
  let parent1 := selectM pop dr.sel1
  let parent2 := selectM pop dr.sel2
  let child := if dr.cross then crossover parent1 parent2 dr.cutA dr.cutB else parent1
  if dr.doMut then mutate child dr.mutA dr.mutB else child

/-- One generation: fitness scan, elitism, then breeding until the new
population reaches `POPULATION_SIZE = 100`. -/
def gaGeneration (m : List (List Int)) (pop : List (List Int)) (best0 : List Int)
    (draws : Nat → ChildDraw) : (Int × List Int) × List (List Int) :=
  let scan := gaScan m pop best0
  let elites := gaElites m pop
  let children := (List.range (100 - elites.length)).map (fun k => mkChild pop (draws k))
  (scan, elites ++ children)

/-- The generation loop.  Returns the final tracked `bestPath`, the trace of
`bestDistanceInGeneration` values, and the list of populations that were
scanned (generation `g` scans the population bred by generation `g-1`). -/
def gaRun (m : List (List Int)) :
    List (Nat → ChildDraw) → List (List Int) → List Int →
      List Int × List Int × List (List (List Int))
  | [], _, best => (best, [], [])
  | g :: rest, pop, best =>
    let step := gaGeneration m pop best g
    let tail := gaRun m rest step.2 step.1.2
    (tail.1, step.1.1 :: tail.2.1, pop :: tail.2.2)

/-- Member `geneticAlgorithm(start, end)`: guard, initial population of 100
permutation paths, `gens.length` generations (500 in the source), then the
tracked best path or the sentinel. -/
def WGraph.geneticAlgorithm (g : WGraph) (start e : Int)
    (shuffle : Nat → List Int → List Int) (gens : List (Nat → ChildDraw)) :
    List Int × Int :=
  if 0 ≤ start ∧ start < (g.m_vertices : Int) ∧ 0 ≤ e ∧ e < (g.m_vertices : Int) then
    let pop0 := initialize_population start e g.m_vertices 100 shuffle
    let run := gaRun g.m_adjMatrix gens pop0 []
    if run.1 = [] then ([], -1)
    else (run.1, pathCost g.m_adjMatrix run.1)
  else ([], -1)

/-! Annealing local search (`WGraph::localSearchOptimization`).  Phase 1 is
the deterministic greedy nearest-unvisited-neighbour construction; phase 2 is
the annealing swap loop, whose `mt19937` position draws and floating-point
acceptance test (`d(rng) < exp(-delta/temperature)`) are oracle inputs. -/

/-- The `for (city …)` scan choosing the nearest unvisited next city. -/
def greedyPick (m : List (List Int)) (last : Nat) (visited : List Bool) :
    List Nat → Int × Option Nat → Int × Option Nat
  | [], acc => acc
  | city :: rest, acc =>
    if visited.getD city false = false ∧ city ≠ last then
      (if mget m last city < acc.1 ∧ mget m last city ≠ -1 then
        greedyPick m last visited rest (mget m last city, some city)
      else greedyPick m last visited rest acc)
    else greedyPick m last visited rest acc

/-- The `while (currentPath.size() < m_vertices)` construction loop; the fuel
equals the vertex count, which bounds the number of appends. -/
def greedyBuild (m : List (List Int)) (n : Nat) :
    Nat → List Nat → List Bool → List Nat
  | 0, path, _ => path
  | fuel + 1, path, visited =>
    if path.length < n then
      match (greedyPick m (path.getLastD 0) visited (List.range n)
          (INTMAX, none)).2 with
      | none => path
      | some next => greedyBuild m n fuel (path ++ [next]) (visited.set next true)
    else path

/-- Phase 1 of `localSearchOptimization` (also the per-individual seeding of
`geneticLocalSearchOptimization`): greedy walk from `start`, then append `end`
if the walk did not finish there. -/
def greedyConstruct (m : List (List Int)) (n s e : Nat) : List Nat :=
  let path := greedyBuild m n n [s] ((List.replicate n false).set s true)
  if path ≠ [] ∧ path.getLastD 0 ≠ e then path ++ [e] else path

structure LsoDraw where
  r1 : Nat
  r2 : Nat
  accept : Bool

/-- Raw distance of a vertex-index path: the sum of `m_adjMatrix` entries over
consecutive pairs, with no validity check (missing edges contribute `-1`),
exactly as the inline summation loops of the source. -/
def rawCostN (m : List (List Int)) : List Nat → Int
  | a :: b :: rest => mget m a b + rawCostN m (b :: rest)
  | _ => 0

/-- One iteration of the annealing loop.  The source copies the path, swaps
`pos1`/`pos2`, sums the ≤ 4 touched edges, swaps the same positions back
(restoring the original path), sums the touched edges again, and accepts on
`delta < 0` or the annealing coin toss; the accepted candidate is the
twice-swapped — hence unchanged — path.  Positions are
`uniform_int_distribution(1, m_vertices-2)` draws (`1 + r % (n-2)`), and the
model keeps the path unchanged while the source's `while (pos1 == pos2)`
redraw loop has not exited. -/
def lsoIter (m : List (List Int)) (n : Nat) (path : List Nat) (dr : LsoDraw) :
    List Nat :=
  let pos1 := 1 + dr.r1 % (n - 2)
  let pos2 := 1 + dr.r2 % (n - 2)
  if pos1 = pos2 then path
  else
    let cand := swapL path pos1 pos2 0
    let left1 : Int := if 0 < pos1 then (cand.getD (pos1 - 1) 0 : Int) else -1
    let right1 : Int := if pos1 < cand.length - 1 then (cand.getD (pos1 + 1) 0 : Int) else -1
    let left2 : Int := if 0 < pos2 then (cand.getD (pos2 - 1) 0 : Int) else -1
    let right2 : Int := if pos2 < cand.length - 1 then (cand.getD (pos2 + 1) 0 : Int) else -1
    let originalSum :=
      (if left1 ≠ -1 then mget m left1.toNat (cand.getD pos1 0) else 0) +
      (if right1 ≠ -1 then mget m (cand.getD pos1 0) right1.toNat else 0) +
      (if left2 ≠ -1 then mget m left2.toNat (cand.getD pos2 0) else 0) +
      (if right2 ≠ -1 then mget m (cand.getD pos2 0) right2.toNat else 0)
    let cand2 := swapL cand pos1 pos2 0
    let newLeft1 : Int := if 0 < pos1 then (cand2.getD (pos1 - 1) 0 : Int) else -1
    let newRight1 : Int := if pos1 < cand2.length - 1 then (cand2.getD (pos1 + 1) 0 : Int) else -1
    let newLeft2 : Int := if 0 < pos2 then (cand2.getD (pos2 - 1) 0 : Int) else -1
    let newRight2 : Int := if pos2 < cand2.length - 1 then (cand2.getD (pos2 + 1) 0 : Int) else -1
    let newSum :=
      (if newLeft1 ≠ -1 then mget m newLeft1.toNat (cand2.getD pos1 0) else 0) +
      (if newRight1 ≠ -1 then mget m (cand2.getD pos1 0) newRight1.toNat else 0) +
      (if newLeft2 ≠ -1 then mget m newLeft2.toNat (cand2.getD pos2 0) else 0) +
      (if newRight2 ≠ -1 then mget m (cand2.getD pos2 0) newRight2.toNat else 0)
    let delta := newSum - originalSum
    if delta < 0 then cand2
    else if dr.accept then cand2 else path

/-- Member `localSearchOptimization(start, end)`: guard, greedy construction,
`MAX_ITERATIONS` annealing iterations (one oracle entry each; the incremental
`currentDistance` bookkeeping is dropped because the final distance is
recomputed from scratch), and the recomputed raw distance of the final
path. -/
def WGraph.localSearchOptimization (g : WGraph) (start e : Int)
    (draws : List LsoDraw) : List Int × Int :=
  if 0 ≤ start ∧ start < (g.m_vertices : Int) ∧ 0 ≤ e ∧ e < (g.m_vertices : Int) then
    let p0 := greedyConstruct g.m_adjMatrix g.m_vertices start.toNat e.toNat
    let final := draws.foldl (lsoIter g.m_adjMatrix g.m_vertices) p0
    (final.map (fun v => (v : Int)), rawCostN g.m_adjMatrix final)
  else ([], -1)

/-! Hybrid search (`WGraph::geneticLocalSearchOptimization`, data.cpp).  The
`std::rand()` draws are oracle inputs (`draw % k` models `rand() % k`); the
parent-redraw loop `while (parent1 == parent2)` is modelled by its exit,
stepping to the next index on a collision. -/

structure GlsoDraw where
  par1 : Nat
  par2 : Nat
  cutA : Nat
  cutB : Nat

/-- The order crossover of the hybrid search: keep the slice
`parent1[startIdx..endIdx]`, then append each city of `parent2` that is not
yet used and is neither the child's current front nor back. -/
def glsoCrossover (p1 p2 : List Nat) (cutA cutB : Nat) : List Nat :=
  let len := p1.length
  let startIdx := cutA % (len - 1)
  let endIdx := cutB % (len - startIdx) + startIdx
  let seg := (p1.drop startIdx).take (endIdx + 1 - startIdx)
  p2.foldl (fun child city =>
    if city ∉ child ∧ city ≠ child.headD 0 ∧ city ≠ child.getLastD 0 then
      child ++ [city]
    else child) seg

/-- `std::reverse(path.begin() + i, path.begin() + j)`. -/
def revSeg (p : List Nat) (i j : Nat) : List Nat :=
  p.take i ++ ((p.drop i).take (j - i)).reverse ++ p.drop j

/-- The index pairs `(i, j)` the 2-opt double loop visits, in visit order:
`1 ≤ i < len - 2`, `i + 1 ≤ j < len`, skipping `j - i = 1`. -/
def twoOptPairs (len : Nat) : List (Nat × Nat) :=
  (List.range len).flatMap (fun i =>
    (List.range len).flatMap (fun j =>
      if 1 ≤ i ∧ i + 2 < len ∧ i + 1 ≤ j ∧ j - i ≠ 1 then [(i, j)] else []))

/-- One `(i, j)` step of the 2-opt scan: reverse `[i, j)` and keep the
reversal when it strictly reduces the raw path distance. -/
def twoOptStepPair (m : List (List Int)) (p : List Nat) (ij : Nat × Nat) : List Nat :=
  let q := revSeg p ij.1 ij.2
  if rawCostN m q < rawCostN m p then q else p

/-- One full pass of the double loop (the body of `while (improved)`); the
source sets `improved` exactly when some reversal was accepted, i.e. when the
pass changed the path. -/
def twoOptPass (m : List (List Int)) (p : List Nat) : List Nat :=
  (twoOptPairs p.length).foldl (twoOptStepPair m) p

/-- The `while (improved)` loop with fuel; `geneticLocalSearchOptimization`
runs it with fuel exceeding the number of strictly-improving passes any run
can take (claim C7 proves that bound suffices). -/
def twoOptLoop (m : List (List Int)) : Nat → List Nat → List Nat
  | 0, p => p
  | fuel + 1, p =>
    let q := twoOptPass m p
    if q = p then p else twoOptLoop m fuel q

/-- Fuel sufficient for `twoOptLoop`: every accepted reversal strictly lowers
the raw distance, which is bounded below by `-(length)`. -/
def twoOptFuel (m : List (List Int)) (p : List Nat) : Nat :=
  (rawCostN m p + p.length).toNat + 1

/-- One offspring of the hybrid search: pick two distinct parents, apply the
order crossover, then exhaust 2-opt. -/
def glsoChild (m : List (List Int)) (pop : List (List Nat)) (population_size : Nat)
    (dr : GlsoDraw) : List Nat :=
  let i1 := dr.par1 % population_size
  let i2 := dr.par2 % population_size
  let i2 := if i1 = i2 then (i2 + 1) % population_size else i2
  let child := glsoCrossover (pop.getD i1 []) (pop.getD i2 []) dr.cutA dr.cutB
  twoOptLoop m (twoOptFuel m child) child

/-- Member `geneticLocalSearchOptimization(start, end, population_size,
generations)`: guard, greedy-seeded population, per generation an equal batch
of 2-opt-refined offspring, merge, sort by raw distance and truncate; finally
the minimum-distance individual. -/
def WGraph.geneticLocalSearchOptimization (g : WGraph) (start e : Int)
    (population_size generations : Nat) (draws : Nat → Nat → GlsoDraw) :
    List Int × Int :=
  if 0 ≤ start ∧ start < (g.m_vertices : Int) ∧ 0 ≤ e ∧ e < (g.m_vertices : Int) then
    let m := g.m_adjMatrix
    let seed := greedyConstruct m g.m_vertices start.toNat e.toNat
    let pop0 : List (List Nat) := List.replicate population_size seed
    let finalPop := (List.range generations).foldl (fun pop gen =>
      let children := (List.range population_size).map
        (fun k => glsoChild m pop population_size (draws gen k))
      ((sortByKey (rawCostN m) (pop ++ children)).take population_size)) pop0
    let bestPath : List Nat := (finalPop.foldl (fun best p =>
      match best with
      | none => some p
      | some b => if rawCostN m p < rawCostN m b then some p else some b) none).getD []
    (bestPath.map (fun v => (v : Int)), rawCostN m bestPath)
  else ([], -1)

/-! The concurrent benchmark harness (`menu.hpp`).  `paths_task` launches one
async task per endpoint pair and collects the futures in submission order;
each task's outcome — the per-pair result vector, or the exception the task
raised — is the oracle input here, since scheduling itself is not
modelled. -/

/-- The collection loop of `paths_task`: `future.get()` each task in order,
appending its result; on the first exception, log it and return the empty
optional, discarding everything. -/
def collectResults {R : Type} : List (Except String R) → Option (List R)
  | [] => some []
  | Except.ok r :: rest => (collectResults rest).map (fun rs => r :: rs)
  | Except.error _ :: _ => none

theorem mgetI_mk (v : Nat) (a b : Int) : mgetI (mkGraph v).m_adjMatrix a b = -1 := by
  unfold mgetI
  by_cases hab : 0 ≤ a ∧ 0 ≤ b
  · rw [if_pos hab]
    exact mget_mk v a.toNat b.toNat
  · rw [if_neg hab]

theorem no_chain_mk (v : Nat) (s t : Nat) (hst : s ≠ t) :
    ¬ ∃ p, IsChain (mkGraph v).m_adjMatrix s p t := by
  rintro ⟨p, hne, hhead, hlast, hvalid⟩
  rcases p with _ | ⟨x, tail⟩
  · exact hne rfl
  · rcases tail with _ | ⟨y, rest⟩
    · have h1 : x = (s : Int) := by simpa using hhead
      have h2 : x = (t : Int) := by simpa using hlast
      rw [h1] at h2
      exact hst (by exact_mod_cast h2)
    · have e : is_valid_path (x :: y :: rest) (mkGraph v).m_adjMatrix
          = ((mgetI (mkGraph v).m_adjMatrix x y != -1)
            && is_valid_path (y :: rest) (mkGraph v).m_adjMatrix) := rfl
      rw [e, Bool.and_eq_true, bne_iff_ne] at hvalid
      exact hvalid.1 (mgetI_mk v x y)

/-- C4.  Each of the four search members returns the sentinel `([], -1)` when
`start` or `end` falls outside `[0, N)` (modelled as total functions: no value
is thrown), and `dijkstra` additionally returns the sentinel when no valid
path connects the two in-range endpoints of a well-formed graph. -/
theorem claim_C4_sentinel_results (g : WGraph) (start e : Int)
    (shuffle : Nat → List Int → List Int) (gens : List (Nat → ChildDraw))
    (ldraws : List LsoDraw) (ps gn : Nat) (gdraws : Nat → Nat → GlsoDraw) :
    (¬ (0 ≤ start ∧ start < (g.m_vertices : Int) ∧ 0 ≤ e ∧ e < (g.m_vertices : Int)) →
      g.dijkstra start e = ([], -1) ∧
      g.geneticAlgorithm start e shuffle gens = ([], -1) ∧
      g.localSearchOptimization start e ldraws = ([], -1) ∧
      g.geneticLocalSearchOptimization start e ps gn gdraws = ([], -1)) ∧
    (g.WellFormed → 0 ≤ start → start < (g.m_vertices : Int) →
      0 ≤ e → e < (g.m_vertices : Int) →
      (¬ ∃ p, IsChain g.m_adjMatrix start.toNat p e.toNat) →
      g.dijkstra start e = ([], -1)) := by
  constructor
  · intro hout
    refine ⟨?_, ?_, ?_, ?_⟩
    · unfold WGraph.dijkstra
      rw [if_neg hout]
    · unfold WGraph.geneticAlgorithm
      rw [if_neg hout]
    · unfold WGraph.localSearchOptimization
      rw [if_neg hout]
    · unfold WGraph.geneticLocalSearchOptimization
      rw [if_neg hout]
  · intro hwf h0 h1 h2 h3 hnopath
    exact (dijkstra_post g start e hwf h0 h1 h2 h3).2 hnopath

/-- Witness for C4: out-of-range `start = -1` yields the sentinel from all
four algorithms of a fresh 2-vertex graph, and `dijkstra(0, 1)` on the
edgeless graph (unreachable destination) also yields the sentinel. -/
theorem claim_C4_witness :
    (mkGraph 2).dijkstra (-1) 0 = ([], -1) ∧
    (mkGraph 2).geneticAlgorithm (-1) 0 (fun _ l => l) [] = ([], -1) ∧
    (mkGraph 2).localSearchOptimization (-1) 0 [] = ([], -1) ∧
    (mkGraph 2).geneticLocalSearchOptimization (-1) 0 1 0 (fun _ _ => ⟨0, 0, 0, 0⟩)
      = ([], -1) ∧
    (mkGraph 2).dijkstra 0 1 = ([], -1) := by
  have h1 := (claim_C4_sentinel_results (mkGraph 2) (-1) 0 (fun _ l => l) [] [] 1 0
    (fun _ _ => ⟨0, 0, 0, 0⟩)).1 (by decide)
  have h2 := (claim_C4_sentinel_results (mkGraph 2) 0 1 (fun _ l => l) [] [] 1 0
    (fun _ _ => ⟨0, 0, 0, 0⟩)).2 (wellFormed_mk 2) (by decide) (by decide) (by decide)
    (by decide) (by simpa using no_chain_mk 2 0 1 (by decide))
  exact ⟨h1.1, h1.2.1, h1.2.2.1, h1.2.2.2, h2⟩

/-- C8 counterexample.  With three endpoint-pair tasks of which the second
raises, `paths_task`'s collection loop returns the empty optional: the results
of the first and third pairs are NOT collected and returned, contrary to the
claim. -/
theorem claim_C8_counterexample :
    collectResults [Except.ok (1 : Int), Except.error "task failure", Except.ok 2]
      = none ∧ ∀ rs : List Int,
        collectResults [Except.ok (1 : Int), Except.error "task failure", Except.ok 2]
          ≠ some rs := by
  refine ⟨rfl, ?_⟩
  intro rs h
  simp [collectResults] at h

/-- C8 amended.  When a task raises, `paths_task` catches the exception at the
result-collection point and logs it, but then returns the empty optional,
discarding every pair's results; a full result list (in submission order)
comes back exactly when every task completes normally. -/
theorem claim_C8_collection_aborts {R : Type} (tasks : List (Except String R)) :
    (collectResults tasks = none ↔ ∃ t ∈ tasks, ∃ err, t = Except.error err) ∧
    (∀ rs : List R, collectResults tasks = some rs ↔ tasks = rs.map Except.ok) := by
  induction tasks with
  | nil =>
    refine ⟨⟨fun h => by simp [collectResults] at h, fun ⟨t, ht, _⟩ => absurd ht (by simp)⟩, ?_⟩
    intro rs
    constructor
    · intro h
      have : rs = [] := by simpa [collectResults] using h
      simp [this]
    · intro h
      have : rs = [] := by
        rcases rs with _ | _
        · rfl
        · simp at h
      simp [this, collectResults]
  | cons task rest ih =>
    rcases task with err | r
    · refine ⟨⟨fun _ => ⟨Except.error err, by simp, err, rfl⟩, fun _ => rfl⟩, ?_⟩
      intro rs
      constructor
      · intro h
        simp [collectResults] at h
      · intro h
        rcases rs with _ | ⟨r2, rs2⟩
        · simp at h
        · simp at h
    · constructor
      · constructor
        · intro h
          rw [show collectResults (Except.ok r :: rest)
              = (collectResults rest).map (fun rs => r :: rs) from rfl] at h
          rcases hrest : collectResults rest with _ | rs2
          · obtain ⟨t, ht, herr⟩ := ih.1.mp hrest
            exact ⟨t, List.mem_cons_of_mem _ ht, herr⟩
          · rw [hrest] at h
            simp at h
        · rintro ⟨t, ht, err, herr⟩
          rcases List.mem_cons.mp ht with ht | ht
          · rw [herr] at ht
            simp at ht
          · rw [show collectResults (Except.ok r :: rest)
                = (collectResults rest).map (fun rs => r :: rs) from rfl]
            rw [ih.1.mpr ⟨t, ht, err, herr⟩]
            rfl
      · intro rs
        rw [show collectResults (Except.ok r :: rest)
            = (collectResults rest).map (fun rs => r :: rs) from rfl]
        constructor
        · intro h
          rcases hrest : collectResults rest with _ | rs2
          · rw [hrest] at h
            simp at h
          · rw [hrest] at h
            simp at h
            rcases h with ⟨rfl⟩
            have := (ih.2 rs2).mp hrest
            simp [this]
        · intro h
          rcases rs with _ | ⟨r2, rs2⟩
          · simp at h
          · simp at h
            obtain ⟨hr2, hrest2⟩ := h
            rw [(ih.2 rs2).mpr hrest2]
            simp [hr2]

/-- C6, evaluated at the failing input: on the 4-vertex graph with the single
edge `0–1` and endpoints `(0, 1)`, the greedy phase builds the 2-element path
`[0, 1]`, while the refinement loop samples swap positions from
`uniform_int_distribution(1, m_vertices - 2) = [1, 2]`: the draw mapping to
position 2 is not below `path.size() - 1 = 1` (it is even out of bounds), and
the draw mapping to position 1 hits the path's last element — the `end`
vertex — contradicting the claim that both sampled indices always lie strictly
between 0 and `currentPath.size() - 1`. -/
theorem claim_C6_swap_positions_out_of_range :
    (greedyConstruct (applyEdges (mkGraph 4) [(0, 1, 1)]).m_adjMatrix
        (applyEdges (mkGraph 4) [(0, 1, 1)]).m_vertices 0 1).length = 2 ∧
    1 + 1 % ((applyEdges (mkGraph 4) [(0, 1, 1)]).m_vertices - 2) = 2 ∧
    ¬ (1 + 1 % ((applyEdges (mkGraph 4) [(0, 1, 1)]).m_vertices - 2)
        < (greedyConstruct (applyEdges (mkGraph 4) [(0, 1, 1)]).m_adjMatrix
            (applyEdges (mkGraph 4) [(0, 1, 1)]).m_vertices 0 1).length - 1) ∧
    1 + 0 % ((applyEdges (mkGraph 4) [(0, 1, 1)]).m_vertices - 2)
      = (greedyConstruct (applyEdges (mkGraph 4) [(0, 1, 1)]).m_adjMatrix
          (applyEdges (mkGraph 4) [(0, 1, 1)]).m_vertices 0 1).length - 1 := by
  decide

theorem mget_ge_neg_one (n : Nat) (m : List (List Int)) (hmat : MatOK n m) (i j : Nat) :
    -1 ≤ mget m i j := by
  rcases hmat.2 i j with h | h <;> omega

theorem rawCostN_lb (n : Nat) (m : List (List Int)) (hmat : MatOK n m) :
    ∀ q : List Nat, -(q.length : Int) ≤ rawCostN m q := by
  intro q
  induction q with
  | nil => simp [rawCostN]
  | cons a tail ih =>
    cases tail with
    | nil => simp [rawCostN]
    | cons b rest =>
      have e : rawCostN m (a :: b :: rest) = mget m a b + rawCostN m (b :: rest) := rfl
      rw [e]
      have h1 := mget_ge_neg_one n m hmat a b
      have h2 := ih
      simp only [List.length_cons] at h2 ⊢
      push_cast at h2 ⊢
      omega

theorem revSeg_length (p : List Nat) (i j : Nat) (h1 : i + 1 ≤ j) (h2 : j < p.length) :
    (revSeg p i j).length = p.length := by
  unfold revSeg
  simp only [List.length_append, List.length_take, List.length_reverse, List.length_drop]
  omega

theorem twoOptStepPair_cases (m : List (List Int)) (p : List Nat) (ij : Nat × Nat) :
    twoOptStepPair m p ij = p ∨
    (twoOptStepPair m p ij = revSeg p ij.1 ij.2 ∧
      rawCostN m (twoOptStepPair m p ij) < rawCostN m p) := by
  unfold twoOptStepPair
  simp only
  by_cases hc : rawCostN m (revSeg p ij.1 ij.2) < rawCostN m p
  · rw [if_pos hc]
    right
    exact ⟨rfl, hc⟩
  · rw [if_neg hc]
    left
    rfl

theorem mem_twoOptPairs (len i j : Nat) :
    (i, j) ∈ twoOptPairs len ↔
      j < len ∧ 1 ≤ i ∧ i + 2 < len ∧ i + 1 ≤ j ∧ j - i ≠ 1 := by
  unfold twoOptPairs
  simp only [List.mem_flatMap, List.mem_range]
  constructor
  · rintro ⟨i2, hi2, j2, hj2, hmem⟩
    by_cases hc : 1 ≤ i2 ∧ i2 + 2 < len ∧ i2 + 1 ≤ j2 ∧ j2 - i2 ≠ 1
    · rw [if_pos hc] at hmem
      simp only [List.mem_singleton, Prod.mk.injEq] at hmem
      obtain ⟨h1, h2⟩ := hmem
      subst h1
      subst h2
      exact ⟨hj2, hc.1, hc.2.1, hc.2.2.1, hc.2.2.2⟩
    · rw [if_neg hc] at hmem
      simp at hmem
  · rintro ⟨hj, h1, h2, h3, h4⟩
    refine ⟨i, by omega, j, hj, ?_⟩
    rw [if_pos ⟨h1, h2, h3, h4⟩]
    simp

theorem twoOptFold_cases (m : List (List Int)) (len : Nat) :
    ∀ (pairs : List (Nat × Nat)),
      (∀ ij ∈ pairs, ij.1 + 1 ≤ ij.2 ∧ ij.2 < len) →
      ∀ q : List Nat, q.length = len →
      pairs.foldl (twoOptStepPair m) q = q ∨
      (rawCostN m (pairs.foldl (twoOptStepPair m) q) < rawCostN m q ∧
        (pairs.foldl (twoOptStepPair m) q).length = len) := by
  intro pairs
  induction pairs with
  | nil =>
    intro _ q _
    left
    rfl
  | cons ij rest ih =>
    intro hpairs q hq
    rw [List.foldl_cons]
    have hij := hpairs ij (List.mem_cons_self _ _)
    have hrest : ∀ ij2 ∈ rest, ij2.1 + 1 ≤ ij2.2 ∧ ij2.2 < len :=
      fun ij2 h => hpairs ij2 (List.mem_cons_of_mem _ h)
    rcases twoOptStepPair_cases m q ij with hstep | ⟨hrev, hlt⟩
    · rw [hstep]
      exact ih hrest q hq
    · have hlen1 : (twoOptStepPair m q ij).length = len := by
        rw [hrev, revSeg_length q ij.1 ij.2 hij.1 (by omega)]
        exact hq
      rcases ih hrest (twoOptStepPair m q ij) hlen1 with hout | ⟨hlt2, hlen2⟩
      · rw [hout]
        right
        exact ⟨hlt, hlen1⟩
      · right
        exact ⟨lt_trans hlt2 hlt, hlen2⟩

theorem twoOptPass_cases (m : List (List Int)) (p : List Nat) :
    twoOptPass m p = p ∨
    (rawCostN m (twoOptPass m p) < rawCostN m p ∧ (twoOptPass m p).length = p.length) := by
  unfold twoOptPass
  exact twoOptFold_cases m p.length (twoOptPairs p.length)
    (fun ij hij => by
      have := (mem_twoOptPairs p.length ij.1 ij.2).mp hij
      exact ⟨this.2.2.2.1, this.1⟩)
    p rfl

theorem twoOptLoop_succ_eq (m : List (List Int)) (fuel : Nat) (p : List Nat) :
    twoOptLoop m (fuel + 1) p =
      (if twoOptPass m p = p then p else twoOptLoop m fuel (twoOptPass m p)) := by
  rw [twoOptLoop]

theorem twoOptLoop_fix (n : Nat) (m : List (List Int)) (hmat : MatOK n m) :
    ∀ (nu : Nat) (p : List Nat), (rawCostN m p + p.length).toNat ≤ nu →
      ∀ k, nu < k →
        twoOptPass m (twoOptLoop m k p) = twoOptLoop m k p ∧
        twoOptLoop m k p = twoOptLoop m (nu + 1) p := by
  intro nu
  induction nu using Nat.strong_induction_on with
  | _ nu ih =>
    intro p hmeas k hk
    obtain ⟨k2, rfl⟩ : ∃ k2, k = k2 + 1 := ⟨k - 1, by omega⟩
    rw [twoOptLoop_succ_eq]
    rcases twoOptPass_cases m p with hfix | ⟨hlt, hlen⟩
    · rw [if_pos hfix, twoOptLoop_succ_eq, if_pos hfix]
      exact ⟨hfix, rfl⟩
    · have hne : twoOptPass m p ≠ p := by
        intro hc
        rw [hc] at hlt
        omega
      rw [if_neg hne]
      have hlb := rawCostN_lb n m hmat (twoOptPass m p)
      have hmeas2 : (rawCostN m (twoOptPass m p) + (twoOptPass m p).length).toNat
          < (rawCostN m p + p.length).toNat := by
        rw [hlen]
        omega
      have hnu1 : 1 ≤ nu := by omega
      have hsub := ih (nu - 1) (by omega) (twoOptPass m p) (by omega)
      obtain ⟨hfix2, heq2⟩ := hsub k2 (by omega)
      constructor
      · exact hfix2
      · have hrhs : twoOptLoop m (nu + 1) p = twoOptLoop m nu (twoOptPass m p) := by
          rw [twoOptLoop_succ_eq, if_neg hne]
        rw [hrhs, heq2, show nu - 1 + 1 = nu from by omega]

/-- C7.  On every well-formed graph and every offspring path, the inner 2-opt
refinement loop of `geneticLocalSearchOptimization` terminates: after at most
`twoOptFuel` strictly-improving passes it reaches a path admitting no further
improving reversal, and running the loop with any larger bound returns the
same path. -/
theorem claim_C7_twoOpt_terminates (g : WGraph) (p : List Nat) (hwf : g.WellFormed) :
    ∃ fuel0, ∀ fuel, fuel0 ≤ fuel →
      twoOptLoop g.m_adjMatrix fuel p = twoOptLoop g.m_adjMatrix fuel0 p ∧
      twoOptPass g.m_adjMatrix (twoOptLoop g.m_adjMatrix fuel0 p)
        = twoOptLoop g.m_adjMatrix fuel0 p := by
  have hmat := wellFormed_matOK g hwf
  set m := g.m_adjMatrix
  set nu := (rawCostN m p + p.length).toNat with hnu
  refine ⟨nu + 1, ?_⟩
  intro fuel hfuel
  have h1 := twoOptLoop_fix g.m_vertices m hmat nu p (le_refl _) fuel (by omega)
  have h2 := twoOptLoop_fix g.m_vertices m hmat nu p (le_refl _) (nu + 1) (by omega)
  exact ⟨by rw [h1.2, h2.2], h2.1⟩

/-- Witness for C7: the 2-opt loop applied to the tour `[0, 2, 1, 3]` of the
concrete 5-vertex scenario graph. -/
theorem claim_C7_witness :
    ∃ fuel0, ∀ fuel, fuel0 ≤ fuel →
      twoOptLoop (applyEdges (mkGraph 5)
          [(0, 1, 5), (0, 2, 3), (1, 2, 2), (1, 3, 1), (2, 3, 4)]).m_adjMatrix fuel
          [0, 2, 1, 3]
        = twoOptLoop (applyEdges (mkGraph 5)
            [(0, 1, 5), (0, 2, 3), (1, 2, 2), (1, 3, 1), (2, 3, 4)]).m_adjMatrix fuel0
            [0, 2, 1, 3] ∧
      twoOptPass (applyEdges (mkGraph 5)
          [(0, 1, 5), (0, 2, 3), (1, 2, 2), (1, 3, 1), (2, 3, 4)]).m_adjMatrix
          (twoOptLoop (applyEdges (mkGraph 5)
            [(0, 1, 5), (0, 2, 3), (1, 2, 2), (1, 3, 1), (2, 3, 4)]).m_adjMatrix fuel0
            [0, 2, 1, 3])
        = twoOptLoop (applyEdges (mkGraph 5)
            [(0, 1, 5), (0, 2, 3), (1, 2, 2), (1, 3, 1), (2, 3, 4)]).m_adjMatrix fuel0
            [0, 2, 1, 3] :=
  claim_C7_twoOpt_terminates _ [0, 2, 1, 3] (applyEdges_wellFormed _ _ (wellFormed_mk 5))

/-! Supporting lemmas for the genetic-algorithm claims (C2, C9). -/

theorem mem_insertByKey {α : Type} (key : α → Int) (x y : α) (l : List α) :
    y ∈ insertByKey key x l ↔ y = x ∨ y ∈ l := by
  induction l with
  | nil => simp [insertByKey]
  | cons z zs ih =>
    rw [insertByKey]
    by_cases h : key x ≤ key z
    · rw [if_pos h]
      simp only [List.mem_cons]
    · rw [if_neg h]
      simp only [List.mem_cons, ih]
      tauto

theorem mem_sortByKey {α : Type} (key : α → Int) (l : List α) (y : α) :
    y ∈ sortByKey key l ↔ y ∈ l := by
  induction l with
  | nil => simp [sortByKey]
  | cons z zs ih =>
    rw [sortByKey, mem_insertByKey]
    simp only [List.mem_cons, ih]

theorem sorted_insertByKey {α : Type} (key : α → Int) (x : α) (l : List α)
    (h : l.Pairwise (fun a b => key a ≤ key b)) :
    (insertByKey key x l).Pairwise (fun a b => key a ≤ key b) := by
  induction l with
  | nil => simp [insertByKey]
  | cons z zs ih =>
    rw [insertByKey]
    rcases List.pairwise_cons.mp h with ⟨hz, hzs⟩
    by_cases hle : key x ≤ key z
    · rw [if_pos hle]
      refine List.pairwise_cons.mpr ⟨?_, h⟩
      intro e he
      rcases List.mem_cons.mp he with he | he
      · subst he; exact hle
      · exact le_trans hle (hz e he)
    · rw [if_neg hle]
      refine List.pairwise_cons.mpr ⟨?_, ih hzs⟩
      intro e he
      rcases (mem_insertByKey key x e zs).mp he with he | he
      · subst he; omega
      · exact hz e he

theorem sorted_sortByKey {α : Type} (key : α → Int) (l : List α) :
    (sortByKey key l).Pairwise (fun a b => key a ≤ key b) := by
  induction l with
  | nil => simp [sortByKey]
  | cons z zs ih =>
    rw [sortByKey]
    exact sorted_insertByKey key z _ ih

theorem gaFold_min (m : List (List Int)) :
    ∀ (pop : List (List Int)) (acc : Int × List Int),
      (pop.foldl (gaStep m) acc).1 ≤ acc.1 ∧
      ∀ p ∈ pop, gaDist m p ≠ -1 → (pop.foldl (gaStep m) acc).1 ≤ gaDist m p := by
  intro pop
  induction pop with
  | nil =>
    intro acc
    exact ⟨le_refl _, fun p hp => absurd hp (List.not_mem_nil p)⟩
  | cons p0 rest ih =>
    intro acc
    rw [List.foldl_cons]
    have hstep : (gaStep m acc p0).1 ≤ acc.1 := by
      unfold gaStep
      split
      · omega
      · exact le_refl _
    obtain ⟨ih1, ih2⟩ := ih (gaStep m acc p0)
    refine ⟨le_trans ih1 hstep, ?_⟩
    intro p hp hd
    rcases List.mem_cons.mp hp with hp | hp
    · subst hp
      by_cases hc : gaDist m p ≠ -1 ∧ gaDist m p < acc.1
      · have he : (gaStep m acc p).1 = gaDist m p := by
          unfold gaStep
          rw [if_pos hc]
        calc (rest.foldl (gaStep m) (gaStep m acc p)).1
            ≤ (gaStep m acc p).1 := ih1
          _ = gaDist m p := he
      · have he : gaStep m acc p = acc := by
          unfold gaStep
          rw [if_neg hc]
        have hge : acc.1 ≤ gaDist m p := by
          rcases not_and_or.mp hc with h | h
          · exact absurd hd h
          · omega
        calc (rest.foldl (gaStep m) (gaStep m acc p)).1
            ≤ (gaStep m acc p).1 := ih1
          _ = acc.1 := by rw [he]
          _ ≤ gaDist m p := hge
    · exact ih2 p hp hd

theorem gaFold_result (m : List (List Int)) :
    ∀ (pop : List (List Int)) (acc : Int × List Int),
      pop.foldl (gaStep m) acc = acc ∨
      ((pop.foldl (gaStep m) acc).2 ∈ pop ∧
        gaDist m (pop.foldl (gaStep m) acc).2 = (pop.foldl (gaStep m) acc).1 ∧
        gaDist m (pop.foldl (gaStep m) acc).2 ≠ -1 ∧
        (pop.foldl (gaStep m) acc).1 < acc.1) := by
  intro pop
  induction pop with
  | nil =>
    intro acc
    left; rfl
  | cons p0 rest ih =>
    intro acc
    rw [List.foldl_cons]
    by_cases hc : gaDist m p0 ≠ -1 ∧ gaDist m p0 < acc.1
    · have hstep : gaStep m acc p0 = (gaDist m p0, p0) := by
        unfold gaStep
        rw [if_pos hc]
      rw [hstep]
      rcases ih (gaDist m p0, p0) with hout | ⟨hmem, hval, hvne, hlt⟩
      · right
        rw [hout]
        exact ⟨List.mem_cons_self _ _, rfl, hc.1, hc.2⟩
      · right
        exact ⟨List.mem_cons_of_mem _ hmem, hval, hvne, lt_trans hlt hc.2⟩
    · have hstep : gaStep m acc p0 = acc := by
        unfold gaStep
        rw [if_neg hc]
      rw [hstep]
      rcases ih acc with hout | ⟨hmem, hval, hvne, hlt⟩
      · left; exact hout
      · right
        exact ⟨List.mem_cons_of_mem _ hmem, hval, hvne, hlt⟩

theorem gaFold_improves (m : List (List Int)) :
    ∀ (pop : List (List Int)) (acc : Int × List Int),
      (∃ p ∈ pop, gaDist m p ≠ -1 ∧ gaDist m p < acc.1) →
      (pop.foldl (gaStep m) acc).1 < acc.1 := by
  intro pop
  induction pop with
  | nil =>
    rintro acc ⟨p, hp, _⟩
    exact absurd hp (List.not_mem_nil p)
  | cons p0 rest ih =>
    rintro acc ⟨p, hp, hdne, hdlt⟩
    rw [List.foldl_cons]
    by_cases hc : gaDist m p0 ≠ -1 ∧ gaDist m p0 < acc.1
    · have hstep : gaStep m acc p0 = (gaDist m p0, p0) := by
        unfold gaStep
        rw [if_pos hc]
      rw [hstep]
      have := (gaFold_min m rest (gaDist m p0, p0)).1
      calc (rest.foldl (gaStep m) (gaDist m p0, p0)).1
          ≤ gaDist m p0 := this
        _ < acc.1 := hc.2
    · have hstep : gaStep m acc p0 = acc := by
        unfold gaStep
        rw [if_neg hc]
      rw [hstep]
      rcases List.mem_cons.mp hp with hp | hp
      · subst hp
        exact absurd ⟨hdne, hdlt⟩ hc
      · exact ih acc ⟨p, hp, hdne, hdlt⟩

theorem gaElites_subset (m : List (List Int)) (pop : List (List Int)) :
    ∀ q ∈ gaElites m pop, q ∈ pop := by
  intro q hq
  unfold gaElites at hq
  have h1 := List.take_subset 5 _ hq
  rw [mem_sortByKey] at h1
  exact List.mem_of_mem_filter h1

theorem gaElites_valid (m : List (List Int)) (pop : List (List Int)) :
    ∀ q ∈ gaElites m pop, gaDist m q ≠ -1 := by
  intro q hq
  unfold gaElites at hq
  have h1 := List.take_subset 5 _ hq
  rw [mem_sortByKey] at h1
  have h2 := List.of_mem_filter h1
  exact bne_iff_ne.mp h2

theorem gaElites_min (m : List (List Int)) (pop : List (List Int))
    (hx : ∃ p ∈ pop, gaDist m p ≠ -1) :
    ∃ q ∈ gaElites m pop, gaDist m q ≠ -1 ∧
      ∀ p ∈ pop, gaDist m p ≠ -1 → gaDist m q ≤ gaDist m p := by
  obtain ⟨p0, hp0, hd0⟩ := hx
  have hpf : p0 ∈ pop.filter (fun p => gaDist m p != -1) :=
    List.mem_filter.mpr ⟨hp0, bne_iff_ne.mpr hd0⟩
  have hpsort : p0 ∈ sortByKey (gaDist m) (pop.filter (fun p => gaDist m p != -1)) :=
    (mem_sortByKey _ _ _).mpr hpf
  rcases hsort : sortByKey (gaDist m) (pop.filter (fun p => gaDist m p != -1)) with
    _ | ⟨q, qs⟩
  · rw [hsort] at hpsort
    exact absurd hpsort (List.not_mem_nil p0)
  · have hqmem : q ∈ gaElites m pop := by
      unfold gaElites
      rw [hsort]
      show q ∈ (q :: qs).take 5
      rw [List.take_succ_cons]
      exact List.mem_cons_self _ _
    refine ⟨q, hqmem, gaElites_valid m pop q hqmem, ?_⟩
    intro p hp hd
    have hpf2 : p ∈ sortByKey (gaDist m) (pop.filter (fun r => gaDist m r != -1)) :=
      (mem_sortByKey _ _ _).mpr (List.mem_filter.mpr ⟨hp, bne_iff_ne.mpr hd⟩)
    rw [hsort] at hpf2
    rcases List.mem_cons.mp hpf2 with hpq | hpq
    · subst hpq
      exact le_refl _
    · have hsorted := sorted_sortByKey (gaDist m) (pop.filter (fun r => gaDist m r != -1))
      rw [hsort] at hsorted
      exact (List.pairwise_cons.mp hsorted).1 p hpq

theorem swapL_length {α : Type} (l : List α) (i j : Nat) (d : α) :
    (swapL l i j d).length = l.length := by
  unfold swapL
  rw [List.length_set, List.length_set]

theorem fillLoop_length : ∀ (l child : List Int) (ip : Nat),
    (fillLoop child ip l).length = child.length
  | [], _, _ => rfl
  | e :: rest, child, ip => by
    have heq : fillLoop child ip (e :: rest) =
        if e ∈ child then fillLoop child ip rest
        else if nextFree child ip < child.length then
          fillLoop (child.set (nextFree child ip) e) (nextFree child ip) rest
        else fillLoop child (nextFree child ip) rest := rfl
    rw [heq]
    by_cases hmem : e ∈ child
    · rw [if_pos hmem]
      exact fillLoop_length rest child ip
    · rw [if_neg hmem]
      by_cases hlt : nextFree child ip < child.length
      · rw [if_pos hlt, fillLoop_length rest _ _, List.length_set]
      · rw [if_neg hlt]
        exact fillLoop_length rest child _

theorem crossover_length (p1 p2 : List Int) (a b : Nat) :
    (crossover p1 p2 a b).length = p1.length := by
  unfold crossover
  simp only
  rw [fillLoop_length, List.length_map, List.length_range]

theorem mutate_length (p : List Int) (a b : Nat) :
    (mutate p a b).length = p.length := by
  unfold mutate
  by_cases h3 : p.length < 3
  · rw [if_pos h3]
  · rw [if_neg h3]
    simp only
    by_cases hij : 1 + a % (p.length - 2) = 1 + b % (p.length - 2)
    · rw [if_pos hij]
    · rw [if_neg hij]
      exact swapL_length p _ _ 0

theorem selectM_mem (pop : List (List Int)) (hne : pop ≠ []) (k : Nat) :
    selectM pop k ∈ pop := by
  unfold selectM
  have hlen : 0 < pop.length := List.length_pos.mpr hne
  have hk : k % pop.length < pop.length := Nat.mod_lt k hlen
  rw [List.getD_eq_getElem _ _ hk]
  exact pop.getElem_mem hk

theorem mkChild_ne (pop : List (List Int)) (hne : pop ≠ [])
    (hmem : ∀ p ∈ pop, p ≠ []) (dr : ChildDraw) : mkChild pop dr ≠ [] := by
  have hp1 := selectM_mem pop hne dr.sel1
  have hp1pos : 0 < (selectM pop dr.sel1).length := List.length_pos.mpr (hmem _ hp1)
  have hbase : 0 < (if dr.cross then
      crossover (selectM pop dr.sel1) (selectM pop dr.sel2) dr.cutA dr.cutB
    else selectM pop dr.sel1).length := by
    by_cases hc : dr.cross
    · rw [if_pos hc, crossover_length]
      exact hp1pos
    · rw [if_neg hc]
      exact hp1pos
  have hchild : 0 < (mkChild pop dr).length := by
    unfold mkChild
    simp only
    by_cases hm : dr.doMut
    · rw [if_pos hm, mutate_length]
      exact hbase
    · rw [if_neg hm]
      exact hbase
  exact List.ne_nil_of_length_pos hchild

theorem gaGeneration_pop (m : List (List Int)) (pop : List (List Int))
    (best0 : List Int) (draws : Nat → ChildDraw) (hne : pop ≠ [])
    (hmem : ∀ p ∈ pop, p ≠ []) :
    (gaGeneration m pop best0 draws).2 ≠ [] ∧
      (∀ p ∈ (gaGeneration m pop best0 draws).2, p ≠ []) ∧
      ∀ q ∈ gaElites m pop, q ∈ (gaGeneration m pop best0 draws).2 := by
  have h2 : (gaGeneration m pop best0 draws).2 =
      gaElites m pop ++
        (List.range (100 - (gaElites m pop).length)).map
          (fun k => mkChild pop (draws k)) := rfl
  have hel5 : (gaElites m pop).length ≤ 5 := by
    unfold gaElites
    rw [List.length_take]
    omega
  refine ⟨?_, ?_, ?_⟩
  · intro hcon
    rw [h2] at hcon
    have hlen := congrArg List.length hcon
    rw [List.length_append, List.length_map, List.length_range] at hlen
    simp only [List.length_nil] at hlen
    omega
  · intro p hp
    rw [h2] at hp
    rcases List.mem_append.mp hp with hp | hp
    · exact hmem p (gaElites_subset m pop p hp)
    · obtain ⟨k, _, hk⟩ := List.mem_map.mp hp
      rw [← hk]
      exact mkChild_ne pop hne hmem _
  · intro q hq
    rw [h2]
    exact List.mem_append_left _ hq

theorem gaScan_mono (m : List (List Int)) (pop : List (List Int))
    (best0 best1 : List Int) (draws : Nat → ChildDraw) :
    (gaScan m (gaGeneration m pop best0 draws).2 best1).1 ≤ (gaScan m pop best0).1 := by
  have hscan : gaScan m pop best0 = pop.foldl (gaStep m) (INTMAX, best0) := rfl
  have hnew : gaScan m (gaGeneration m pop best0 draws).2 best1 =
      ((gaGeneration m pop best0 draws).2).foldl (gaStep m) (INTMAX, best1) := rfl
  rcases gaFold_result m pop (INTMAX, best0) with hout | ⟨hm2, hval, hvne, _⟩
  · have h1 : (gaScan m pop best0).1 = INTMAX := by rw [hscan, hout]
    rw [h1, hnew]
    exact (gaFold_min m _ (INTMAX, best1)).1
  · obtain ⟨q, hq, hqne, hqmin⟩ := gaElites_min m pop ⟨_, hm2, hvne⟩
    have hqNP : q ∈ (gaGeneration m pop best0 draws).2 := by
      have h2 : (gaGeneration m pop best0 draws).2 =
          gaElites m pop ++
            (List.range (100 - (gaElites m pop).length)).map
              (fun k => mkChild pop (draws k)) := rfl
      rw [h2]
      exact List.mem_append_left _ hq
    rw [hnew]
    calc ((gaGeneration m pop best0 draws).2.foldl (gaStep m) (INTMAX, best1)).1
        ≤ gaDist m q := (gaFold_min m _ (INTMAX, best1)).2 q hqNP hqne
      _ ≤ gaDist m (pop.foldl (gaStep m) (INTMAX, best0)).2 := hqmin _ hm2 hvne
      _ = (pop.foldl (gaStep m) (INTMAX, best0)).1 := hval
      _ = (gaScan m pop best0).1 := by rw [hscan]

theorem gaRun_sc_self (m : List (List Int)) :
    ∀ (gens : List (Nat → ChildDraw)) (pop : List (List Int)) (best : List Int),
      (gaRun m gens pop best).2.2 ≠ [] → pop ∈ (gaRun m gens pop best).2.2
  | [], _, _ => fun h => absurd rfl h
  | g :: rest, pop, best => fun _ => by
    have h : (gaRun m (g :: rest) pop best).2.2 =
        pop :: (gaRun m rest (gaGeneration m pop best g).2
          (gaGeneration m pop best g).1.2).2.2 := rfl
    rw [h]
    exact List.mem_cons_self _ _

theorem gaRun_tr_head (m : List (List Int)) :
    ∀ (gens : List (Nat → ChildDraw)) (pop : List (List Int)) (best : List Int),
      (gaRun m gens pop best).2.1 ≠ [] →
        (gaRun m gens pop best).2.1.getD 0 0 = (gaScan m pop best).1
  | [], _, _ => fun h => absurd rfl h
  | _ :: _, _, _ => fun _ => rfl

/-- Master invariant of the generation loop: populations stay nonempty with
nonempty members, the `bestDistanceInGeneration` trace never increases
(elitism carries each generation's best valid member forward), and the final
tracked `bestPath` is either the untouched initial value (when no scanned
individual was ever valid) or a valid individual from a scanned generation of
minimum `gaDist` over all scanned individuals. -/
theorem gaRun_spec (m : List (List Int)) :
    ∀ (gens : List (Nat → ChildDraw)) (pop : List (List Int)) (best : List Int)
      (bf : List Int) (tr : List Int) (sc : List (List (List Int))),
      gaRun m gens pop best = (bf, tr, sc) →
      pop ≠ [] → (∀ p ∈ pop, p ≠ []) →
      (best = [] ∨ (gaDist m best ≠ -1 ∧
        ∃ w ∈ pop, gaDist m w ≠ -1 ∧ gaDist m w ≤ gaDist m best)) →
      (∀ q ∈ sc, ∀ p ∈ q, gaDist m p ≠ -1 → gaDist m p < INTMAX) →
      (∀ q ∈ sc, ∀ p ∈ q, p ≠ []) ∧
      (∀ i, i + 1 < tr.length → tr.getD (i + 1) 0 ≤ tr.getD i 0) ∧
      ((bf = best ∧ ∀ q ∈ sc, ∀ p ∈ q, gaDist m p = -1) ∨
        (gaDist m bf ≠ -1 ∧ (∃ q ∈ sc, bf ∈ q) ∧
          ∀ q ∈ sc, ∀ p ∈ q, gaDist m p ≠ -1 → gaDist m bf ≤ gaDist m p)) := by
  intro gens
  induction gens with
  | nil =>
    intro pop best bf tr sc heq _ _ _ _
    have h' : ((best, [], []) : List Int × List Int × List (List (List Int))) =
        (bf, tr, sc) := heq
    injection h' with h1 h23
    injection h23 with h2 h3
    subst h1; subst h2; subst h3
    refine ⟨?_, ?_, Or.inl ⟨rfl, ?_⟩⟩
    · intro q hq
      exact absurd hq (List.not_mem_nil q)
    · intro i hi
      simp at hi
    · intro q hq
      exact absurd hq (List.not_mem_nil q)
  | cons g rest ih =>
    intro pop best bf tr sc heq hne hmem Hbest hB
    have h' : ((gaRun m rest (gaGeneration m pop best g).2
          (gaGeneration m pop best g).1.2).1,
        (gaGeneration m pop best g).1.1 ::
          (gaRun m rest (gaGeneration m pop best g).2
            (gaGeneration m pop best g).1.2).2.1,
        pop :: (gaRun m rest (gaGeneration m pop best g).2
          (gaGeneration m pop best g).1.2).2.2) = (bf, tr, sc) := heq
    injection h' with h1 h23
    injection h23 with h2 h3
    subst h1; subst h2; subst h3
    obtain ⟨hNPne, hNPmem, hElSub⟩ := gaGeneration_pop m pop best g hne hmem
    have hscan : gaScan m pop best = pop.foldl (gaStep m) (INTMAX, best) := rfl
    have hg12 : (gaGeneration m pop best g).1.2 = (gaScan m pop best).2 := rfl
    have Hnew : (gaGeneration m pop best g).1.2 = [] ∨
        (gaDist m (gaGeneration m pop best g).1.2 ≠ -1 ∧
          ∃ w ∈ (gaGeneration m pop best g).2, gaDist m w ≠ -1 ∧
            gaDist m w ≤ gaDist m (gaGeneration m pop best g).1.2) := by
      rcases gaFold_result m pop (INTMAX, best) with hout | ⟨hm2, hval, hvne, _⟩
      · have hs2 : (gaGeneration m pop best g).1.2 = best := by
          rw [hg12, hscan, hout]
        rcases Hbest with hb | ⟨hbd, w, hw, hwd, hwle⟩
        · left
          rw [hs2, hb]
        · right
          obtain ⟨q, hq, hqne, hqmin⟩ := gaElites_min m pop ⟨w, hw, hwd⟩
          refine ⟨by rw [hs2]; exact hbd, q, hElSub q hq, hqne, ?_⟩
          rw [hs2]
          exact le_trans (hqmin w hw hwd) hwle
      · right
        have hm2' : (gaGeneration m pop best g).1.2 ∈ pop := hm2
        have hvne' : gaDist m (gaGeneration m pop best g).1.2 ≠ -1 := hvne
        obtain ⟨q, hq, hqne, hqmin⟩ := gaElites_min m pop ⟨_, hm2', hvne'⟩
        exact ⟨hvne', q, hElSub q hq, hqne, hqmin _ hm2' hvne'⟩
    have hBpop : ∀ p ∈ pop, gaDist m p ≠ -1 → gaDist m p < INTMAX :=
      hB pop (List.mem_cons_self _ _)
    have hBtail : ∀ q ∈ (gaRun m rest (gaGeneration m pop best g).2
        (gaGeneration m pop best g).1.2).2.2,
        ∀ p ∈ q, gaDist m p ≠ -1 → gaDist m p < INTMAX :=
      fun q hq => hB q (List.mem_cons_of_mem _ hq)
    obtain ⟨hScMem2, hMono2, hChar2⟩ :=
      ih (gaGeneration m pop best g).2 (gaGeneration m pop best g).1.2
        (gaRun m rest (gaGeneration m pop best g).2
          (gaGeneration m pop best g).1.2).1
        (gaRun m rest (gaGeneration m pop best g).2
          (gaGeneration m pop best g).1.2).2.1
        (gaRun m rest (gaGeneration m pop best g).2
          (gaGeneration m pop best g).1.2).2.2
        rfl hNPne hNPmem Hnew hBtail
    refine ⟨?_, ?_, ?_⟩
    · intro q hq
      rcases List.mem_cons.mp hq with hq | hq
      · rw [hq]
        exact hmem
      · exact hScMem2 q hq
    · intro i hi
      rcases i with _ | i2
      · rw [List.length_cons] at hi
        have htne : (gaRun m rest (gaGeneration m pop best g).2
            (gaGeneration m pop best g).1.2).2.1 ≠ [] := by
          apply List.ne_nil_of_length_pos
          omega
        have e1 : ((gaGeneration m pop best g).1.1 ::
            (gaRun m rest (gaGeneration m pop best g).2
              (gaGeneration m pop best g).1.2).2.1).getD (0 + 1) 0 =
            (gaRun m rest (gaGeneration m pop best g).2
              (gaGeneration m pop best g).1.2).2.1.getD 0 0 := rfl
        have e0 : ((gaGeneration m pop best g).1.1 ::
            (gaRun m rest (gaGeneration m pop best g).2
              (gaGeneration m pop best g).1.2).2.1).getD 0 0 =
            (gaScan m pop best).1 := rfl
        rw [e1, e0, gaRun_tr_head m rest _ _ htne]
        exact gaScan_mono m pop best _ g
      · have e1 : ((gaGeneration m pop best g).1.1 ::
            (gaRun m rest (gaGeneration m pop best g).2
              (gaGeneration m pop best g).1.2).2.1).getD (i2 + 1 + 1) 0 =
            (gaRun m rest (gaGeneration m pop best g).2
              (gaGeneration m pop best g).1.2).2.1.getD (i2 + 1) 0 := rfl
        have e2 : ((gaGeneration m pop best g).1.1 ::
            (gaRun m rest (gaGeneration m pop best g).2
              (gaGeneration m pop best g).1.2).2.1).getD (i2 + 1) 0 =
            (gaRun m rest (gaGeneration m pop best g).2
              (gaGeneration m pop best g).1.2).2.1.getD i2 0 := rfl
        rw [e1, e2]
        apply hMono2
        rw [List.length_cons] at hi
        omega
    · rcases hChar2 with ⟨hbf, hallinv⟩ | ⟨hbfne, ⟨qx, hqx, hbfin⟩, hbound⟩
      · rcases gaFold_result m pop (INTMAX, best) with hout | ⟨hm2, hval, hvne, _⟩
        · have hs2 : (gaGeneration m pop best g).1.2 = best := by
            rw [hg12, hscan, hout]
          have hpopinv : ∀ p ∈ pop, gaDist m p = -1 := by
            intro p hp
            by_contra hpne
            have himp := gaFold_improves m pop (INTMAX, best)
              ⟨p, hp, hpne, hBpop p hp hpne⟩
            rw [hout] at himp
            exact absurd himp (lt_irrefl _)
          rcases Hbest with hb | ⟨_, w, hw, hwd, _⟩
          · left
            refine ⟨by rw [hbf, hs2, hb], ?_⟩
            intro q hq p hp
            rcases List.mem_cons.mp hq with hq | hq
            · rw [hq] at hp
              exact hpopinv p hp
            · exact hallinv q hq p hp
          · exact absurd (hpopinv w hw) hwd
        · right
          have hB1pop : (gaGeneration m pop best g).1.2 ∈ pop := hm2
          have hB1ne : gaDist m (gaGeneration m pop best g).1.2 ≠ -1 := hvne
          refine ⟨by rw [hbf]; exact hB1ne,
            ⟨pop, List.mem_cons_self _ _, by rw [hbf]; exact hB1pop⟩, ?_⟩
          intro q hq p hp hpne
          rcases List.mem_cons.mp hq with hq | hq
          · rw [hq] at hp
            have hle : (pop.foldl (gaStep m) (INTMAX, best)).1 ≤ gaDist m p :=
              (gaFold_min m pop (INTMAX, best)).2 p hp hpne
            calc gaDist m (gaRun m rest (gaGeneration m pop best g).2
                  (gaGeneration m pop best g).1.2).1
                = gaDist m (gaGeneration m pop best g).1.2 := by rw [hbf]
              _ = (pop.foldl (gaStep m) (INTMAX, best)).1 := hval
              _ ≤ gaDist m p := hle
          · exact absurd (hallinv q hq p hp) hpne
      · right
        refine ⟨hbfne, ⟨qx, List.mem_cons_of_mem _ hqx, hbfin⟩, ?_⟩
        intro q hq p hp hpne
        rcases List.mem_cons.mp hq with hq | hq
        · rw [hq] at hp
          obtain ⟨qe, hqe, hqene, hqemin⟩ := gaElites_min m pop ⟨p, hp, hpne⟩
          have hqeNP : qe ∈ (gaGeneration m pop best g).2 := hElSub qe hqe
          have hscne : (gaRun m rest (gaGeneration m pop best g).2
              (gaGeneration m pop best g).1.2).2.2 ≠ [] := by
            intro hcon
            rw [hcon] at hqx
            exact absurd hqx (List.not_mem_nil _)
          have hNPin : (gaGeneration m pop best g).2 ∈
              (gaRun m rest (gaGeneration m pop best g).2
                (gaGeneration m pop best g).1.2).2.2 :=
            gaRun_sc_self m rest _ _ hscne
          calc gaDist m (gaRun m rest (gaGeneration m pop best g).2
                (gaGeneration m pop best g).1.2).1
              ≤ gaDist m qe := hbound _ hNPin qe hqeNP hqene
            _ ≤ gaDist m p := hqemin p hp hpne
        · exact hbound q hq p hp hpne

theorem gaDist_eq_valid (n : Nat) (m : List (List Int)) (hmat : MatOK n m)
    (p : List Int) :
    (is_valid_path p m = true → gaDist m p = pathCost m p ∧ gaDist m p ≠ -1) ∧
    (gaDist m p ≠ -1 → is_valid_path p m = true ∧ gaDist m p = pathCost m p) := by
  constructor
  · intro h
    have h1 : gaDist m p = pathCost m p := by rw [gaDist, if_pos h]
    refine ⟨h1, ?_⟩
    rw [h1]
    have := pathCost_nonneg n m hmat p h
    omega
  · intro h
    by_cases hv : is_valid_path p m = true
    · exact ⟨hv, by rw [gaDist, if_pos hv]⟩
    · rw [gaDist, if_neg hv] at h
      exact absurd rfl h

/-- C2: across the generations of one `geneticAlgorithm(start, end)` run the
tracked `bestDistanceInGeneration` trace is non-increasing from one generation
to the next, and — whenever any generation scanned a valid individual — the
returned `(path, distance)` pair is a valid individual from one of the scanned
generations whose distance is minimal over all valid individuals of all
scanned generations (not merely of the final population).  `hB` rules out the
`int` overflow case in which every valid scanned distance reaches `INT_MAX`
and the scan's strict-improvement test cannot fire. -/
theorem claim_C2_best_tracking (g : WGraph) (start e : Int)
    (shuffle : Nat → List Int → List Int) (gens : List (Nat → ChildDraw))
    (hwf : g.WellFormed)
    (h0 : 0 ≤ start) (h1 : start < (g.m_vertices : Int))
    (h2 : 0 ≤ e) (h3 : e < (g.m_vertices : Int))
    (hB : ∀ q ∈ (gaRun g.m_adjMatrix gens
        (initialize_population start e g.m_vertices 100 shuffle) []).2.2,
      ∀ p ∈ q, is_valid_path p g.m_adjMatrix = true →
        pathCost g.m_adjMatrix p < INTMAX) :
    (∀ i, i + 1 < (gaRun g.m_adjMatrix gens
        (initialize_population start e g.m_vertices 100 shuffle) []).2.1.length →
      (gaRun g.m_adjMatrix gens
        (initialize_population start e g.m_vertices 100 shuffle) []).2.1.getD (i + 1) 0 ≤
      (gaRun g.m_adjMatrix gens
        (initialize_population start e g.m_vertices 100 shuffle) []).2.1.getD i 0) ∧
    ∀ p0 q0, q0 ∈ (gaRun g.m_adjMatrix gens
        (initialize_population start e g.m_vertices 100 shuffle) []).2.2 →
      p0 ∈ q0 → is_valid_path p0 g.m_adjMatrix = true →
      is_valid_path (g.geneticAlgorithm start e shuffle gens).1 g.m_adjMatrix = true ∧
      (∃ q ∈ (gaRun g.m_adjMatrix gens
        (initialize_population start e g.m_vertices 100 shuffle) []).2.2,
        (g.geneticAlgorithm start e shuffle gens).1 ∈ q) ∧
      (g.geneticAlgorithm start e shuffle gens).2 =
        pathCost g.m_adjMatrix (g.geneticAlgorithm start e shuffle gens).1 ∧
      (g.geneticAlgorithm start e shuffle gens).2 ≤ pathCost g.m_adjMatrix p0 := by
  have hmat := wellFormed_matOK g hwf
  have hp0len : (initialize_population start e g.m_vertices 100 shuffle).length = 100 := by
    simp [initialize_population]
  have hp0ne : initialize_population start e g.m_vertices 100 shuffle ≠ [] := by
    apply List.ne_nil_of_length_pos
    rw [hp0len]
    omega
  have hp0mem : ∀ p ∈ initialize_population start e g.m_vertices 100 shuffle, p ≠ [] := by
    intro p hp
    have he : initialize_population start e g.m_vertices 100 shuffle =
        (List.range 100).map (fun k => start ::
          (shuffle k (((List.range g.m_vertices).map
            (fun i : Nat => (i : Int))).filter
            (fun i => i ≠ start ∧ i ≠ e)) ++ [e])) := rfl
    rw [he] at hp
    obtain ⟨k, _, hk⟩ := List.mem_map.mp hp
    rw [← hk]
    exact List.cons_ne_nil _ _
  have hBd : ∀ q ∈ (gaRun g.m_adjMatrix gens
      (initialize_population start e g.m_vertices 100 shuffle) []).2.2,
      ∀ p ∈ q, gaDist g.m_adjMatrix p ≠ -1 → gaDist g.m_adjMatrix p < INTMAX := by
    intro q hq p hp hpne
    obtain ⟨hv, heqd⟩ := (gaDist_eq_valid g.m_vertices _ hmat p).2 hpne
    rw [heqd]
    exact hB q hq p hp hv
  obtain ⟨hScMem, hMono, hChar⟩ :=
    gaRun_spec g.m_adjMatrix gens
      (initialize_population start e g.m_vertices 100 shuffle) []
      (gaRun g.m_adjMatrix gens
        (initialize_population start e g.m_vertices 100 shuffle) []).1
      (gaRun g.m_adjMatrix gens
        (initialize_population start e g.m_vertices 100 shuffle) []).2.1
      (gaRun g.m_adjMatrix gens
        (initialize_population start e g.m_vertices 100 shuffle) []).2.2
      rfl hp0ne hp0mem (Or.inl rfl) hBd
  refine ⟨hMono, ?_⟩
  intro p0 q0 hq0 hp0 hp0v
  have hp0dne : gaDist g.m_adjMatrix p0 ≠ -1 :=
    ((gaDist_eq_valid g.m_vertices _ hmat p0).1 hp0v).2
  rcases hChar with ⟨_, hallinv⟩ | ⟨hbfne, hex, hbound⟩
  · exact absurd (hallinv q0 hq0 p0 hp0) hp0dne
  · obtain ⟨hbfv, hbfd⟩ := (gaDist_eq_valid g.m_vertices _ hmat _).2 hbfne
    obtain ⟨qb, hqb, hbfin⟩ := hex
    have hbfnotnil : (gaRun g.m_adjMatrix gens
        (initialize_population start e g.m_vertices 100 shuffle) []).1 ≠ [] :=
      hScMem qb hqb _ hbfin
    have hga : g.geneticAlgorithm start e shuffle gens =
        ((gaRun g.m_adjMatrix gens
            (initialize_population start e g.m_vertices 100 shuffle) []).1,
          pathCost g.m_adjMatrix (gaRun g.m_adjMatrix gens
            (initialize_population start e g.m_vertices 100 shuffle) []).1) := by
      unfold WGraph.geneticAlgorithm
      rw [if_pos ⟨h0, h1, h2, h3⟩]
      show (if (gaRun g.m_adjMatrix gens
          (initialize_population start e g.m_vertices 100 shuffle) []).1 = [] then
          (([] : List Int), (-1 : Int))
        else ((gaRun g.m_adjMatrix gens
            (initialize_population start e g.m_vertices 100 shuffle) []).1,
          pathCost g.m_adjMatrix (gaRun g.m_adjMatrix gens
            (initialize_population start e g.m_vertices 100 shuffle) []).1)) = _
      rw [if_neg hbfnotnil]
    rw [hga]
    refine ⟨hbfv, ⟨qb, hqb, hbfin⟩, rfl, ?_⟩
    have hle := hbound q0 hq0 p0 hp0 hp0dne
    rw [hbfd, ((gaDist_eq_valid g.m_vertices _ hmat p0).1 hp0v).1] at hle
    exact hle

theorem claim_C2_witness :
    (applyEdges (mkGraph 2) [(0, 1, 3)]).WellFormed ∧
    (0 : Int) ≤ 0 ∧
    (0 : Int) < ((applyEdges (mkGraph 2) [(0, 1, 3)]).m_vertices : Int) ∧
    (0 : Int) ≤ 1 ∧
    (1 : Int) < ((applyEdges (mkGraph 2) [(0, 1, 3)]).m_vertices : Int) ∧
    (∀ q ∈ (gaRun (applyEdges (mkGraph 2) [(0, 1, 3)]).m_adjMatrix
        [fun _ => (⟨0, 0, false, 0, 0, false, 0, 0⟩ : ChildDraw)]
        (initialize_population 0 1 (applyEdges (mkGraph 2) [(0, 1, 3)]).m_vertices 100
          (fun _ l => l)) []).2.2,
      ∀ p ∈ q, is_valid_path p (applyEdges (mkGraph 2) [(0, 1, 3)]).m_adjMatrix = true →
        pathCost (applyEdges (mkGraph 2) [(0, 1, 3)]).m_adjMatrix p < INTMAX) ∧
    ((∀ i, i + 1 < (gaRun (applyEdges (mkGraph 2) [(0, 1, 3)]).m_adjMatrix
          [fun _ => (⟨0, 0, false, 0, 0, false, 0, 0⟩ : ChildDraw)]
          (initialize_population 0 1 (applyEdges (mkGraph 2) [(0, 1, 3)]).m_vertices 100
            (fun _ l => l)) []).2.1.length →
        (gaRun (applyEdges (mkGraph 2) [(0, 1, 3)]).m_adjMatrix
          [fun _ => (⟨0, 0, false, 0, 0, false, 0, 0⟩ : ChildDraw)]
          (initialize_population 0 1 (applyEdges (mkGraph 2) [(0, 1, 3)]).m_vertices 100
            (fun _ l => l)) []).2.1.getD (i + 1) 0 ≤
        (gaRun (applyEdges (mkGraph 2) [(0, 1, 3)]).m_adjMatrix
          [fun _ => (⟨0, 0, false, 0, 0, false, 0, 0⟩ : ChildDraw)]
          (initialize_population 0 1 (applyEdges (mkGraph 2) [(0, 1, 3)]).m_vertices 100
            (fun _ l => l)) []).2.1.getD i 0) ∧
      ∀ p0 q0, q0 ∈ (gaRun (applyEdges (mkGraph 2) [(0, 1, 3)]).m_adjMatrix
          [fun _ => (⟨0, 0, false, 0, 0, false, 0, 0⟩ : ChildDraw)]
          (initialize_population 0 1 (applyEdges (mkGraph 2) [(0, 1, 3)]).m_vertices 100
            (fun _ l => l)) []).2.2 →
        p0 ∈ q0 →
        is_valid_path p0 (applyEdges (mkGraph 2) [(0, 1, 3)]).m_adjMatrix = true →
        is_valid_path ((applyEdges (mkGraph 2) [(0, 1, 3)]).geneticAlgorithm 0 1
            (fun _ l => l)
            [fun _ => (⟨0, 0, false, 0, 0, false, 0, 0⟩ : ChildDraw)]).1
          (applyEdges (mkGraph 2) [(0, 1, 3)]).m_adjMatrix = true ∧
        (∃ q ∈ (gaRun (applyEdges (mkGraph 2) [(0, 1, 3)]).m_adjMatrix
            [fun _ => (⟨0, 0, false, 0, 0, false, 0, 0⟩ : ChildDraw)]
            (initialize_population 0 1 (applyEdges (mkGraph 2) [(0, 1, 3)]).m_vertices 100
              (fun _ l => l)) []).2.2,
          ((applyEdges (mkGraph 2) [(0, 1, 3)]).geneticAlgorithm 0 1 (fun _ l => l)
            [fun _ => (⟨0, 0, false, 0, 0, false, 0, 0⟩ : ChildDraw)]).1 ∈ q) ∧
        ((applyEdges (mkGraph 2) [(0, 1, 3)]).geneticAlgorithm 0 1 (fun _ l => l)
            [fun _ => (⟨0, 0, false, 0, 0, false, 0, 0⟩ : ChildDraw)]).2 =
          pathCost (applyEdges (mkGraph 2) [(0, 1, 3)]).m_adjMatrix
            ((applyEdges (mkGraph 2) [(0, 1, 3)]).geneticAlgorithm 0 1 (fun _ l => l)
              [fun _ => (⟨0, 0, false, 0, 0, false, 0, 0⟩ : ChildDraw)]).1 ∧
        ((applyEdges (mkGraph 2) [(0, 1, 3)]).geneticAlgorithm 0 1 (fun _ l => l)
            [fun _ => (⟨0, 0, false, 0, 0, false, 0, 0⟩ : ChildDraw)]).2 ≤
          pathCost (applyEdges (mkGraph 2) [(0, 1, 3)]).m_adjMatrix p0) :=
  ⟨applyEdges_wellFormed [(0, 1, 3)] (mkGraph 2) (wellFormed_mk 2),
    by decide, by decide, by decide, by decide, by decide,
    claim_C2_best_tracking (applyEdges (mkGraph 2) [(0, 1, 3)]) 0 1 (fun _ l => l)
      [fun _ => (⟨0, 0, false, 0, 0, false, 0, 0⟩ : ChildDraw)]
      (applyEdges_wellFormed [(0, 1, 3)] (mkGraph 2) (wellFormed_mk 2))
      (by decide) (by decide) (by decide) (by decide) (by decide)⟩

theorem head?_eq_getD (l : List Int) (h : l ≠ []) : l.head? = some (l.getD 0 0) := by
  cases l with
  | nil => exact absurd rfl h
  | cons a t => rfl

theorem getLast?_eq_getD (l : List Int) (h : l ≠ []) :
    l.getLast? = some (l.getD (l.length - 1) 0) := by
  have hlen : 0 < l.length := List.length_pos.mpr h
  rw [List.getLast?_eq_getElem?, List.getD_eq_getElem l 0 (by omega),
    List.getElem?_eq_getElem (by omega)]

theorem nextFreeAux_spec (child : List Int) :
    ∀ (fuel i : Nat),
      i ≤ nextFreeAux child fuel i ∧
      (∀ k, i ≤ k → k < nextFreeAux child fuel i → child.getD k 0 ≠ -1) ∧
      (child.length ≤ i + fuel → nextFreeAux child fuel i < child.length →
        child.getD (nextFreeAux child fuel i) 0 = -1) := by
  intro fuel
  induction fuel with
  | zero =>
    intro i
    refine ⟨le_refl _, ?_, ?_⟩
    · intro k hk1 hk2
      have : nextFreeAux child 0 i = i := rfl
      rw [this] at hk2
      omega
    · intro hle hlt
      have : nextFreeAux child 0 i = i := rfl
      rw [this] at hlt
      omega
  | succ fuel ih =>
    intro i
    by_cases hc : i < child.length ∧ child.getD i 0 ≠ -1
    · have he : nextFreeAux child (fuel + 1) i = nextFreeAux child fuel (i + 1) := by
        show (if i < child.length ∧ child.getD i 0 ≠ -1 then
          nextFreeAux child fuel (i + 1) else i) = _
        rw [if_pos hc]
      obtain ⟨ih1, ih2, ih3⟩ := ih (i + 1)
      rw [he]
      refine ⟨by omega, ?_, ?_⟩
      · intro k hk1 hk2
        rcases Nat.lt_or_ge k (i + 1) with hk | hk
        · have : k = i := by omega
          rw [this]
          exact hc.2
        · exact ih2 k hk hk2
      · intro hle hlt
        exact ih3 (by omega) hlt
    · have he : nextFreeAux child (fuel + 1) i = i := by
        show (if i < child.length ∧ child.getD i 0 ≠ -1 then
          nextFreeAux child fuel (i + 1) else i) = _
        rw [if_neg hc]
      rw [he]
      refine ⟨le_refl _, ?_, ?_⟩
      · intro k hk1 hk2
        omega
      · intro _ hlt
        rcases not_and_or.mp hc with h | h
        · exact absurd hlt h
        · exact not_not.mp h

theorem nextFree_spec (child : List Int) (ip : Nat) :
    ip ≤ nextFree child ip ∧
    (∀ k, ip ≤ k → k < nextFree child ip → child.getD k 0 ≠ -1) ∧
    (nextFree child ip < child.length → child.getD (nextFree child ip) 0 = -1) := by
  have h := nextFreeAux_spec child child.length ip
  exact ⟨h.1, h.2.1, fun hlt => h.2.2 (by omega) hlt⟩

theorem fillLoop_preserve : ∀ (l child : List Int) (ip k : Nat),
    child.getD k 0 ≠ -1 → (fillLoop child ip l).getD k 0 = child.getD k 0
  | [], _, _, _ => fun _ => rfl
  | e :: rest, child, ip, k => fun hocc => by
    have heq : fillLoop child ip (e :: rest) =
        if e ∈ child then fillLoop child ip rest
        else if nextFree child ip < child.length then
          fillLoop (child.set (nextFree child ip) e) (nextFree child ip) rest
        else fillLoop child (nextFree child ip) rest := rfl
    rw [heq]
    by_cases hmem : e ∈ child
    · rw [if_pos hmem]
      exact fillLoop_preserve rest child ip k hocc
    · rw [if_neg hmem]
      by_cases hlt : nextFree child ip < child.length
      · rw [if_pos hlt]
        have hfree := (nextFree_spec child ip).2.2 hlt
        have hne : nextFree child ip ≠ k := by
          intro hcon
          rw [hcon] at hfree
          exact hocc hfree
        have hset : (child.set (nextFree child ip) e).getD k 0 = child.getD k 0 := by
          rw [getD_set]
          rw [if_neg (by tauto)]
        rw [fillLoop_preserve rest _ _ k (by rw [hset]; exact hocc), hset]
      · rw [if_neg hlt]
        exact fillLoop_preserve rest child _ k hocc

theorem set_perm : ∀ (l : List Int) (s : Nat), s < l.length → ∀ e : Int,
    List.Perm ((l.getD s 0) :: l.set s e) (e :: l)
  | [], s, hs, e => by simp at hs
  | y :: ys, 0, _, e => by
    show List.Perm (y :: e :: ys) (e :: y :: ys)
    exact List.Perm.swap e y ys
  | y :: ys, s + 1, hs, e => by
    show List.Perm (ys.getD s 0 :: y :: ys.set s e) (e :: y :: ys)
    have ih := set_perm ys s (by simpa using hs) e
    exact (List.Perm.swap y (ys.getD s 0) (ys.set s e)).trans
      ((List.Perm.cons y ih).trans (List.Perm.swap e y ys))

theorem mem_set_iff : ∀ (l : List Int) (s : Nat), s < l.length → l.getD s 0 = -1 →
    ∀ e x : Int, x ≠ -1 → (x ∈ l.set s e ↔ (x ∈ l ∨ x = e))
  | [], s, hs, _, _, _, _ => by simp at hs
  | y :: ys, 0, _, hfree, e, x, hx => by
    have hy : y = -1 := hfree
    show x ∈ e :: ys ↔ _
    rw [List.mem_cons, List.mem_cons]
    constructor
    · rintro (h | h)
      · exact Or.inr h
      · exact Or.inl (Or.inr h)
    · rintro ((h | h) | h)
      · exact absurd (h.trans hy) hx
      · exact Or.inr h
      · exact Or.inl h
  | y :: ys, s + 1, hs, hfree, e, x, hx => by
    show x ∈ y :: ys.set s e ↔ _
    rw [List.mem_cons, List.mem_cons,
      mem_set_iff ys s (by simpa using hs) hfree e x hx]
    tauto

theorem filter_neg_one_unique : ∀ (l : List Int),
    (l.filter (fun x => decide (x = -1))).length ≤ 1 →
    ∀ k1 k2, k1 < l.length → k2 < l.length →
      l.getD k1 0 = -1 → l.getD k2 0 = -1 → k1 = k2 := by
  intro l
  induction l with
  | nil =>
    intro _ k1 k2 h1 h2 _ _
    simp at h1
  | cons x xs ih =>
    intro hle k1 k2 h1 h2 e1 e2
    have hmemlen : ∀ j, j < xs.length → xs.getD j 0 = -1 →
        1 ≤ (xs.filter (fun v => decide (v = -1))).length := by
      intro j hj ej
      have hmem : (-1 : Int) ∈ xs := by
        rw [List.getD_eq_getElem xs 0 hj] at ej
        rw [← ej]
        exact xs.getElem_mem hj
      have : (-1 : Int) ∈ xs.filter (fun v => decide (v = -1)) :=
        List.mem_filter.mpr ⟨hmem, by decide⟩
      have := List.length_pos.mpr (List.ne_nil_of_mem this)
      omega
    cases k1 with
    | zero =>
      cases k2 with
      | zero => rfl
      | succ j =>
        exfalso
        have hx : x = -1 := e1
        have hflt : ((x :: xs).filter (fun v => decide (v = -1))).length =
            (xs.filter (fun v => decide (v = -1))).length + 1 := by
          rw [List.filter_cons, if_pos (by rw [hx]; decide)]
          rfl
        have := hmemlen j (by simpa using h2) e2
        omega
    | succ i =>
      cases k2 with
      | zero =>
        exfalso
        have hx : x = -1 := e2
        have hflt : ((x :: xs).filter (fun v => decide (v = -1))).length =
            (xs.filter (fun v => decide (v = -1))).length + 1 := by
          rw [List.filter_cons, if_pos (by rw [hx]; decide)]
          rfl
        have := hmemlen i (by simpa using h1) e1
        omega
      | succ j =>
        by_cases hx : x = -1
        · exfalso
          have hflt : ((x :: xs).filter (fun v => decide (v = -1))).length =
              (xs.filter (fun v => decide (v = -1))).length + 1 := by
            rw [List.filter_cons, if_pos (by rw [hx]; decide)]
            rfl
          have := hmemlen i (by simpa using h1) e1
          omega
        · have hflt : ((x :: xs).filter (fun v => decide (v = -1))).length =
              (xs.filter (fun v => decide (v = -1))).length := by
            rw [List.filter_cons, if_neg (by simpa using hx)]
          have := ih (by omega) i j (by simpa using h1) (by simpa using h2) e1 e2
          omega

theorem getLast?_cons_of_ne_nil (e : Int) (rest : List Int) (h : rest ≠ []) :
    (e :: rest).getLast? = rest.getLast? := by
  cases rest with
  | nil => exact absurd rfl h
  | cons r0 rs => exact List.getLast?_cons_cons

theorem getLast?_mem : ∀ (l : List Int) (a : Int), l.getLast? = some a → a ∈ l := by
  intro l
  induction l with
  | nil =>
    intro a h
    rw [List.getLast?_nil] at h
    exact Option.noConfusion h
  | cons x xs ih =>
    intro a h
    cases xs with
    | nil =>
      have : a = x := by
        have hx : ([x] : List Int).getLast? = some x := rfl
        rw [hx] at h
        exact (Option.some.inj h).symm
      rw [this]
      exact List.mem_cons_self _ _
    | cons y ys =>
      rw [List.getLast?_cons_cons] at h
      exact List.mem_cons_of_mem _ (ih a h)

theorem cons_add_right (a : Int) (s t : Multiset Int) :
    s + (a ::ₘ t) = a ::ₘ (s + t) := by
  rw [← Multiset.singleton_add, ← Multiset.singleton_add, ← add_assoc,
    add_comm s {a}, add_assoc]

theorem occupied_prefix_filter : ∀ (l : List Int),
    (∀ k, k + 1 < l.length → l.getD k 0 ≠ -1) →
    (l.filter (fun x => decide (x = -1))).length ≤ 1 := by
  intro l
  induction l with
  | nil =>
    intro _
    simp
  | cons x xs ih =>
    intro hocc
    cases xs with
    | nil =>
      rw [List.filter_cons]
      by_cases hx : x = -1
      · rw [if_pos (by rw [hx]; decide)]
        simp
      · rw [if_neg (by simpa using hx)]
        simp
    | cons y ys =>
      have hx : x ≠ -1 := hocc 0 (by simp)
      rw [List.filter_cons, if_neg (by simpa using hx)]
      apply ih
      intro k hk
      have := hocc (k + 1) (by simpa using hk)
      simpa using this

/-- Master invariant of the `crossover` fill loop: slots before the insert
cursor are occupied, the child's multiset plus the still-missing suffix
elements equals the target multiset plus one `-1` per free slot, and the last
slot either already holds the final vertex or stays free until the last
missing element (the final vertex of `parent2`) claims it.  Conclusions: the
filled child is exactly the target multiset, and its last slot holds the
final vertex. -/
theorem fill_master : ∀ (l : List Int), ∀ (child : List Int) (ip : Nat)
    (B : Multiset Int) (endv : Int),
    l.Nodup → (-1 : Int) ∉ l → endv ≠ -1 → 0 < child.length →
    Multiset.card B = child.length →
    (∀ k, k < ip → child.getD k 0 ≠ -1) →
    (child.getD (child.length - 1) 0 = endv ∨
      (child.getD (child.length - 1) 0 = -1 ∧ l.getLast? = some endv ∧
        endv ∉ child)) →
    ((↑child : Multiset Int) +
        (↑(l.filter (fun x => decide (¬ x ∈ child))) : Multiset Int) =
      B + Multiset.replicate
        ((child.filter (fun x => decide (x = -1))).length) (-1)) →
    (↑(fillLoop child ip l) : Multiset Int) = B ∧
      (fillLoop child ip l).getD (child.length - 1) 0 = endv := by
  intro l
  induction l with
  | nil =>
    intro child ip B endv _ _ _ _ hcard _ hL hE
    have hres : fillLoop child ip [] = child := rfl
    rw [hres]
    have hfe : ([] : List Int).filter (fun x => decide (¬ x ∈ child)) = [] := rfl
    rw [hfe, Multiset.coe_nil, add_zero] at hE
    have hcardE := congrArg Multiset.card hE
    rw [Multiset.coe_card, Multiset.card_add, Multiset.card_replicate, hcard]
      at hcardE
    have hfc0 : (child.filter (fun x => decide (x = -1))).length = 0 := by omega
    rw [hfc0, Multiset.replicate_zero, add_zero] at hE
    refine ⟨hE, ?_⟩
    rcases hL with hLl | ⟨_, hlast, _⟩
    · exact hLl
    · rw [List.getLast?_nil] at hlast
      exact Option.noConfusion hlast
  | cons e rest ih =>
    intro child ip B endv hnd hm hend hlen0 hcard hpre hL hE
    have he_ne : e ≠ -1 := by
      intro h
      exact hm (by rw [← h]; exact List.mem_cons_self _ _)
    have hnd2 : rest.Nodup := (List.nodup_cons.mp hnd).2
    have he_nr : e ∉ rest := (List.nodup_cons.mp hnd).1
    have hm2 : (-1 : Int) ∉ rest := fun h => hm (List.mem_cons_of_mem _ h)
    have heq : fillLoop child ip (e :: rest) =
        if e ∈ child then fillLoop child ip rest
        else if nextFree child ip < child.length then
          fillLoop (child.set (nextFree child ip) e) (nextFree child ip) rest
        else fillLoop child (nextFree child ip) rest := rfl
    rw [heq]
    by_cases hmemA : e ∈ child
    · rw [if_pos hmemA]
      have hfe : (e :: rest).filter (fun x => decide (¬ x ∈ child)) =
          rest.filter (fun x => decide (¬ x ∈ child)) := by
        rw [List.filter_cons, if_neg (by simpa using hmemA)]
      rw [hfe] at hE
      have hL2 : child.getD (child.length - 1) 0 = endv ∨
          (child.getD (child.length - 1) 0 = -1 ∧ rest.getLast? = some endv ∧
            endv ∉ child) := by
        rcases hL with hLl | ⟨hLfree, hLlast, hLnotin⟩
        · exact Or.inl hLl
        · right
          have hrne : rest ≠ [] := by
            intro hcon
            rw [hcon] at hLlast
            have : e = endv := by
              have hx : ([e] : List Int).getLast? = some e := rfl
              rw [hx] at hLlast
              exact Option.some.inj hLlast
            rw [← this] at hLnotin
            exact hLnotin hmemA
          rw [getLast?_cons_of_ne_nil e rest hrne] at hLlast
          exact ⟨hLfree, hLlast, hLnotin⟩
      exact ih child ip B endv hnd2 hm2 hend hlen0 hcard hpre hL2 hE
    · rw [if_neg hmemA]
      obtain ⟨hips, hscan, hfreeS⟩ := nextFree_spec child ip
      have hfe : (e :: rest).filter (fun x => decide (¬ x ∈ child)) =
          e :: rest.filter (fun x => decide (¬ x ∈ child)) := by
        rw [List.filter_cons, if_pos (by simpa using hmemA)]
      by_cases hs : nextFree child ip < child.length
      · rw [if_pos hs]
        have hfree : child.getD (nextFree child ip) 0 = -1 := hfreeS hs
        have hsp := set_perm child (nextFree child ip) hs e
        rw [hfree] at hsp
        have hspm := Multiset.coe_eq_coe.mpr hsp
        rw [← Multiset.cons_coe, ← Multiset.cons_coe] at hspm
        have hpf := hsp.filter (fun x => decide (x = -1))
        have hlenf := hpf.length_eq
        have hfl1 : ((-1 : Int) :: child.set (nextFree child ip) e).filter
            (fun x => decide (x = -1)) =
            -1 :: (child.set (nextFree child ip) e).filter
              (fun x => decide (x = -1)) := by
          rw [List.filter_cons, if_pos (by decide)]
        have hfl2 : (e :: child).filter (fun x => decide (x = -1)) =
            child.filter (fun x => decide (x = -1)) := by
          rw [List.filter_cons, if_neg (by simpa using he_ne)]
        rw [hfl1, hfl2, List.length_cons] at hlenf
        have hfr : rest.filter
            (fun x => decide (¬ x ∈ child.set (nextFree child ip) e)) =
            rest.filter (fun x => decide (¬ x ∈ child)) := by
          apply List.filter_congr
          intro x hx
          have hxne : x ≠ -1 := fun h => hm2 (by rw [← h]; exact hx)
          have hxe : x ≠ e := fun h => he_nr (by rw [← h]; exact hx)
          apply decide_eq_decide.mpr
          constructor
          · intro h1 h2
            exact h1 ((mem_set_iff child (nextFree child ip) hs hfree e x
              hxne).mpr (Or.inl h2))
          · intro h1 h2
            rcases (mem_set_iff child (nextFree child ip) hs hfree e x
              hxne).mp h2 with h3 | h3
            · exact h1 h3
            · exact hxe h3
        rw [hfe, ← Multiset.cons_coe, cons_add_right] at hE
        have hEL : e ::ₘ ((↑child : Multiset Int) +
            ↑(rest.filter (fun x => decide (¬ x ∈ child)))) =
            (-1 : Int) ::ₘ ((↑(child.set (nextFree child ip) e) : Multiset Int) +
              ↑(rest.filter (fun x => decide (¬ x ∈ child)))) := by
          rw [← Multiset.cons_add, ← Multiset.cons_add, hspm]
        rw [hEL] at hE
        have hfcsucc : (child.filter (fun x => decide (x = -1))).length =
            ((child.set (nextFree child ip) e).filter
              (fun x => decide (x = -1))).length + 1 := by omega
        rw [hfcsucc, Multiset.replicate_succ, cons_add_right] at hE
        have hE2 := (Multiset.cons_inj_right (-1 : Int)).mp hE
        rw [← hfr] at hE2
        have hlenset : (child.set (nextFree child ip) e).length = child.length :=
          List.length_set child _ _
        have hpre2 : ∀ k, k < nextFree child ip →
            (child.set (nextFree child ip) e).getD k 0 ≠ -1 := by
          intro k hk
          have hne : nextFree child ip ≠ k := by omega
          have hset : (child.set (nextFree child ip) e).getD k 0 =
              child.getD k 0 := by
            rw [getD_set, if_neg (by tauto)]
          rw [hset]
          rcases Nat.lt_or_ge k ip with hk2 | hk2
          · exact hpre k hk2
          · exact hscan k hk2 hk
        -- the count of free slots, for the last-slot bookkeeping
        have hcards := congrArg Multiset.card hE
        rw [Multiset.card_cons, Multiset.card_cons, Multiset.card_add,
          Multiset.card_add, Multiset.coe_card, Multiset.coe_card, hlenset,
          Multiset.card_replicate, hcard] at hcards
        have hL2 : (child.set (nextFree child ip) e).getD
              ((child.set (nextFree child ip) e).length - 1) 0 = endv ∨
            ((child.set (nextFree child ip) e).getD
              ((child.set (nextFree child ip) e).length - 1) 0 = -1 ∧
              rest.getLast? = some endv ∧
              endv ∉ child.set (nextFree child ip) e) := by
          rw [hlenset]
          rcases hL with hLl | ⟨hLfree, hLlast, hLnotin⟩
          · left
            have hne : nextFree child ip ≠ child.length - 1 := by
              intro hcon
              rw [hcon, hLl] at hfree
              exact hend hfree
            rw [getD_set, if_neg (by tauto)]
            exact hLl
          · by_cases hee : e = endv
            · -- the final vertex is being placed: `rest` must be empty and
              -- the unique free slot is the last one
              have hrest_nil : rest = [] := by
                cases hr : rest with
                | nil => rfl
                | cons r0 rs =>
                  exfalso
                  rw [hr] at hLlast
                  rw [getLast?_cons_of_ne_nil e (r0 :: rs)
                    (List.cons_ne_nil r0 rs)] at hLlast
                  have := getLast?_mem (r0 :: rs) endv hLlast
                  rw [← hee] at this
                  rw [hr] at he_nr
                  exact he_nr this
              have hrf0 : (rest.filter
                  (fun x => decide (¬ x ∈ child))).length = 0 := by
                rw [hrest_nil]
                rfl
              have hfc1 : (child.filter (fun x => decide (x = -1))).length = 1 := by
                omega
              have hslot : nextFree child ip = child.length - 1 := by
                apply filter_neg_one_unique child (by omega) _ _ hs (by omega)
                  hfree hLfree
              left
              rw [hslot, getD_set, if_pos ⟨rfl, by omega⟩]
              exact hee
            · -- a non-final element never claims the last slot
              have hrne : rest ≠ [] := by
                intro hcon
                rw [hcon] at hLlast
                have : e = endv := by
                  have hx : ([e] : List Int).getLast? = some e := rfl
                  rw [hx] at hLlast
                  exact Option.some.inj hLlast
                exact hee this
              rw [getLast?_cons_of_ne_nil e rest hrne] at hLlast
              have hnotin2 : endv ∉ child.set (nextFree child ip) e := by
                rw [mem_set_iff child (nextFree child ip) hs hfree e endv hend]
                rintro (h | h)
                · exact hLnotin h
                · exact hee h.symm
              have hslotne : nextFree child ip ≠ child.length - 1 := by
                intro hcon
                have hoccall : ∀ k, k + 1 < child.length →
                    child.getD k 0 ≠ -1 := by
                  intro k hk
                  rcases Nat.lt_or_ge k ip with hk2 | hk2
                  · exact hpre k hk2
                  · exact hscan k hk2 (by omega)
                have hfcle := occupied_prefix_filter child hoccall
                have hmemf : (-1 : Int) ∈
                    child.filter (fun x => decide (x = -1)) := by
                  apply List.mem_filter.mpr
                  refine ⟨?_, by decide⟩
                  rw [List.getD_eq_getElem child 0 (by omega)] at hLfree
                  rw [← hLfree]
                  exact child.getElem_mem (by omega)
                have hfcge := List.length_pos.mpr (List.ne_nil_of_mem hmemf)
                have hfc1 : (child.filter (fun x => decide (x = -1))).length = 1 := by
                  omega
                have hrf0 : (rest.filter
                    (fun x => decide (¬ x ∈ child))).length = 0 := by omega
                have hrfnil := List.length_eq_zero.mp hrf0
                have hmemr : endv ∈ rest.filter (fun x => decide (¬ x ∈ child)) := by
                  apply List.mem_filter.mpr
                  exact ⟨getLast?_mem rest endv hLlast, by simpa using hLnotin⟩
                rw [hrfnil] at hmemr
                exact List.not_mem_nil endv hmemr
              right
              refine ⟨?_, hLlast, hnotin2⟩
              rw [getD_set, if_neg (by tauto)]
              exact hLfree
        have hres := ih (child.set (nextFree child ip) e) (nextFree child ip) B
          endv hnd2 hm2 hend (by omega) (by rw [hlenset]; exact hcard) hpre2 hL2
          hE2
        rw [hlenset] at hres
        exact hres
      · rw [if_neg hs]
        exfalso
        have hoccall : ∀ k, k < child.length → child.getD k 0 ≠ -1 := by
          intro k hk
          rcases Nat.lt_or_ge k ip with hk2 | hk2
          · exact hpre k hk2
          · exact hscan k hk2 (by omega)
        have hfcnil : child.filter (fun x => decide (x = -1)) = [] := by
          apply List.filter_eq_nil.mpr
          intro x hx
          obtain ⟨i, hi, hix⟩ := List.getElem_of_mem hx
          have := hoccall i hi
          rw [List.getD_eq_getElem child 0 hi, hix] at this
          simpa using this
        have hcards := congrArg Multiset.card hE
        rw [hfe, ← Multiset.cons_coe] at hcards
        rw [Multiset.card_add, Multiset.card_add, Multiset.coe_card,
          Multiset.card_cons, Multiset.coe_card, Multiset.card_replicate,
          hcard, hfcnil, List.length_nil] at hcards
        omega

/-- The freshly initialised crossover child: `-1` sentinels outside the copied
window `[a, b]`, the `parent1` slice inside it. -/
theorem child0_decomp (p1 : List Int) (a b : Nat) (hab : a ≤ b)
    (hb : b < p1.length) :
    (List.range p1.length).map
        (fun i => if a ≤ i ∧ i ≤ b then p1.getD i (-1) else -1) =
      List.replicate a (-1) ++ ((p1.drop a).take (b + 1 - a) ++
        List.replicate (p1.length - (b + 1)) (-1)) := by
  have hsplit : List.range p1.length =
      List.range' 0 a ++ (List.range' a (b + 1 - a) ++
        List.range' (b + 1) (p1.length - (b + 1))) := by
    have hinner := List.range'_append a (b + 1 - a) (p1.length - (b + 1)) 1
    rw [show a + 1 * (b + 1 - a) = b + 1 from by omega] at hinner
    rw [show p1.length - (b + 1) + (b + 1 - a) = p1.length - a from by omega]
      at hinner
    have houter := List.range'_append 0 a (p1.length - a) 1
    rw [show (0 : Nat) + 1 * a = a from by omega] at houter
    rw [show p1.length - a + a = p1.length from by omega] at houter
    rw [List.range_eq_range', ← houter, ← hinner]
  rw [hsplit, List.map_append, List.map_append]
  congr 1
  · apply List.eq_replicate.mpr
    constructor
    · rw [List.length_map, List.length_range']
    · intro x hx
      obtain ⟨i, hi, hix⟩ := List.mem_map.mp hx
      rw [List.mem_range'_1] at hi
      rw [← hix, if_neg (by omega)]
  congr 1
  · apply List.ext_getElem
    · rw [List.length_map, List.length_range', List.length_take,
        List.length_drop]
      omega
    · intro i h1 h2
      rw [List.getElem_map, List.getElem_range']
      rw [List.length_map, List.length_range'] at h1
      have hilt : a + i < p1.length := by omega
      rw [if_pos (by constructor <;> omega)]
      rw [List.getElem_take, List.getElem_drop]
      rw [List.getD_eq_getElem p1 (-1) (by omega)]
      congr 1
      omega
  · apply List.eq_replicate.mpr
    constructor
    · rw [List.length_map, List.length_range']
    · intro x hx
      obtain ⟨i, hi, hix⟩ := List.mem_map.mp hx
      rw [List.mem_range'_1] at hi
      rw [← hix, if_neg (by omega)]

theorem child0_getD (p1 : List Int) (a b : Nat) (i : Nat) (hi : i < p1.length) :
    ((List.range p1.length).map
        (fun j => if a ≤ j ∧ j ≤ b then p1.getD j (-1) else -1)).getD i 0 =
      if a ≤ i ∧ i ≤ b then p1.getD i 0 else -1 := by
  have hlen : ((List.range p1.length).map
      (fun j => if a ≤ j ∧ j ≤ b then p1.getD j (-1) else -1)).length =
      p1.length := by
    rw [List.length_map, List.length_range]
  rw [List.getD_eq_getElem _ 0 (by rw [hlen]; exact hi)]
  rw [List.getElem_map, List.getElem_range]
  by_cases hc : a ≤ i ∧ i ≤ b
  · rw [if_pos hc, if_pos hc]
    rw [List.getD_eq_getElem p1 (-1) hi, List.getD_eq_getElem p1 0 hi]
  · rw [if_neg hc, if_neg hc]

/-- OX-style crossover preserves the permutation property and the endpoints:
on nodup parents that are permutations of each other with matching first and
last vertices, the child is a permutation of `parent1` with the same first and
last vertices. -/
theorem crossover_spec (p1 p2 : List Int) (cutA cutB : Nat)
    (hnd : p1.Nodup) (hperm : p2.Perm p1) (hne : p1 ≠ [])
    (hm1 : (-1 : Int) ∉ p1)
    (hh2 : p2.getD 0 0 = p1.getD 0 0)
    (hl2 : p2.getD (p2.length - 1) 0 = p1.getD (p1.length - 1) 0) :
    (crossover p1 p2 cutA cutB).Perm p1 ∧
    (crossover p1 p2 cutA cutB).getD 0 0 = p1.getD 0 0 ∧
    (crossover p1 p2 cutA cutB).getD (p1.length - 1) 0 =
      p1.getD (p1.length - 1) 0 := by
  have hlen0 : 0 < p1.length := List.length_pos.mpr hne
  have hp1_mem_ne : ∀ x ∈ p1, x ≠ -1 := fun x hx h => hm1 (h ▸ hx)
  have hcross : crossover p1 p2 cutA cutB =
      fillLoop ((List.range p1.length).map
        (fun i => if min (cutA % p1.length) (cutB % p1.length) ≤ i ∧
          i ≤ max (cutA % p1.length) (cutB % p1.length) then p1.getD i (-1)
          else -1)) 0 p2 := rfl
  set a := min (cutA % p1.length) (cutB % p1.length) with hadef
  set b := max (cutA % p1.length) (cutB % p1.length) with hbdef
  set child0 := (List.range p1.length).map
    (fun i => if a ≤ i ∧ i ≤ b then p1.getD i (-1) else -1) with hcdef
  have hab : a ≤ b := min_le_max
  have hblt : b < p1.length := by
    rw [hbdef]
    apply max_lt (Nat.mod_lt _ hlen0) (Nat.mod_lt _ hlen0)
  have hclen : child0.length = p1.length := by
    rw [hcdef, List.length_map, List.length_range]
  have hdecomp := child0_decomp p1 a b hab hblt
  rw [← hcdef] at hdecomp
  set mid := (p1.drop a).take (b + 1 - a) with hmiddef
  have hp1dec : p1 = p1.take a ++ (mid ++ p1.drop (b + 1)) := by
    have h1 : p1.drop (b + 1) = (p1.drop a).drop (b + 1 - a) := by
      rw [List.drop_drop]
      congr 1
      omega
    rw [h1, hmiddef, List.take_append_drop, List.take_append_drop]
  have hmid_p1 : ∀ x ∈ mid, x ∈ p1 := fun x hx =>
    List.mem_of_mem_drop (List.mem_of_mem_take hx)
  have hnd_split : (p1.take a ++ (mid ++ p1.drop (b + 1))).Nodup := by
    rw [← hp1dec]
    exact hnd
  have hdisj1 : ∀ x ∈ p1.take a, x ∉ mid ++ p1.drop (b + 1) :=
    fun x hx hx2 => (List.nodup_append.mp hnd_split).2.2 hx hx2
  have hnd23 : (mid ++ p1.drop (b + 1)).Nodup :=
    (List.nodup_append.mp hnd_split).2.1
  have hdisj2 : ∀ x ∈ mid, x ∉ p1.drop (b + 1) :=
    fun x hx hx2 => (List.nodup_append.mp hnd23).2.2 hx hx2
  have hmemc : ∀ x : Int, x ≠ -1 → (x ∈ child0 ↔ x ∈ mid) := by
    intro x hx
    rw [hdecomp, List.mem_append, List.mem_append]
    constructor
    · rintro (h | h | h)
      · exact absurd (List.eq_of_mem_replicate h) hx
      · exact h
      · exact absurd (List.eq_of_mem_replicate h) hx
    · intro h
      exact Or.inr (Or.inl h)
  have hrepA : (List.replicate a (-1 : Int)).filter
      (fun x => decide (¬ x = -1)) = [] :=
    List.filter_eq_nil_iff.mpr (fun x hx => by
      rw [List.eq_of_mem_replicate hx]
      decide)
  have hrepC : (List.replicate (p1.length - (b + 1)) (-1 : Int)).filter
      (fun x => decide (¬ x = -1)) = [] :=
    List.filter_eq_nil_iff.mpr (fun x hx => by
      rw [List.eq_of_mem_replicate hx]
      decide)
  have hmidf : mid.filter (fun x => decide (¬ x = -1)) = mid :=
    List.filter_eq_self.mpr (fun x hx => by
      simpa using hp1_mem_ne x (hmid_p1 x hx))
  have hkey1 : child0.filter (fun x => decide (¬ x = -1)) = mid := by
    rw [hdecomp, List.filter_append, List.filter_append, hrepA, hrepC, hmidf]
    simp
  have htakef : (p1.take a).filter (fun x => decide (x ∈ mid)) = [] :=
    List.filter_eq_nil_iff.mpr (fun x hx => by
      simpa using fun hmem => (hdisj1 x hx) (List.mem_append_left _ hmem))
  have hmidf2 : mid.filter (fun x => decide (x ∈ mid)) = mid :=
    List.filter_eq_self.mpr (fun x hx => by simpa using hx)
  have hdropf : (p1.drop (b + 1)).filter (fun x => decide (x ∈ mid)) = [] :=
    List.filter_eq_nil_iff.mpr (fun x hx => by
      simpa using fun hmem => hdisj2 x hmem hx)
  have hkey2 : p1.filter (fun x => decide (x ∈ child0)) = mid := by
    have hcongr : p1.filter (fun x => decide (x ∈ child0)) =
        p1.filter (fun x => decide (x ∈ mid)) := by
      apply List.filter_congr
      intro x hx
      exact decide_eq_decide.mpr (hmemc x (hp1_mem_ne x hx))
    rw [hcongr]
    conv_lhs => rw [hp1dec]
    rw [List.filter_append, List.filter_append, htakef, hmidf2, hdropf]
    simp
  have hfc0 : child0.filter (fun x => decide (x = -1)) =
      List.replicate ((child0.filter (fun x => decide (x = -1))).length)
        (-1) := by
    apply List.eq_replicate_iff.mpr
    refine ⟨rfl, ?_⟩
    intro x hx
    simpa using List.of_mem_filter hx
  have hnotfun1 : (fun x : Int => decide (¬ x = -1)) =
      (fun x : Int => !decide (x = -1)) := by
    funext x
    exact decide_not
  have hnotfun2 : (fun x : Int => decide (¬ x ∈ child0)) =
      (fun x : Int => !decide (x ∈ child0)) := by
    funext x
    exact decide_not
  have hsplitc : (↑child0 : Multiset Int) =
      (↑(child0.filter (fun x => decide (x = -1))) : Multiset Int) +
        ↑(child0.filter (fun x => decide (¬ x = -1))) := by
    rw [hnotfun1, Multiset.coe_add]
    exact (Multiset.coe_eq_coe.mpr (List.filter_append_perm _ child0)).symm
  have hsplitp : (↑p1 : Multiset Int) =
      (↑(p1.filter (fun x => decide (x ∈ child0))) : Multiset Int) +
        ↑(p1.filter (fun x => decide (¬ x ∈ child0))) := by
    rw [hnotfun2, Multiset.coe_add]
    exact (Multiset.coe_eq_coe.mpr (List.filter_append_perm _ p1)).symm
  have hR : (↑(child0.filter (fun x => decide (x = -1))) : Multiset Int) =
      Multiset.replicate
        ((child0.filter (fun x => decide (x = -1))).length) (-1) := by
    conv_lhs => rw [hfc0]
    exact Multiset.coe_replicate _ _
  have hE0 : (↑child0 : Multiset Int) +
      (↑(p2.filter (fun x => decide (¬ x ∈ child0))) : Multiset Int) =
      (↑p1 : Multiset Int) + Multiset.replicate
        ((child0.filter (fun x => decide (x = -1))).length) (-1) := by
    have hpf : List.Perm (p2.filter (fun x => decide (¬ x ∈ child0)))
        (p1.filter (fun x => decide (¬ x ∈ child0))) := hperm.filter _
    rw [Multiset.coe_eq_coe.mpr hpf, hsplitc, hkey1, hR, hsplitp, hkey2,
      add_assoc]
    exact add_comm _ _
  have hendmem : p1.getD (p1.length - 1) 0 ∈ p1 := by
    rw [List.getD_eq_getElem p1 0 (by omega)]
    exact p1.getElem_mem _
  have hend_ne : p1.getD (p1.length - 1) 0 ≠ -1 := hp1_mem_ne _ hendmem
  have hp2len := hperm.length_eq
  have hp2ne : p2 ≠ [] := by
    intro hcon
    rw [hcon] at hp2len
    simp at hp2len
    omega
  have hL0 : child0.getD (child0.length - 1) 0 = p1.getD (p1.length - 1) 0 ∨
      (child0.getD (child0.length - 1) 0 = -1 ∧
        p2.getLast? = some (p1.getD (p1.length - 1) 0) ∧
        p1.getD (p1.length - 1) 0 ∉ child0) := by
    rw [hclen]
    have hg := child0_getD p1 a b (p1.length - 1) (by omega)
    rw [← hcdef] at hg
    by_cases hbl : b = p1.length - 1
    · left
      rw [hg, if_pos ⟨by omega, by omega⟩]
    · have hblt2 : b < p1.length - 1 := by omega
      right
      refine ⟨by rw [hg, if_neg (by omega)], ?_, ?_⟩
      · rw [getLast?_eq_getD p2 hp2ne, hl2]
      · intro hcon
        rw [hmemc _ hend_ne] at hcon
        obtain ⟨j, hj, hjv⟩ := List.getElem_of_mem hcon
        rw [← List.getD_eq_getElem mid 0 hj] at hjv
        have hjlen : j < b + 1 - a := by
          rw [hmiddef, List.length_take, List.length_drop] at hj
          omega
        rw [hmiddef] at hjv
        rw [List.getD_eq_getElem ((p1.drop a).take (b + 1 - a)) 0 (by
            rw [List.length_take, List.length_drop]
            omega),
          List.getD_eq_getElem p1 0
            (show p1.length - 1 < p1.length from by omega)] at hjv
        simp only [List.getElem_take, List.getElem_drop] at hjv
        have hinj := (List.Nodup.getElem_inj_iff hnd).mp hjv
        omega
  have hfill := fill_master p2 child0 0 (↑p1) (p1.getD (p1.length - 1) 0)
    (hperm.nodup_iff.mpr hnd) (fun hc => hm1 (hperm.mem_iff.mp hc))
    hend_ne (by rw [hclen]; exact hlen0) (by rw [Multiset.coe_card, hclen])
    (fun k hk => absurd hk (Nat.not_lt_zero k)) hL0 hE0
  rw [← hcross] at hfill
  obtain ⟨hfill1, hfill2⟩ := hfill
  refine ⟨Multiset.coe_eq_coe.mp (by rw [hfill1]), ?_, ?_⟩
  · by_cases ha0 : a = 0
    · have hocc : child0.getD 0 0 = p1.getD 0 0 := by
        have hg := child0_getD p1 a b 0 hlen0
        rw [← hcdef] at hg
        rw [hg, if_pos ⟨by omega, by omega⟩]
      have hstartmem : p1.getD 0 0 ∈ p1 := by
        rw [List.getD_eq_getElem p1 0 hlen0]
        exact p1.getElem_mem _
      have hp := fillLoop_preserve p2 child0 0 0
        (by rw [hocc]; exact hp1_mem_ne _ hstartmem)
      rw [hcross, hp, hocc]
    · have hget0 : child0.getD 0 0 = -1 := by
        have hg := child0_getD p1 a b 0 hlen0
        rw [← hcdef] at hg
        rw [hg, if_neg (by omega)]
      obtain ⟨h2, t2, hp2⟩ : ∃ h2 t2, p2 = h2 :: t2 := by
        cases p2 with
        | nil => exact absurd rfl hp2ne
        | cons x xs => exact ⟨x, xs, rfl⟩
      have hstartmem : p1.getD 0 0 ∈ p1 := by
        rw [List.getD_eq_getElem p1 0 hlen0]
        exact p1.getElem_mem _
      have hh2v : h2 = p1.getD 0 0 := by
        rw [← hh2, hp2]
        rfl
      have hh2ne : h2 ≠ -1 := by
        rw [hh2v]
        exact hp1_mem_ne _ hstartmem
      have hh2notin : h2 ∉ child0 := by
        rw [hmemc h2 hh2ne]
        intro hcon
        have hmemtake : h2 ∈ p1.take a := by
          have h0a : 0 < (p1.take a).length := by
            rw [List.length_take]
            omega
          have hmem := (p1.take a).getElem_mem h0a
          rw [List.getElem_take] at hmem
          rw [hh2v, List.getD_eq_getElem p1 0 hlen0]
          exact hmem
        exact hdisj1 h2 hmemtake (List.mem_append_left _ hcon)
      have hnf : nextFree child0 0 = 0 := by
        by_contra h
        exact (nextFree_spec child0 0).2.1 0 (by omega) (by omega) hget0
      have hstep : fillLoop child0 0 p2 = fillLoop (child0.set 0 h2) 0 t2 := by
        rw [hp2]
        have heq : fillLoop child0 0 (h2 :: t2) =
            if h2 ∈ child0 then fillLoop child0 0 t2
            else if nextFree child0 0 < child0.length then
              fillLoop (child0.set (nextFree child0 0) h2)
                (nextFree child0 0) t2
            else fillLoop child0 (nextFree child0 0) t2 := rfl
        rw [heq, if_neg hh2notin, hnf, if_pos (by omega)]
      have hset0 : (child0.set 0 h2).getD 0 0 = h2 := by
        rw [getD_set, if_pos ⟨rfl, by omega⟩]
      have hp := fillLoop_preserve t2 (child0.set 0 h2) 0 0
        (by rw [hset0]; exact hh2ne)
      rw [hcross, hstep, hp, hset0, hh2v]
  · rw [hclen] at hfill2
    exact hfill2

theorem getD_of_head? (l : List Int) (s : Int) (h : l.head? = some s) :
    l ≠ [] ∧ l.getD 0 0 = s := by
  cases l with
  | nil => exact Option.noConfusion h
  | cons a t =>
    refine ⟨List.cons_ne_nil a t, ?_⟩
    have : a = s := Option.some.inj h
    rw [← this]
    rfl

theorem getD_of_getLast? (l : List Int) (s : Int) (h : l.getLast? = some s) :
    l ≠ [] ∧ l.getD (l.length - 1) 0 = s := by
  have hne : l ≠ [] := by
    intro hc
    rw [hc, List.getLast?_nil] at h
    exact Option.noConfusion h
  rw [getLast?_eq_getD l hne] at h
  exact ⟨hne, Option.some.inj h⟩

theorem swapL_spec (p : List Int) (i j : Nat) (hi0 : 0 < i) (hj0 : 0 < j)
    (hi : i < p.length - 1) (hj : j < p.length - 1) (hij : i ≠ j) :
    (swapL p i j 0).Perm p ∧
    (swapL p i j 0).getD 0 0 = p.getD 0 0 ∧
    (swapL p i j 0).getD (p.length - 1) 0 = p.getD (p.length - 1) 0 := by
  have hilen : i < p.length := by omega
  have hjlen : j < p.length := by omega
  refine ⟨?_, ?_, ?_⟩
  · have h1 := set_perm p i hilen (p.getD j 0)
    have hjlen2 : j < (p.set i (p.getD j 0)).length := by
      rw [List.length_set]
      omega
    have h2 := set_perm (p.set i (p.getD j 0)) j hjlen2 (p.getD i 0)
    have hgd : (p.set i (p.getD j 0)).getD j 0 = p.getD j 0 := by
      rw [getD_set, if_neg (by rintro ⟨hc, -⟩; exact hij hc)]
    rw [hgd] at h2
    exact (h2.trans h1).cons_inv
  · show ((p.set i (p.getD j 0)).set j (p.getD i 0)).getD 0 0 = p.getD 0 0
    rw [getD_set, if_neg (by rintro ⟨hc, -⟩; omega),
      getD_set, if_neg (by rintro ⟨hc, -⟩; omega)]
  · show ((p.set i (p.getD j 0)).set j (p.getD i 0)).getD (p.length - 1) 0 =
      p.getD (p.length - 1) 0
    rw [getD_set, if_neg (by rintro ⟨hc, -⟩; omega),
      getD_set, if_neg (by rintro ⟨hc, -⟩; omega)]

theorem mutate_spec (p : List Int) (ma mb : Nat) :
    (mutate p ma mb).Perm p ∧
    (mutate p ma mb).head? = p.head? ∧
    (mutate p ma mb).getLast? = p.getLast? := by
  unfold mutate
  by_cases h3 : p.length < 3
  · rw [if_pos h3]
    exact ⟨List.Perm.refl p, rfl, rfl⟩
  · rw [if_neg h3]
    simp only
    by_cases hij : 1 + ma % (p.length - 2) = 1 + mb % (p.length - 2)
    · rw [if_pos hij]
      exact ⟨List.Perm.refl p, rfl, rfl⟩
    · rw [if_neg hij]
      have hm2 : 0 < p.length - 2 := by omega
      have hia := Nat.mod_lt ma hm2
      have hib := Nat.mod_lt mb hm2
      obtain ⟨hperm, hhead, hlast⟩ := swapL_spec p (1 + ma % (p.length - 2))
        (1 + mb % (p.length - 2)) (by omega) (by omega) (by omega) (by omega)
        hij
      have hpne : p ≠ [] := by
        intro hc
        rw [hc] at h3
        exact h3 (by decide)
      have hsne : swapL p (1 + ma % (p.length - 2))
          (1 + mb % (p.length - 2)) 0 ≠ [] := by
        apply List.ne_nil_of_length_pos
        rw [swapL_length]
        omega
      have hslen : (swapL p (1 + ma % (p.length - 2))
          (1 + mb % (p.length - 2)) 0).length = p.length := swapL_length p _ _ 0
      refine ⟨hperm, ?_, ?_⟩
      · rw [head?_eq_getD _ hsne, head?_eq_getD p hpne, hhead]
      · rw [getLast?_eq_getD _ hsne, getLast?_eq_getD p hpne, hslen, hlast]

theorem crossover_keeps (base p1 p2 : List Int) (cutA cutB : Nat)
    (hbnd : base.Nodup) (hbm1 : (-1 : Int) ∉ base) (hbne : base ≠ [])
    (hp1 : p1.Perm base ∧ p1.head? = base.head? ∧ p1.getLast? = base.getLast?)
    (hp2 : p2.Perm base ∧ p2.head? = base.head? ∧
      p2.getLast? = base.getLast?) :
    (crossover p1 p2 cutA cutB).Perm base ∧
    (crossover p1 p2 cutA cutB).head? = base.head? ∧
    (crossover p1 p2 cutA cutB).getLast? = base.getLast? := by
  obtain ⟨hp1p, hp1h, hp1l⟩ := hp1
  obtain ⟨hp2p, hp2h, hp2l⟩ := hp2
  have hnd1 : p1.Nodup := hp1p.nodup_iff.mpr hbnd
  have hperm21 : p2.Perm p1 := hp2p.trans hp1p.symm
  have hne1 : p1 ≠ [] := by
    intro hc
    have hlen := hp1p.length_eq
    rw [hc, List.length_nil] at hlen
    exact hbne (List.length_eq_zero.mp hlen.symm)
  have hm1 : (-1 : Int) ∉ p1 := fun hmem => hbm1 (hp1p.mem_iff.mp hmem)
  have hbh := head?_eq_getD base hbne
  have hbl := getLast?_eq_getD base hbne
  have h1h := getD_of_head? p1 (base.getD 0 0) (by rw [hp1h, hbh])
  have h2h := getD_of_head? p2 (base.getD 0 0) (by rw [hp2h, hbh])
  have h1l := getD_of_getLast? p1 (base.getD (base.length - 1) 0)
    (by rw [hp1l, hbl])
  have h2l := getD_of_getLast? p2 (base.getD (base.length - 1) 0)
    (by rw [hp2l, hbl])
  obtain ⟨hcp, hch, hcl⟩ := crossover_spec p1 p2 cutA cutB hnd1 hperm21 hne1
    hm1 (by rw [h2h.2, h1h.2]) (by rw [h2l.2, h1l.2])
  have hclen2 : (crossover p1 p2 cutA cutB).length = p1.length :=
    crossover_length p1 p2 cutA cutB
  have hcne : crossover p1 p2 cutA cutB ≠ [] := by
    apply List.ne_nil_of_length_pos
    rw [hclen2]
    exact List.length_pos.mpr hne1
  refine ⟨hcp.trans hp1p, ?_, ?_⟩
  · rw [head?_eq_getD _ hcne, hch, h1h.2, hbh]
  · rw [getLast?_eq_getD _ hcne, hclen2, hcl, h1l.2, hbl]

theorem mkChild_keeps (base : List Int) (pop : List (List Int))
    (hbnd : base.Nodup) (hbm1 : (-1 : Int) ∉ base) (hbne : base ≠ [])
    (hpop_ne : pop ≠ [])
    (hpop : ∀ p ∈ pop, p.Perm base ∧ p.head? = base.head? ∧
      p.getLast? = base.getLast?) (dr : ChildDraw) :
    (mkChild pop dr).Perm base ∧ (mkChild pop dr).head? = base.head? ∧
      (mkChild pop dr).getLast? = base.getLast? := by
  have hp1 := hpop _ (selectM_mem pop hpop_ne dr.sel1)
  have hp2 := hpop _ (selectM_mem pop hpop_ne dr.sel2)
  have hchild : (if dr.cross then crossover (selectM pop dr.sel1)
        (selectM pop dr.sel2) dr.cutA dr.cutB else
        selectM pop dr.sel1).Perm base ∧
      (if dr.cross then crossover (selectM pop dr.sel1)
        (selectM pop dr.sel2) dr.cutA dr.cutB else
        selectM pop dr.sel1).head? = base.head? ∧
      (if dr.cross then crossover (selectM pop dr.sel1)
        (selectM pop dr.sel2) dr.cutA dr.cutB else
        selectM pop dr.sel1).getLast? = base.getLast? := by
    by_cases hc : dr.cross
    · simp only [if_pos hc]
      exact crossover_keeps base _ _ dr.cutA dr.cutB hbnd hbm1 hbne hp1 hp2
    · simp only [if_neg hc]
      exact hp1
  have hres : mkChild pop dr =
      if dr.doMut then mutate (if dr.cross then crossover (selectM pop dr.sel1)
        (selectM pop dr.sel2) dr.cutA dr.cutB else selectM pop dr.sel1)
        dr.mutA dr.mutB
      else (if dr.cross then crossover (selectM pop dr.sel1)
        (selectM pop dr.sel2) dr.cutA dr.cutB else selectM pop dr.sel1) := rfl
  rw [hres]
  by_cases hm : dr.doMut
  · simp only [if_pos hm]
    obtain ⟨hmp, hmh, hml⟩ := mutate_spec (if dr.cross then
      crossover (selectM pop dr.sel1) (selectM pop dr.sel2) dr.cutA dr.cutB
      else selectM pop dr.sel1) dr.mutA dr.mutB
    exact ⟨hmp.trans hchild.1, by rw [hmh]; exact hchild.2.1,
      by rw [hml]; exact hchild.2.2⟩
  · simp only [if_neg hm]
    exact hchild

theorem gaGeneration_keeps (m : List (List Int)) (base : List Int)
    (pop : List (List Int)) (best0 : List Int) (draws : Nat → ChildDraw)
    (hbnd : base.Nodup) (hbm1 : (-1 : Int) ∉ base) (hbne : base ≠ [])
    (hpop_ne : pop ≠ [])
    (hpop : ∀ p ∈ pop, p.Perm base ∧ p.head? = base.head? ∧
      p.getLast? = base.getLast?) :
    ∀ p ∈ (gaGeneration m pop best0 draws).2,
      p.Perm base ∧ p.head? = base.head? ∧ p.getLast? = base.getLast? := by
  intro p hp
  have h2 : (gaGeneration m pop best0 draws).2 =
      gaElites m pop ++
        (List.range (100 - (gaElites m pop).length)).map
          (fun k => mkChild pop (draws k)) := rfl
  rw [h2] at hp
  rcases List.mem_append.mp hp with hp | hp
  · exact hpop p (gaElites_subset m pop p hp)
  · obtain ⟨k, _, hk⟩ := List.mem_map.mp hp
    rw [← hk]
    exact mkChild_keeps base pop hbnd hbm1 hbne hpop_ne hpop _

theorem gaRun_keeps (m : List (List Int)) (base : List Int)
    (hbnd : base.Nodup) (hbm1 : (-1 : Int) ∉ base) (hbne : base ≠ []) :
    ∀ (gens : List (Nat → ChildDraw)) (pop : List (List Int))
      (best : List Int),
      pop ≠ [] →
      (∀ p ∈ pop, p.Perm base ∧ p.head? = base.head? ∧
        p.getLast? = base.getLast?) →
      ∀ q ∈ (gaRun m gens pop best).2.2, ∀ p ∈ q,
        p.Perm base ∧ p.head? = base.head? ∧
          p.getLast? = base.getLast? := by
  intro gens
  induction gens with
  | nil =>
    intro pop best _ _ q hq
    exact absurd hq (List.not_mem_nil q)
  | cons g rest ih =>
    intro pop best hne hpop q hq
    have hstep : (gaRun m (g :: rest) pop best).2.2 =
        pop :: (gaRun m rest (gaGeneration m pop best g).2
          (gaGeneration m pop best g).1.2).2.2 := rfl
    rw [hstep] at hq
    rcases List.mem_cons.mp hq with hq | hq
    · rw [hq]
      exact hpop
    · have hmemne : ∀ p ∈ pop, p ≠ [] := by
        intro p hp hc
        obtain ⟨hperm, -, -⟩ := hpop p hp
        rw [hc] at hperm
        have hl := hperm.length_eq
        rw [List.length_nil] at hl
        exact hbne (List.length_eq_zero.mp hl.symm)
      obtain ⟨hNPne, -, -⟩ := gaGeneration_pop m pop best g hne hmemne
      exact ih (gaGeneration m pop best g).2 (gaGeneration m pop best g).1.2
        hNPne
        (gaGeneration_keeps m base pop best g hbnd hbm1 hbne hne hpop) q hq

theorem base_facts (start e : Int) (vertices : Nat)
    (h0s : 0 ≤ start) (h0e : 0 ≤ e) (hse : start ≠ e) :
    (start :: ((((List.range vertices).map (fun i : Nat => (i : Int))).filter
      (fun i => i ≠ start ∧ i ≠ e)) ++ [e])).Nodup ∧
    (-1 : Int) ∉ start :: ((((List.range vertices).map
      (fun i : Nat => (i : Int))).filter (fun i => i ≠ start ∧ i ≠ e)) ++ [e]) ∧
    (start :: ((((List.range vertices).map (fun i : Nat => (i : Int))).filter
      (fun i => i ≠ start ∧ i ≠ e)) ++ [e])).head? = some start ∧
    (start :: ((((List.range vertices).map (fun i : Nat => (i : Int))).filter
      (fun i => i ≠ start ∧ i ≠ e)) ++ [e])).getLast? = some e := by
  have hinj : Function.Injective (fun i : Nat => (i : Int)) := by
    intro x y hxy
    have hxy2 : (x : Int) = y := hxy
    exact_mod_cast hxy2
  have hmap_nd : ((List.range vertices).map (fun i : Nat => (i : Int))).Nodup :=
    (List.nodup_range vertices).map hinj
  have hnodes_nd : (((List.range vertices).map (fun i : Nat => (i : Int))).filter
      (fun i => i ≠ start ∧ i ≠ e)).Nodup := hmap_nd.filter _
  have hstart_notin : start ∉ ((List.range vertices).map
      (fun i : Nat => (i : Int))).filter (fun i => i ≠ start ∧ i ≠ e) := by
    intro h
    have h2 := List.of_mem_filter h
    rw [decide_eq_true_eq] at h2
    exact h2.1 rfl
  have he_notin : e ∉ ((List.range vertices).map
      (fun i : Nat => (i : Int))).filter (fun i => i ≠ start ∧ i ≠ e) := by
    intro h
    have h2 := List.of_mem_filter h
    rw [decide_eq_true_eq] at h2
    exact h2.2 rfl
  have hnodes_nonneg : ∀ x ∈ ((List.range vertices).map
      (fun i : Nat => (i : Int))).filter (fun i => i ≠ start ∧ i ≠ e), 0 ≤ x := by
    intro x hx
    obtain ⟨i, _, hi⟩ := List.mem_map.mp (List.mem_of_mem_filter hx)
    rw [← hi]
    exact Int.natCast_nonneg i
  refine ⟨?_, ?_, rfl, ?_⟩
  · rw [List.nodup_cons]
    constructor
    · intro h
      rcases List.mem_append.mp h with h | h
      · exact hstart_notin h
      · rw [List.mem_singleton] at h
        exact hse h
    · rw [List.nodup_append]
      refine ⟨hnodes_nd, List.nodup_singleton e, ?_⟩
      intro x hx hx2
      rw [List.mem_singleton] at hx2
      rw [hx2] at hx
      exact he_notin hx
  · intro h
    rcases List.mem_cons.mp h with h | h
    · omega
    · rcases List.mem_append.mp h with h | h
      · have := hnodes_nonneg _ h
        omega
      · rw [List.mem_singleton] at h
        omega
  · rw [← List.cons_append]
    exact List.getLast?_concat _

theorem initialize_population_keeps (start e : Int)
    (vertices population_size : Nat) (shuffle : Nat → List Int → List Int)
    (hsh : ∀ k l, (shuffle k l).Perm l) :
    ∀ p ∈ initialize_population start e vertices population_size shuffle,
      p.Perm (start :: ((((List.range vertices).map (fun i : Nat => (i : Int))).filter
        (fun i => i ≠ start ∧ i ≠ e)) ++ [e])) ∧
      p.head? = some start ∧ p.getLast? = some e := by
  intro p hp
  have he : initialize_population start e vertices population_size shuffle =
      (List.range population_size).map (fun k => start ::
        (shuffle k (((List.range vertices).map (fun i : Nat => (i : Int))).filter
          (fun i => i ≠ start ∧ i ≠ e)) ++ [e])) := rfl
  rw [he] at hp
  obtain ⟨k, _, hk⟩ := List.mem_map.mp hp
  rw [← hk]
  refine ⟨?_, rfl, ?_⟩
  · exact List.Perm.cons start ((hsh k _).append_right [e])
  · rw [← List.cons_append]
    exact List.getLast?_concat _

/-- C9: crossover on nodup parents that are permutations of the same vertex
set with matching first and last vertices yields a same-length path that is
again a permutation of that set with the same first and last vertices; mutate
preserves the property unconditionally; and, provided the shuffle oracle
permutes the middle nodes, every individual of every population scanned by
the genetic search from the initial population is a permutation of
`start :: middle ++ [end]` beginning with `start` and ending with `end`. -/
theorem claim_C9_permutation_invariant :
    (∀ (base p1 p2 : List Int) (cutA cutB : Nat),
      base.Nodup → (∀ v ∈ base, 0 ≤ v) → base ≠ [] →
      p1.Perm base → p2.Perm base →
      p1.head? = base.head? → p2.head? = base.head? →
      p1.getLast? = base.getLast? → p2.getLast? = base.getLast? →
      (crossover p1 p2 cutA cutB).length = p1.length ∧
      (crossover p1 p2 cutA cutB).Perm base ∧
      (crossover p1 p2 cutA cutB).head? = base.head? ∧
      (crossover p1 p2 cutA cutB).getLast? = base.getLast?) ∧
    (∀ (p : List Int) (ma mb : Nat),
      (mutate p ma mb).length = p.length ∧
      (mutate p ma mb).Perm p ∧
      (mutate p ma mb).head? = p.head? ∧
      (mutate p ma mb).getLast? = p.getLast?) ∧
    (∀ (start e : Int) (vertices : Nat) (shuffle : Nat → List Int → List Int)
      (gens : List (Nat → ChildDraw)) (m : List (List Int)),
      0 ≤ start → 0 ≤ e → start ≠ e →
      (∀ k l, (shuffle k l).Perm l) →
      ∀ q ∈ (gaRun m gens
        (initialize_population start e vertices 100 shuffle) []).2.2,
      ∀ p ∈ q,
        p.Perm (start :: ((((List.range vertices).map
          (fun i : Nat => (i : Int))).filter
          (fun i => i ≠ start ∧ i ≠ e)) ++ [e])) ∧
        p.head? = some start ∧ p.getLast? = some e) := by
  refine ⟨?_, ?_, ?_⟩
  · intro base p1 p2 cutA cutB hbnd hnn hbne hp1p hp2p hp1h hp2h hp1l hp2l
    have hbm1 : (-1 : Int) ∉ base := by
      intro h
      have := hnn _ h
      omega
    obtain ⟨hcp, hch, hcl⟩ := crossover_keeps base p1 p2 cutA cutB hbnd hbm1
      hbne ⟨hp1p, hp1h, hp1l⟩ ⟨hp2p, hp2h, hp2l⟩
    exact ⟨crossover_length p1 p2 cutA cutB, hcp, hch, hcl⟩
  · intro p ma mb
    obtain ⟨h1, h2, h3⟩ := mutate_spec p ma mb
    exact ⟨mutate_length p ma mb, h1, h2, h3⟩
  · intro start e vertices shuffle gens m h0s h0e hse hsh q hq p hp
    obtain ⟨hbnd, hbm1, hbh, hbl⟩ := base_facts start e vertices h0s h0e hse
    have hp0ne : initialize_population start e vertices 100 shuffle ≠ [] := by
      apply List.ne_nil_of_length_pos
      have hl100 : (initialize_population start e vertices 100
          shuffle).length = 100 := by
        simp [initialize_population]
      omega
    have hmemb : ∀ p0 ∈ initialize_population start e vertices 100 shuffle,
        p0.Perm (start :: ((((List.range vertices).map
          (fun i : Nat => (i : Int))).filter
          (fun i => i ≠ start ∧ i ≠ e)) ++ [e])) ∧
        p0.head? = (start :: ((((List.range vertices).map
          (fun i : Nat => (i : Int))).filter
          (fun i => i ≠ start ∧ i ≠ e)) ++ [e])).head? ∧
        p0.getLast? = (start :: ((((List.range vertices).map
          (fun i : Nat => (i : Int))).filter
          (fun i => i ≠ start ∧ i ≠ e)) ++ [e])).getLast? := by
      intro p0 hp0
      obtain ⟨ha, hb, hc⟩ := initialize_population_keeps start e vertices 100
        shuffle hsh p0 hp0
      exact ⟨ha, by rw [hb, hbh], by rw [hc, hbl]⟩
    obtain ⟨hA, hB, hC⟩ := gaRun_keeps m
      (start :: ((((List.range vertices).map
        (fun i : Nat => (i : Int))).filter
        (fun i => i ≠ start ∧ i ≠ e)) ++ [e]))
      hbnd hbm1 (List.cons_ne_nil _ _) gens
      (initialize_population start e vertices 100 shuffle) [] hp0ne hmemb
      q hq p hp
    exact ⟨hA, by rw [hB, hbh], by rw [hC, hbl]⟩

theorem claim_C9_witness :
    ([0, 2, 3, 1] : List Int).Nodup ∧
    (∀ v ∈ ([0, 2, 3, 1] : List Int), (0 : Int) ≤ v) ∧
    ([0, 2, 3, 1] : List Int) ≠ [] ∧
    ([0, 3, 2, 1] : List Int).Perm [0, 2, 3, 1] ∧
    ([0, 2, 3, 1] : List Int).Perm [0, 2, 3, 1] ∧
    ([0, 3, 2, 1] : List Int).head? = ([0, 2, 3, 1] : List Int).head? ∧
    ([0, 2, 3, 1] : List Int).head? = ([0, 2, 3, 1] : List Int).head? ∧
    ([0, 3, 2, 1] : List Int).getLast? = ([0, 2, 3, 1] : List Int).getLast? ∧
    ([0, 2, 3, 1] : List Int).getLast? = ([0, 2, 3, 1] : List Int).getLast? ∧
    ((crossover [0, 3, 2, 1] [0, 2, 3, 1] 1 2).length =
        ([0, 3, 2, 1] : List Int).length ∧
      (crossover [0, 3, 2, 1] [0, 2, 3, 1] 1 2).Perm [0, 2, 3, 1] ∧
      (crossover [0, 3, 2, 1] [0, 2, 3, 1] 1 2).head? =
        ([0, 2, 3, 1] : List Int).head? ∧
      (crossover [0, 3, 2, 1] [0, 2, 3, 1] 1 2).getLast? =
        ([0, 2, 3, 1] : List Int).getLast?) :=
  ⟨by decide, by decide, by decide, by decide, by decide, by decide, by decide,
    by decide, by decide,
    claim_C9_permutation_invariant.1 [0, 2, 3, 1] [0, 3, 2, 1] [0, 2, 3, 1] 1 2
      (by decide) (by decide) (by decide) (by decide) (by decide) (by decide)
      (by decide) (by decide) (by decide)⟩

end Route
